import Mathlib

/-!
# Verification of the turbo-geth state-storage core against its specification

This file gives a shallow embedding, in Lean 4, of the parts of the
turbo-geth repository that the specification's claims are about:

* the timestamp (block number) encoding `encodeTimestamp` / `decodeTimestamp`
  (`cmd/hack/hack.go`),
* the change-index walker `rewindData` and `GetModifiedAccounts`
  (`ethdb/walk.go`),
* the trie-free state reader `DbState` (`state` package),
* the Merkle Patricia Trie with its proof subsystem (`Prove` /
  `VerifyProof`), whose implementation is modelled from the specification
  (only its tests are available),
* the history model behind `GetAsOf` and `TrieDbState.UnwindTo`, modelled
  from the specification.

Go byte strings are embedded as `List Nat` whose entries are intended to be
`< 256`; machine-word overflow is made explicit with `% 2 ^ 64` (or `% 256`)
exactly where the Go code truncates.
-/

/-- Byte strings: lists of byte values (each `< 256` in well-formed data). -/
abbrev Bytes := List Nat

/-! ## Byte-lexicographic order (the order of `bytes.Compare` and of bolt
key iteration): a proper prefix is smaller than its extensions. -/

/-- `lexLt a b` is true iff `a` is strictly before `b` in byte-lexicographic
order, matching Go's `bytes.Compare(a, b) < 0`. -/
def lexLt : Bytes → Bytes → Bool
  | [], [] => false
  | [], _ :: _ => true
  | _ :: _, [] => false
  | a :: as, b :: bs => if a < b then true else if b < a then false else lexLt as bs

theorem lexLt_irrefl (a : Bytes) : lexLt a a = false := by
  induction a with
  | nil => rfl
  | cons x xs ih => simp [lexLt, ih]

theorem lexLt_asymm {a b : Bytes} (h : lexLt a b = true) : lexLt b a = false := by
  induction a generalizing b with
  | nil => cases b with
    | nil => simp [lexLt] at h
    | cons y ys => simp [lexLt]
  | cons x xs ih =>
    cases b with
    | nil => simp [lexLt] at h
    | cons y ys =>
      simp only [lexLt] at h ⊢
      by_cases hxy : x < y
      · have : ¬ y < x := by omega
        simp [hxy, this]
      · by_cases hyx : y < x
        · simp [hxy, hyx] at h
        · have hx : ¬ x < y := hxy
          simp [hx, hyx] at h ⊢
          exact ih h

theorem lexLt_total (a b : Bytes) : lexLt a b = true ∨ a = b ∨ lexLt b a = true := by
  induction a generalizing b with
  | nil => cases b with
    | nil => simp [lexLt]
    | cons y ys => simp [lexLt]
  | cons x xs ih =>
    cases b with
    | nil => simp [lexLt]
    | cons y ys =>
      rcases Nat.lt_trichotomy x y with h | h | h
      · left; simp [lexLt, h]
      · subst h
        rcases ih ys with h2 | h2 | h2
        · left; simp [lexLt, h2]
        · right; left; simp [h2]
        · right; right; simp [lexLt, h2]
      · right; right; simp [lexLt, h]

/-- Appending on the right cannot make a list lexicographically smaller
than the original: `l ++ x` is never `< l`. -/
theorem not_lexLt_append_self (l x : Bytes) : lexLt (l ++ x) l = false := by
  induction l with
  | nil => cases x <;> simp [lexLt]
  | cons a as ih => simp [lexLt, ih]

/-- If `a < b` strictly, then `a < b ++ y` as well. -/
theorem lexLt_append_right {a b : Bytes} (y : Bytes) (h : lexLt a b = true) :
    lexLt a (b ++ y) = true := by
  induction a generalizing b with
  | nil =>
    cases b with
    | nil => simp [lexLt] at h
    | cons c cs => simp [lexLt]
  | cons x xs ih =>
    cases b with
    | nil => simp [lexLt] at h
    | cons c cs =>
      simp only [lexLt, List.cons_append] at h ⊢
      by_cases h1 : x < c
      · simp [h1]
      · by_cases h2 : c < x
        · simp [h1, h2] at h
        · simp [h1, h2] at h ⊢
          exact ih h

/-- For equal-length lists, strict lexicographic order is preserved by
appending arbitrary suffixes on both sides. -/
theorem lexLt_append_of_length_eq {a b : Bytes} (x y : Bytes)
    (hlen : a.length = b.length) (h : lexLt a b = true) :
    lexLt (a ++ x) (b ++ y) = true := by
  induction a generalizing b with
  | nil =>
    cases b with
    | nil => simp [lexLt] at h
    | cons c cs => simp at hlen
  | cons u us ih =>
    cases b with
    | nil => simp at hlen
    | cons c cs =>
      simp only [lexLt, List.cons_append] at h ⊢
      by_cases h1 : u < c
      · simp [h1]
      · by_cases h2 : c < u
        · simp [h1, h2] at h
        · simp only [List.length_cons, Nat.add_right_cancel_iff] at hlen
          simp [h1, h2] at h ⊢
          exact ih hlen h

/-! ## Big-endian byte strings of machine integers -/

/-- `beBytes v n` is the `n`-byte big-endian encoding of the low `8 * n`
bits of `v` (the shape produced by the inner loop of `encodeTimestamp`). -/
def beBytes : Nat → Nat → Bytes
  | _, 0 => []
  | v, n + 1 => beBytes (v / 256) n ++ [v % 256]

theorem beBytes_length (v n : Nat) : (beBytes v n).length = n := by
  induction n generalizing v with
  | zero => rfl
  | succ m ih => simp [beBytes, ih]

theorem beBytes_lt (v n : Nat) : ∀ b ∈ beBytes v n, b < 256 := by
  induction n generalizing v with
  | zero => simp [beBytes]
  | succ m ih =>
    intro b hb
    simp only [beBytes, List.mem_append, List.mem_singleton] at hb
    rcases hb with hb | hb
    · exact ih _ _ hb
    · subst hb; exact Nat.mod_lt _ (by norm_num)

/-- Splitting a value modulo `256 ^ (m + 1)` into its low byte and the rest. -/
theorem byte_mod_split (v m : Nat) :
    v % 256 ^ (m + 1) = (v / 256 % 256 ^ m) * 256 + v % 256 := by
  have hM : (256 : Nat) ^ (m + 1) = 256 * 256 ^ m := by rw [pow_succ]; ring
  have h1 : v % 256 ^ (m + 1) / 256 = v / 256 % 256 ^ m := by
    rw [hM]; exact Nat.mod_mul_right_div_self v 256 (256 ^ m)
  have h2 : v % 256 ^ (m + 1) % 256 = v % 256 := by
    apply Nat.mod_mod_of_dvd
    exact ⟨256 ^ m, hM⟩
  calc v % 256 ^ (m + 1)
      = v % 256 ^ (m + 1) / 256 * 256 + v % 256 ^ (m + 1) % 256 := by omega
    _ = (v / 256 % 256 ^ m) * 256 + v % 256 := by rw [h1, h2]

theorem beBytes_mod (v n : Nat) : beBytes (v % 256 ^ n) n = beBytes v n := by
  induction n generalizing v with
  | zero => rfl
  | succ m ih =>
    simp only [beBytes]
    have h1 : v % 256 ^ (m + 1) / 256 = v / 256 % 256 ^ m := by
      rw [pow_succ, mul_comm]; exact Nat.mod_mul_right_div_self v 256 (256 ^ m)
    have h2 : v % 256 ^ (m + 1) % 256 = v % 256 := by
      apply Nat.mod_mod_of_dvd
      exact ⟨256 ^ m, by rw [pow_succ]; ring⟩
    rw [h1, h2, ih]

/-- Splitting off the top byte of a big-endian encoding. -/
theorem beBytes_cons_high {v : Nat} (n : Nat) (hv : v < 256 ^ (n + 1)) :
    beBytes v (n + 1) = (v / 256 ^ n) :: beBytes v n := by
  induction n generalizing v with
  | zero =>
    have hv' : v < 256 := by simpa using hv
    show beBytes (v / 256) 0 ++ [v % 256] = (v / 256 ^ 0) :: beBytes v 0
    simp [beBytes, Nat.mod_eq_of_lt hv', Nat.div_eq_of_lt hv']
  | succ m ih =>
    have hdiv : v / 256 < 256 ^ (m + 1) := by
      rw [Nat.div_lt_iff_lt_mul (by norm_num)]
      calc v < 256 ^ (m + 1 + 1) := hv
        _ = 256 ^ (m + 1) * 256 := by ring
    calc beBytes v (m + 1 + 1) = beBytes (v / 256) (m + 1) ++ [v % 256] := rfl
      _ = ((v / 256) / 256 ^ m :: beBytes (v / 256) m) ++ [v % 256] := by rw [ih hdiv]
      _ = (v / 256 ^ (m + 1)) :: (beBytes (v / 256) m ++ [v % 256]) := by
            rw [Nat.div_div_eq_div_mul, ← pow_succ']
            rfl
      _ = (v / 256 ^ (m + 1)) :: beBytes v (m + 1) := rfl

/-- The big-endian value of a byte string (most significant byte first). -/
def beVal (l : Bytes) : Nat := l.foldl (fun a b => a * 256 + b) 0

theorem beVal_foldl (l : Bytes) (a : Nat) :
    l.foldl (fun a b => a * 256 + b) a = a * 256 ^ l.length + beVal l := by
  induction l generalizing a with
  | nil => simp [beVal]
  | cons x xs ih =>
    have hbv : beVal (x :: xs) = x * 256 ^ xs.length + beVal xs := by
      simp only [beVal, List.foldl_cons, Nat.zero_mul, Nat.zero_add]
      exact ih x
    simp only [List.foldl_cons, List.length_cons]
    rw [ih (a * 256 + x), hbv]
    ring

/-- Peeling the head off `beVal`. -/
theorem beVal_cons (x : Nat) (xs : Bytes) :
    beVal (x :: xs) = x * 256 ^ xs.length + beVal xs := by
  simp only [beVal, List.foldl_cons, Nat.zero_mul, Nat.zero_add]
  exact beVal_foldl xs x

theorem beVal_lt (l : Bytes) (h : ∀ b ∈ l, b < 256) : beVal l < 256 ^ l.length := by
  induction l with
  | nil => simp [beVal]
  | cons x xs ih =>
    have hx : x < 256 := h x (by simp)
    have hxs := ih (fun b hb => h b (by simp [hb]))
    rw [beVal_cons]
    simp only [List.length_cons]
    calc x * 256 ^ xs.length + beVal xs
        < x * 256 ^ xs.length + 256 ^ xs.length := by omega
      _ = (x + 1) * 256 ^ xs.length := by ring
      _ ≤ 256 * 256 ^ xs.length := Nat.mul_le_mul_right _ (by omega)
      _ = 256 ^ (xs.length + 1) := by ring

theorem beVal_beBytes (v n : Nat) : beVal (beBytes v n) = v % 256 ^ n := by
  induction n generalizing v with
  | zero => simp [beBytes, beVal, Nat.mod_one]
  | succ m ih =>
    simp only [beBytes, beVal, List.foldl_append, List.foldl_cons, List.foldl_nil]
    rw [beVal_foldl]
    simp only [Nat.zero_mul, Nat.zero_add]
    show beVal (beBytes (v / 256) m) * 256 + v % 256 = _
    rw [ih (v / 256), byte_mod_split]

/-- On equal-length byte strings, lexicographic order is numeric order of
the big-endian values. -/
theorem lexLt_iff_beVal_lt {a b : Bytes} (ha : ∀ x ∈ a, x < 256)
    (hb : ∀ x ∈ b, x < 256) (hlen : a.length = b.length) :
    lexLt a b = true ↔ beVal a < beVal b := by
  induction a generalizing b with
  | nil =>
    cases b with
    | nil => simp [lexLt, beVal]
    | cons y ys => simp at hlen
  | cons x xs ih =>
    cases b with
    | nil => simp at hlen
    | cons y ys =>
      simp only [List.length_cons, Nat.add_right_cancel_iff] at hlen
      have hxs : ∀ z ∈ xs, z < 256 := fun z hz => ha z (by simp [hz])
      have hys : ∀ z ∈ ys, z < 256 := fun z hz => hb z (by simp [hz])
      have hvx : beVal xs < 256 ^ ys.length := hlen ▸ beVal_lt xs hxs
      have hvy : beVal ys < 256 ^ ys.length := beVal_lt ys hys
      rw [beVal_cons, beVal_cons, hlen]
      simp only [lexLt]
      by_cases h1 : x < y
      · rw [if_pos h1]
        apply iff_of_true rfl
        have hstep : (x + 1) * 256 ^ ys.length ≤ y * 256 ^ ys.length :=
          Nat.mul_le_mul_right _ (by omega)
        calc x * 256 ^ ys.length + beVal xs
            < x * 256 ^ ys.length + 256 ^ ys.length := by omega
          _ = (x + 1) * 256 ^ ys.length := by ring
          _ ≤ y * 256 ^ ys.length := hstep
          _ ≤ y * 256 ^ ys.length + beVal ys := Nat.le_add_right _ _
      · by_cases h2 : y < x
        · rw [if_neg h1, if_pos h2]
          apply iff_of_false (by simp)
          apply Nat.not_lt.mpr
          apply le_of_lt
          have hstep : (y + 1) * 256 ^ ys.length ≤ x * 256 ^ ys.length :=
            Nat.mul_le_mul_right _ (by omega)
          calc y * 256 ^ ys.length + beVal ys
              < y * 256 ^ ys.length + 256 ^ ys.length := by omega
            _ = (y + 1) * 256 ^ ys.length := by ring
            _ ≤ x * 256 ^ ys.length := hstep
            _ ≤ x * 256 ^ ys.length + beVal xs := Nat.le_add_right _ _
        · have hxy : x = y := by omega
          subst hxy
          rw [if_neg h1, if_neg h2]
          rw [ih hxs hys hlen]
          omega

/-- `a < b` on the heads decides strict lexicographic order. -/
theorem lexLt_cons_of_lt {a b : Nat} (x y : Bytes) (h : a < b) :
    lexLt (a :: x) (b :: y) = true := by
  simp [lexLt, h]

/-! ## Timestamp (block number) encoding

Direct translation of `encodeTimestamp` / `decodeTimestamp` from
`cmd/hack/hack.go`.  The Go loop over `bytecount = 1..8` becomes a
recursion; Go's byte truncations (`byte(...)`, and the `byte` shift in
`byte(bytecount) << 5`) are the explicit `% 256`; `uint64` overflow in the
decoder is the explicit `% 2 ^ 64`. -/

/-- The body of the `for bytecount := 1; bytecount <= 8; ...` loop of
`encodeTimestamp`: the first byte is `byte(b) | (byte(bytecount) << 5)`
(both operands truncated to bytes, as in Go), the rest is big-endian. -/
def encodeTimestampFrom (timestamp bytecount limit : Nat) : Bytes :=
  if bytecount ≤ 8 then
    if timestamp < limit then
      ((timestamp / 256 ^ (bytecount - 1) % 256) ||| (bytecount % 256 * 32 % 256))
        :: beBytes timestamp (bytecount - 1)
    else encodeTimestampFrom timestamp (bytecount + 1) (limit * 256)
  else []
termination_by 9 - bytecount

/-- `encodeTimestamp` from `cmd/hack/hack.go`. -/
def encodeTimestamp (timestamp : Nat) : Bytes :=
  encodeTimestampFrom timestamp 1 32

/-- `decodeTimestamp` from `cmd/hack/hack.go`: the byte count is the top
three bits of the first byte, the value is accumulated over the following
`bytecount - 1` bytes, and the rest of the input is returned unconsumed. -/
def decodeTimestamp (suffix : Bytes) : Nat × Bytes :=
  (((suffix.drop 1).take ((suffix.headD 0 >>> 5) - 1)).foldl
      (fun t b => ((t <<< 8) % 2 ^ 64) ||| b) (suffix.headD 0 &&& 0x1f),
   suffix.drop (suffix.headD 0 >>> 5))

/-- The byte count that the `encodeTimestamp` loop selects for a timestamp
below `2 ^ 53` (the range where the three-bit length prefix is faithful). -/
def tsBytecount (t : Nat) : Nat :=
  if t < 2 ^ 5 then 1
  else if t < 2 ^ 13 then 2
  else if t < 2 ^ 21 then 3
  else if t < 2 ^ 29 then 4
  else if t < 2 ^ 37 then 5
  else if t < 2 ^ 45 then 6
  else 7

theorem tsBytecount_pos (t : Nat) : 1 ≤ tsBytecount t := by
  unfold tsBytecount; split_ifs <;> omega

theorem tsBytecount_le (t : Nat) : tsBytecount t ≤ 7 := by
  unfold tsBytecount; split_ifs <;> omega

/-- The timestamp is below the limit that its byte count encodes. -/
theorem lt_tsLimit (t : Nat) (ht : t < 2 ^ 53) :
    t < 32 * 256 ^ (tsBytecount t - 1) := by
  unfold tsBytecount; split_ifs <;> norm_num <;> omega

/-- For byte counts above one, the timestamp reaches the previous limit. -/
theorem tsLimit_le (t : Nat) (h : 2 ≤ tsBytecount t) :
    32 * 256 ^ (tsBytecount t - 2) ≤ t := by
  unfold tsBytecount at *
  split_ifs at * <;> norm_num <;> omega

theorem tsBytecount_mono {t1 t2 : Nat} (h : t1 ≤ t2) :
    tsBytecount t1 ≤ tsBytecount t2 := by
  unfold tsBytecount; split_ifs <;> omega

/-- The first encoded byte: `byte(b) | (byte(bytecount) << 5)` is plain
`bytecount * 32 + b` while the byte count fits in three bits. -/
theorem encHead_eq (bc x : Nat) (hbc : bc ≤ 7) (hx : x < 32) :
    (x % 256) ||| (bc % 256 * 32 % 256) = bc * 32 + x := by
  have h1 : x % 256 = x := Nat.mod_eq_of_lt (by omega)
  have h2 : bc % 256 = bc := Nat.mod_eq_of_lt (by omega)
  have h3 : bc * 32 % 256 = bc * 32 := Nat.mod_eq_of_lt (by omega)
  rw [h1, h2, h3, Nat.lor_comm]
  have h4 := Nat.mul_add_lt_is_or (i := 5) (b := x) (by simpa using hx) bc
  have h5 : (2 : Nat) ^ 5 * bc = bc * 32 := by norm_num; ring
  rw [h5] at h4
  omega

/-- For timestamps below `2 ^ 53`, `encodeTimestamp` produces the length
prefix in the top three bits of the head byte, followed by the big-endian
remainder. -/
theorem encodeTimestamp_eq_cons (t : Nat) (ht : t < 2 ^ 53) :
    encodeTimestamp t
      = (tsBytecount t * 32 + t / 256 ^ (tsBytecount t - 1))
        :: beBytes t (tsBytecount t - 1) := by
  have hbc7 := tsBytecount_le t
  have hbc1 := tsBytecount_pos t
  have hlim := lt_tsLimit t ht
  have hhead : ∀ bc, bc = tsBytecount t →
      (t / 256 ^ (bc - 1) % 256) ||| (bc % 256 * 32 % 256)
        = tsBytecount t * 32 + t / 256 ^ (tsBytecount t - 1) := by
    intro bc hbc
    subst hbc
    apply encHead_eq _ _ hbc7
    have := hlim
    rw [Nat.div_lt_iff_lt_mul (by positivity)]
    omega
  unfold tsBytecount at *
  rw [encodeTimestamp]
  split_ifs at * with h1 h2 h3 h4 h5 h6
  · rw [encodeTimestampFrom, if_pos (by omega), if_pos (by omega : t < 32)]
    rw [hhead 1 rfl]
  · rw [encodeTimestampFrom, if_pos (by omega), if_neg (by omega : ¬ t < 32),
      encodeTimestampFrom, if_pos (by omega), if_pos (by omega : t < 32 * 256)]
    rw [hhead 2 rfl]
  · rw [encodeTimestampFrom, if_pos (by omega), if_neg (by omega : ¬ t < 32),
      encodeTimestampFrom, if_pos (by omega), if_neg (by omega : ¬ t < 32 * 256),
      encodeTimestampFrom, if_pos (by omega), if_pos (by omega : t < 32 * 256 * 256)]
    rw [hhead 3 rfl]
  · rw [encodeTimestampFrom, if_pos (by omega), if_neg (by omega : ¬ t < 32),
      encodeTimestampFrom, if_pos (by omega), if_neg (by omega : ¬ t < 32 * 256),
      encodeTimestampFrom, if_pos (by omega), if_neg (by omega : ¬ t < 32 * 256 * 256),
      encodeTimestampFrom, if_pos (by omega),
      if_pos (by omega : t < 32 * 256 * 256 * 256)]
    rw [hhead 4 rfl]
  · rw [encodeTimestampFrom, if_pos (by omega), if_neg (by omega : ¬ t < 32),
      encodeTimestampFrom, if_pos (by omega), if_neg (by omega : ¬ t < 32 * 256),
      encodeTimestampFrom, if_pos (by omega), if_neg (by omega : ¬ t < 32 * 256 * 256),
      encodeTimestampFrom, if_pos (by omega),
      if_neg (by omega : ¬ t < 32 * 256 * 256 * 256),
      encodeTimestampFrom, if_pos (by omega),
      if_pos (by omega : t < 32 * 256 * 256 * 256 * 256)]
    rw [hhead 5 rfl]
  · rw [encodeTimestampFrom, if_pos (by omega), if_neg (by omega : ¬ t < 32),
      encodeTimestampFrom, if_pos (by omega), if_neg (by omega : ¬ t < 32 * 256),
      encodeTimestampFrom, if_pos (by omega), if_neg (by omega : ¬ t < 32 * 256 * 256),
      encodeTimestampFrom, if_pos (by omega),
      if_neg (by omega : ¬ t < 32 * 256 * 256 * 256),
      encodeTimestampFrom, if_pos (by omega),
      if_neg (by omega : ¬ t < 32 * 256 * 256 * 256 * 256),
      encodeTimestampFrom, if_pos (by omega),
      if_pos (by omega : t < 32 * 256 * 256 * 256 * 256 * 256)]
    rw [hhead 6 rfl]
  · rw [encodeTimestampFrom, if_pos (by omega), if_neg (by omega : ¬ t < 32),
      encodeTimestampFrom, if_pos (by omega), if_neg (by omega : ¬ t < 32 * 256),
      encodeTimestampFrom, if_pos (by omega), if_neg (by omega : ¬ t < 32 * 256 * 256),
      encodeTimestampFrom, if_pos (by omega),
      if_neg (by omega : ¬ t < 32 * 256 * 256 * 256),
      encodeTimestampFrom, if_pos (by omega),
      if_neg (by omega : ¬ t < 32 * 256 * 256 * 256 * 256),
      encodeTimestampFrom, if_pos (by omega),
      if_neg (by omega : ¬ t < 32 * 256 * 256 * 256 * 256 * 256),
      encodeTimestampFrom, if_pos (by omega),
      if_pos (by omega : t < 32 * 256 * 256 * 256 * 256 * 256 * 256)]
    rw [hhead 7 rfl]

theorem encodeTimestamp_length (t : Nat) (ht : t < 2 ^ 53) :
    (encodeTimestamp t).length = tsBytecount t := by
  rw [encodeTimestamp_eq_cons t ht]
  have := tsBytecount_pos t
  simp [beBytes_length]
  omega

/-- The encoding is the big-endian form of the tagged value
`bytecount * 32 * 256 ^ (bytecount - 1) + t`. -/
theorem encodeTimestamp_eq_beBytes (t : Nat) (ht : t < 2 ^ 53) :
    encodeTimestamp t
      = beBytes (tsBytecount t * 32 * 256 ^ (tsBytecount t - 1) + t)
          (tsBytecount t) := by
  have hbc1 := tsBytecount_pos t
  have hbc7 := tsBytecount_le t
  have hlim := lt_tsLimit t ht
  set bc := tsBytecount t with hbc
  set V := bc * 32 * 256 ^ (bc - 1) + t with hV
  obtain ⟨m, hm⟩ : ∃ m, bc = m + 1 := ⟨bc - 1, by omega⟩
  have hVlt : V < 256 ^ bc := by
    have h32 : bc * 32 + 32 ≤ 256 := by omega
    calc V < bc * 32 * 256 ^ (bc - 1) + 32 * 256 ^ (bc - 1) := by omega
      _ = (bc * 32 + 32) * 256 ^ (bc - 1) := by ring
      _ ≤ 256 * 256 ^ (bc - 1) := Nat.mul_le_mul_right _ h32
      _ = 256 ^ (bc - 1 + 1) := by ring
      _ = 256 ^ bc := by congr 1; omega
  rw [encodeTimestamp_eq_cons t ht, ← hbc]
  rw [hm] at hVlt ⊢
  rw [beBytes_cons_high m hVlt]
  have hmeq : m = bc - 1 := by omega
  have hhead : V / 256 ^ m = bc * 32 + t / 256 ^ m := by
    have he : V = t + 256 ^ m * (bc * 32) := by rw [hV, hmeq]; ring
    rw [he, Nat.add_mul_div_left _ _ (by positivity : 0 < 256 ^ m)]
    omega
  have htail : beBytes V m = beBytes t m := by
    rw [← beBytes_mod V m, ← beBytes_mod t m]
    congr 1
    have he : V = 256 ^ m * (bc * 32) + t := by rw [hV, hmeq]; ring
    rw [he]
    exact Nat.mul_add_mod (256 ^ m) (bc * 32) t
  rw [hhead, htail, hmeq]
  have hb1 : bc - 1 + 1 = bc := by omega
  rw [hb1]

/-- The decoder's accumulation loop on a big-endian byte string. -/
theorem decode_foldl (n : Nat) : ∀ acc v : Nat, (acc + 1) * 256 ^ n ≤ 2 ^ 64 →
    (beBytes v n).foldl (fun t b => ((t <<< 8) % 2 ^ 64) ||| b) acc
      = acc * 256 ^ n + v % 256 ^ n := by
  induction n with
  | zero => intro acc v _; simp [beBytes, Nat.mod_one]
  | succ m ih =>
    intro acc v hacc
    have hmono : (256 : Nat) ^ m ≤ 256 ^ (m + 1) := Nat.pow_le_pow_right (by omega) (by omega)
    have hacc' : (acc + 1) * 256 ^ m ≤ 2 ^ 64 := by
      calc (acc + 1) * 256 ^ m ≤ (acc + 1) * 256 ^ (m + 1) := Nat.mul_le_mul_left _ hmono
        _ ≤ 2 ^ 64 := hacc
    simp only [beBytes, List.foldl_append, List.foldl_cons, List.foldl_nil]
    rw [ih acc (v / 256) hacc']
    set A := acc * 256 ^ m + v / 256 % 256 ^ m with hA
    have hAlt : A + 1 ≤ (acc + 1) * 256 ^ m := by
      have : v / 256 % 256 ^ m < 256 ^ m := Nat.mod_lt _ (by positivity)
      calc A + 1 = acc * 256 ^ m + (v / 256 % 256 ^ m + 1) := by omega
        _ ≤ acc * 256 ^ m + 256 ^ m := by omega
        _ = (acc + 1) * 256 ^ m := by ring
    have hA256 : A * 256 < 2 ^ 64 := by
      calc A * 256 + 1 ≤ (A + 1) * 256 := by omega
        _ ≤ (acc + 1) * 256 ^ m * 256 := Nat.mul_le_mul_right _ hAlt
        _ = (acc + 1) * 256 ^ (m + 1) := by ring
        _ ≤ 2 ^ 64 := hacc
    have hshift : A <<< 8 = A * 256 := by
      rw [Nat.shiftLeft_eq]
    rw [hshift, Nat.mod_eq_of_lt hA256]
    have hy : v % 256 < 2 ^ 8 := by
      have := Nat.mod_lt v (y := 256) (by omega)
      simpa using this
    have hor := Nat.mul_add_lt_is_or (i := 8) (b := v % 256) hy A
    have h256A : (2 : Nat) ^ 8 * A = A * 256 := by ring
    rw [h256A] at hor
    rw [← hor, hA, byte_mod_split]
    ring

/-- Round trip of the timestamp encoding, with an arbitrary trailing
suffix left unconsumed — valid precisely on timestamps below `2 ^ 53`. -/
theorem decode_encode_append (t : Nat) (ht : t < 2 ^ 53) (rest : Bytes) :
    decodeTimestamp (encodeTimestamp t ++ rest) = (t, rest) := by
  obtain ⟨bc, hi, hbc1, hbc7, hhilt, henc, hlen, hval⟩ :
      ∃ bc hi, 1 ≤ bc ∧ bc ≤ 7 ∧ hi < 32 ∧
        encodeTimestamp t = (bc * 32 + hi) :: beBytes t (bc - 1) ∧
        (beBytes t (bc - 1)).length = bc - 1 ∧
        hi * 256 ^ (bc - 1) + t % 256 ^ (bc - 1) = t := by
    refine ⟨tsBytecount t, t / 256 ^ (tsBytecount t - 1), tsBytecount_pos t,
      tsBytecount_le t, ?_, encodeTimestamp_eq_cons t ht, beBytes_length _ _, ?_⟩
    · rw [Nat.div_lt_iff_lt_mul (by positivity)]
      have := lt_tsLimit t ht
      omega
    · have h1 := Nat.div_add_mod t (256 ^ (tsBytecount t - 1))
      rw [mul_comm] at h1
      exact h1
  rw [henc]
  have hs0 : bc * 32 + hi < 256 := by omega
  simp only [decodeTimestamp, List.cons_append, List.headD_cons, List.drop_succ_cons,
    List.drop_zero]
  have hshr : (bc * 32 + hi) >>> 5 = bc := by
    rw [Nat.shiftRight_eq_div_pow]
    have h32 : (2 : Nat) ^ 5 = 32 := by norm_num
    rw [h32]
    omega
  have hand : (bc * 32 + hi) &&& 0x1f = hi := by
    have h31 : (0x1f : Nat) = 2 ^ 5 - 1 := by norm_num
    rw [h31, Nat.and_pow_two_sub_one_eq_mod]
    have h32 : (2 : Nat) ^ 5 = 32 := by norm_num
    rw [h32]
    omega
  rw [hshr, hand]
  have htake : (beBytes t (bc - 1) ++ rest).take (bc - 1) = beBytes t (bc - 1) :=
    List.take_left' hlen
  have hdrop : (beBytes t (bc - 1) ++ rest).drop (bc - 1) = rest :=
    List.drop_left' hlen
  rw [htake]
  have hbound : (hi + 1) * 256 ^ (bc - 1) ≤ 2 ^ 64 := by
    calc (hi + 1) * 256 ^ (bc - 1) ≤ 32 * 256 ^ (bc - 1) :=
          Nat.mul_le_mul_right _ (by omega)
      _ ≤ 32 * 256 ^ 6 := Nat.mul_le_mul_left _ (Nat.pow_le_pow_right (by omega) (by omega))
      _ ≤ 2 ^ 64 := by norm_num
  rw [decode_foldl (bc - 1) hi t hbound]
  simp only [Prod.mk.injEq]
  refine ⟨hval, ?_⟩
  obtain ⟨m, hm⟩ : ∃ m, bc = m + 1 := ⟨bc - 1, by omega⟩
  have hmeq : bc - 1 = m := by omega
  rw [hm, List.drop_succ_cons, ← hmeq]
  exact hdrop

/-- The tagged value fits in `bytecount` bytes. -/
theorem tsTagVal_lt (t bc : Nat) (hbc1 : 1 ≤ bc) (hbc7 : bc ≤ 7)
    (hlim : t < 32 * 256 ^ (bc - 1)) :
    bc * 32 * 256 ^ (bc - 1) + t < 256 ^ bc := by
  have h32 : bc * 32 + 32 ≤ 256 := by omega
  calc bc * 32 * 256 ^ (bc - 1) + t
      < bc * 32 * 256 ^ (bc - 1) + 32 * 256 ^ (bc - 1) := by omega
    _ = (bc * 32 + 32) * 256 ^ (bc - 1) := by ring
    _ ≤ 256 * 256 ^ (bc - 1) := Nat.mul_le_mul_right _ h32
    _ = 256 ^ (bc - 1 + 1) := by ring
    _ = 256 ^ bc := by congr 1; omega

/-- Strict monotonicity of the timestamp encoding under byte-lexicographic
order, robust under appending arbitrary suffixes (the form needed for
change-index keys `encodeTimestamp ts ++ bucket`).  Valid below `2 ^ 53`. -/
theorem encodeTimestamp_append_lexLt {t1 t2 : Nat} (r1 r2 : Bytes)
    (h12 : t1 < t2) (ht2 : t2 < 2 ^ 53) :
    lexLt (encodeTimestamp t1 ++ r1) (encodeTimestamp t2 ++ r2) = true := by
  have ht1 : t1 < 2 ^ 53 := by omega
  have hbc11 := tsBytecount_pos t1
  have hbc17 := tsBytecount_le t1
  have hbc21 := tsBytecount_pos t2
  have hbc27 := tsBytecount_le t2
  have hlim1 := lt_tsLimit t1 ht1
  have hlim2 := lt_tsLimit t2 ht2
  have hmono : tsBytecount t1 ≤ tsBytecount t2 := tsBytecount_mono (by omega)
  by_cases heq : tsBytecount t1 = tsBytecount t2
  · -- same byte count: equal lengths, compare big-endian values
    apply lexLt_append_of_length_eq
    · rw [encodeTimestamp_length t1 ht1, encodeTimestamp_length t2 ht2, heq]
    · rw [encodeTimestamp_eq_beBytes t1 ht1, encodeTimestamp_eq_beBytes t2 ht2, heq]
      set bc := tsBytecount t2 with hbc
      have hV1 : bc * 32 * 256 ^ (bc - 1) + t1 < 256 ^ bc :=
        tsTagVal_lt t1 bc hbc21 hbc27 (heq ▸ hlim1)
      have hV2 : bc * 32 * 256 ^ (bc - 1) + t2 < 256 ^ bc :=
        tsTagVal_lt t2 bc hbc21 hbc27 hlim2
      rw [lexLt_iff_beVal_lt (beBytes_lt _ _) (beBytes_lt _ _)
        (by rw [beBytes_length, beBytes_length])]
      rw [beVal_beBytes, beVal_beBytes]
      rw [Nat.mod_eq_of_lt hV1, Nat.mod_eq_of_lt hV2]
      omega
  · -- strictly larger byte count: the head bytes already differ
    have hlt : tsBytecount t1 < tsBytecount t2 := by omega
    rw [encodeTimestamp_eq_cons t1 ht1, encodeTimestamp_eq_cons t2 ht2]
    simp only [List.cons_append]
    apply lexLt_cons_of_lt
    have h1 : t1 / 256 ^ (tsBytecount t1 - 1) < 32 := by
      rw [Nat.div_lt_iff_lt_mul (by positivity)]
      omega
    have hc : tsBytecount t1 * 32 + t1 / 256 ^ (tsBytecount t1 - 1)
        < tsBytecount t2 * 32 := by
      calc tsBytecount t1 * 32 + t1 / 256 ^ (tsBytecount t1 - 1)
          < tsBytecount t1 * 32 + 32 := by omega
        _ = (tsBytecount t1 + 1) * 32 := by ring
        _ ≤ tsBytecount t2 * 32 := Nat.mul_le_mul_right _ (by omega)
    exact Nat.lt_of_lt_of_le hc (Nat.le_add_right _ _)

/-- Plain order preservation of the encoding below `2 ^ 53`. -/
theorem encodeTimestamp_lexLt {t1 t2 : Nat} (h12 : t1 < t2) (ht2 : t2 < 2 ^ 53) :
    lexLt (encodeTimestamp t1) (encodeTimestamp t2) = true := by
  have := encodeTimestamp_append_lexLt [] [] h12 ht2
  simpa using this

/-- Concrete value of the encoding on the one-byte range. -/
theorem encodeTimestamp_small {t : Nat} (h : t < 32) :
    encodeTimestamp t = [32 + t] := by
  have h53 : t < 2 ^ 53 := by omega
  rw [encodeTimestamp_eq_cons t h53]
  have hbc : tsBytecount t = 1 := by unfold tsBytecount; split_ifs <;> omega
  rw [hbc]
  simp [beBytes]

/-- Concrete evaluation of the encoder at `2 ^ 53`: the bytecount is 8,
`byte(8) << 5` overflows to `0`, and the length prefix is lost. -/
theorem encodeTimestamp_two_pow_53 :
    encodeTimestamp (2 ^ 53) = [0, 32, 0, 0, 0, 0, 0, 0] := by
  rw [encodeTimestamp]
  rw [encodeTimestampFrom, if_pos (by norm_num), if_neg (by norm_num)]
  rw [encodeTimestampFrom, if_pos (by norm_num), if_neg (by norm_num)]
  rw [encodeTimestampFrom, if_pos (by norm_num), if_neg (by norm_num)]
  rw [encodeTimestampFrom, if_pos (by norm_num), if_neg (by norm_num)]
  rw [encodeTimestampFrom, if_pos (by norm_num), if_neg (by norm_num)]
  rw [encodeTimestampFrom, if_pos (by norm_num), if_neg (by norm_num)]
  rw [encodeTimestampFrom, if_pos (by norm_num), if_neg (by norm_num)]
  rw [encodeTimestampFrom, if_pos (by norm_num), if_pos (by norm_num)]
  decide

/-- C6 (counterexample): the claimed domain `t < 2 ^ 61` is too large.  At
`t = 2 ^ 53` the encoder needs bytecount 8, whose tag `byte(8) << 5`
overflows the byte to `0`, so the round trip fails: the decoder returns
`(0, whole-input)` instead of `(2 ^ 53, [])`. -/
theorem C6_counterexample :
    (2 ^ 53 : Nat) < 2 ^ 61 ∧
    decodeTimestamp (encodeTimestamp (2 ^ 53)) ≠ ((2 ^ 53 : Nat), ([] : Bytes)) ∧
    decodeTimestamp (encodeTimestamp (2 ^ 53)) = (0, [0, 32, 0, 0, 0, 0, 0, 0]) := by
  refine ⟨by norm_num, ?_, ?_⟩ <;> rw [encodeTimestamp_two_pow_53] <;> decide

/-- C6 (amended): for every timestamp `t < 2 ^ 53` — the range on which the
three-bit length prefix of `encodeTimestamp` is faithful —
`decodeTimestamp (encodeTimestamp t)` returns `t` together with an empty
remaining suffix. -/
theorem C6_theorem (t : Nat) (ht : t < 2 ^ 53) :
    decodeTimestamp (encodeTimestamp t) = (t, []) := by
  have h := decode_encode_append t ht []
  simpa using h

/-- C6 (witness): the amended round trip at the concrete timestamp 3. -/
theorem C6_witness :
    (3 : Nat) < 2 ^ 53 ∧ decodeTimestamp (encodeTimestamp 3) = (3, []) :=
  ⟨by norm_num, C6_theorem 3 (by norm_num)⟩

/-- C7 (counterexample): order preservation also fails beyond `2 ^ 53`:
`encodeTimestamp (2 ^ 53)` starts with byte `0` and sorts strictly before
`encodeTimestamp 0 = [0x20]`, although `0 < 2 ^ 53 < 2 ^ 61`. -/
theorem C7_counterexample :
    (0 : Nat) < 2 ^ 53 ∧ (2 ^ 53 : Nat) < 2 ^ 61 ∧
    lexLt (encodeTimestamp 0) (encodeTimestamp (2 ^ 53)) = false ∧
    lexLt (encodeTimestamp (2 ^ 53)) (encodeTimestamp 0) = true := by
  refine ⟨by norm_num, by norm_num, ?_, ?_⟩ <;>
    rw [encodeTimestamp_two_pow_53, encodeTimestamp_small (by norm_num : (0 : Nat) < 32)] <;>
    decide

/-- C7 (amended): for timestamps `t1 < t2 < 2 ^ 53`, `encodeTimestamp t1`
is strictly smaller than `encodeTimestamp t2` in byte-lexicographic order:
the length prefix in the top three bits of the first byte is
order-preserving on that domain. -/
theorem C7_theorem {t1 t2 : Nat} (h12 : t1 < t2) (ht2 : t2 < 2 ^ 53) :
    lexLt (encodeTimestamp t1) (encodeTimestamp t2) = true :=
  encodeTimestamp_lexLt h12 ht2

/-- C7 (witness): the amended ordering at the concrete pair `(1, 2)`. -/
theorem C7_witness :
    (1 : Nat) < 2 ∧ (2 : Nat) < 2 ^ 53 ∧
    lexLt (encodeTimestamp 1) (encodeTimestamp 2) = true :=
  ⟨by norm_num, by norm_num, C7_theorem (by norm_num) (by norm_num)⟩

/-! ## Change-set values and the versioned store

The change index (`SuffixBucket`) maps `encodeTimestamp ts ++ historyBucket`
to a value holding a 4-byte big-endian key count followed by one-byte
length-prefixed keys — the format that `rewindData` and
`GetModifiedAccounts` in `ethdb/walk.go` parse. -/

/-- The encoder of a change-set value (count, then length-prefixed keys);
modelled from the spec's ChangeSet entry description and the parser in
`rewindData`. -/
def encodeChangeSet (keys : List Bytes) : Bytes :=
  beBytes keys.length 4 ++ (keys.map (fun k => k.length :: k)).flatten

/-- The key-extraction loop of the walk callbacks in `ethdb/walk.go`:
reads `count` keys, each prefixed by one length byte. -/
def parseKeys : Nat → Bytes → List Bytes
  | 0, _ => []
  | _ + 1, [] => []
  | n + 1, l :: rest => rest.take l :: parseKeys n (rest.drop l)

theorem parseKeys_encode (keys : List Bytes) (hlen : ∀ k ∈ keys, k.length < 256) :
    parseKeys keys.length (keys.map (fun k => k.length :: k)).flatten = keys := by
  induction keys with
  | nil => rfl
  | cons k ks ih =>
    simp only [List.map_cons, List.flatten_cons, List.length_cons, List.cons_append]
    rw [parseKeys]
    rw [List.take_left' rfl, List.drop_left' rfl]
    rw [ih (fun k hk => hlen k (by simp [hk]))]

/-- Round trip of the change-set value format. -/
theorem parseKeys_encodeChangeSet (keys : List Bytes)
    (hcount : keys.length < 2 ^ 32) (hlen : ∀ k ∈ keys, k.length < 256) :
    parseKeys (beVal ((encodeChangeSet keys).take 4)) ((encodeChangeSet keys).drop 4)
      = keys := by
  unfold encodeChangeSet
  rw [List.take_left' (beBytes_length _ _), List.drop_left' (beBytes_length _ _)]
  rw [beVal_beBytes]
  have h32 : (256 : Nat) ^ 4 = 2 ^ 32 := by norm_num
  rw [h32, Nat.mod_eq_of_lt hcount]
  exact parseKeys_encode keys hlen

/-- Errors of the modelled persistent store: the dedicated not-found
sentinel versus any other (I/O) failure.  The spec demands the two stay
distinguishable. -/
inductive DbErr where
  | notFound
  | io
deriving DecidableEq

/-- The persistent-store interface the walkers consume, modelled from the
spec's store contract: the ordered `SuffixBucket` entries (for `Walk`),
`GetAsOf`, and plain `Get` (used for `secure-key-` preimages). -/
structure DB where
  suffix : List (Bytes × Bytes)
  getAsOf : Bytes → Bytes → Bytes → Nat → Except DbErr Bytes
  get : Bytes → Bytes → Except DbErr Bytes

/-- The loop of the ordered scan: visit entries in order, stopping when
the callback returns `false`. -/
def walkGo {σ : Type} (f : σ → Bytes → Bytes → σ × Bool) :
    List (Bytes × Bytes) → σ → σ
  | [], s => s
  | (k, v) :: rest, s =>
    let r := f s k v
    if r.2 then walkGo f rest r.1 else r.1

/-- Modelled from the spec: `Walk(bucket, startKey, 0, callback)` performs
an ordered scan over the bucket's entries with keys `≥ startKey` (the
entry list is kept sorted); the callback's boolean controls early stop. -/
def walkFold {σ : Type} (entries : List (Bytes × Bytes)) (start : Bytes)
    (f : σ → Bytes → Bytes → σ × Bool) (init : σ) : σ :=
  walkGo f (entries.dropWhile (fun e => lexLt e.1 start)) init

/-- Adding one changed key to the bucket map `m` of `rewindData`
(Go's `map[string]map[string]struct{}`, modelled as an insertion-ordered
association list with deduplicated key lists). -/
def rewindAddKey : List (Bytes × List Bytes) → Bytes → Bytes → List (Bytes × List Bytes)
  | [], b, k => [(b, [k])]
  | (b', ks) :: rest, b, k =>
    if b' = b then (b', if k ∈ ks then ks else ks ++ [k]) :: rest
    else (b', ks) :: rewindAddKey rest b k

/-- The walk callback of `rewindData`: decode the timestamp, stop beyond
`timestampSrc`, parse the change-set value and record its keys. -/
def rewindCollect (timestampSrc : Nat) (m : List (Bytes × List Bytes))
    (k v : Bytes) : List (Bytes × List Bytes) × Bool :=
  let timestamp := (decodeTimestamp k).1
  let bucket := (decodeTimestamp k).2
  if timestamp > timestampSrc then (m, false)
  else
    let keycount := beVal (v.take 4)
    if keycount > 0 then
      ((parseKeys keycount (v.drop 4)).foldl
        (fun m key => rewindAddKey m bucket key) m, true)
    else (m, true)

/-- Phase 1 of `rewindData`: the bucket/key map collected by walking the
change index from `encodeTimestamp (timestampDst + 1)`. -/
def rewindMap (db : DB) (timestampSrc timestampDst : Nat) :
    List (Bytes × List Bytes) :=
  walkFold db.suffix (encodeTimestamp (timestampDst + 1))
    (rewindCollect timestampSrc) []

/-- Phase 2 of `rewindData`: for every collected (bucket, key) pair, the
value is resolved with `GetAsOf(bucket[1:], bucket, key, timestampDst+1)`;
a `GetAsOf` error is absorbed into a `nil` value (`if err != nil
{ value = nil }` in the Go source). -/
def rewindCalls (db : DB) (timestampSrc timestampDst : Nat) :
    List (Bytes × Bytes × Option Bytes) :=
  (rewindMap db timestampSrc timestampDst).flatMap (fun bk =>
    bk.2.map (fun key =>
      (bk.1, key,
        match db.getAsOf (bk.1.drop 1) bk.1 key (timestampDst + 1) with
        | .ok value => some value
        | .error _ => none)))

/-- `rewindData` from `ethdb/walk.go`: collect the touched (bucket, key)
pairs (phase 1), resolve each to its value as of `timestampDst` and feed
them to the callback `df`, stopping at the first callback error. -/
def rewindData {ε : Type} (db : DB) (timestampSrc timestampDst : Nat)
    (df : Bytes → Bytes → Option Bytes → Except ε Unit) : Except ε Unit :=
  (rewindCalls db timestampSrc timestampDst).foldlM
    (fun _ c => df c.1 c.2.1 c.2.2) ()

/-- The bucket name `"hAT"` (accounts history). -/
def hATBytes : Bytes := [104, 65, 84]

/-- The preimage bucket `"secure-key-"`. -/
def secureKeyPrefix : Bytes := [115, 101, 99, 117, 114, 101, 45, 107, 101, 121, 45]

/-- Ordered insertion with deduplication — the `llrb.ReplaceOrInsert` of
`GetModifiedAccounts`, modelled (the LLRB itself is outside the sources)
as a sorted list ordered by `bytes.Compare`. -/
def sortedInsert : List Bytes → Bytes → List Bytes
  | [], k => [k]
  | x :: rest, k =>
    if lexLt k x then k :: x :: rest
    else if k = x then x :: rest
    else x :: sortedInsert rest k

/-- The walk callback of `GetModifiedAccounts`: skip non-`hAT` entries,
stop beyond `endtimestamp`, collect the changed account keys. -/
def gmaCollect (endtimestamp : Nat) (t : List Bytes) (k v : Bytes) :
    List Bytes × Bool :=
  let timestamp := (decodeTimestamp k).1
  let bucket := (decodeTimestamp k).2
  if bucket ≠ hATBytes then (t, true)
  else if timestamp > endtimestamp then (t, false)
  else ((parseKeys (beVal (v.take 4)) (v.drop 4)).foldl sortedInsert t, true)

/-- `copy(accounts[idx][:], value)`: a 20-byte address from a preimage,
zero-padded (or truncated) exactly like copying into a zeroed array. -/
def toAddress (value : Bytes) : Bytes :=
  (value.take 20) ++ List.replicate (20 - value.length) 0

/-- `GetModifiedAccounts` from `ethdb/walk.go`: scan the `hAT` change
index over `[starttimestamp, endtimestamp]`, resolve each distinct hashed
key through the `secure-key-` preimage index (in ascending key order), and
fail on the first unresolvable preimage. -/
def GetModifiedAccounts (db : DB) (starttimestamp endtimestamp : Nat) :
    Except String (List Bytes) :=
  (walkFold db.suffix (encodeTimestamp starttimestamp)
      (gmaCollect endtimestamp) []).mapM (fun key =>
    match db.get secureKeyPrefix key with
    | .ok value => .ok (toAddress value)
    | .error _ => .error "Could not get preimage")

/-! ## The recorded mutation history and the store it generates

`rewindData` is exercised against stores whose change index was produced
by recording mutations block by block — the situation of `testRewind` in
`cmd/hack/hack.go`.  A history assigns to every timestamp the list of
mutations applied at that block; the generated store contains the suffix
(change-index) entries in ascending key order, and serves `GetAsOf`
following the spec's as-of semantics. -/

/-- One recorded mutation: history-bucket name, key, and the new value
(`none` encodes a delete). -/
structure Change where
  bucket : Bytes
  key : Bytes
  val : Option Bytes

/-- Applying one mutation to a state (a map from bucket and key to the
current value). -/
def applyChange (s : Bytes → Bytes → Option Bytes) (c : Change) :
    Bytes → Bytes → Option Bytes :=
  fun b k => if b = c.bucket ∧ k = c.key then c.val else s b k

/-- Applying one block's mutations in order. -/
def applyBlock (s : Bytes → Bytes → Option Bytes) (cs : List Change) :
    Bytes → Bytes → Option Bytes :=
  cs.foldl applyChange s

/-- The state after all blocks up to and including timestamp `ts`
(blocks are numbered from 1; the initial state is empty). -/
def stateAt (hist : Nat → List Change) : Nat → Bytes → Bytes → Option Bytes
  | 0 => fun _ _ => none
  | t + 1 => applyBlock (stateAt hist t) (hist (t + 1))

/-- The sorted, deduplicated bucket names touched by a block. -/
def bucketsSorted (cs : List Change) : List Bytes :=
  cs.foldl (fun acc c => sortedInsert acc c.bucket) []

/-- The deduplicated keys a block touched in bucket `b`. -/
def keysOf (cs : List Change) (b : Bytes) : List Bytes :=
  ((cs.filter (fun c => c.bucket = b)).map (fun c => c.key)).dedup

/-- The change-index entries one block contributes: one entry per touched
bucket, keyed `encodeTimestamp ts ++ bucket`, holding the encoded key set. -/
def suffixEntriesAt (hist : Nat → List Change) (ts : Nat) : List (Bytes × Bytes) :=
  (bucketsSorted (hist ts)).map (fun b =>
    (encodeTimestamp ts ++ b, encodeChangeSet (keysOf (hist ts) b)))

/-- The full change index of a history running through block `T`. -/
def suffixEntries (hist : Nat → List Change) (T : Nat) : List (Bytes × Bytes) :=
  (List.range' 1 T).flatMap (suffixEntriesAt hist)

/-- Modelled from the spec: `GetAsOf(bucket, historyBucket, key, ts)`
returns the value effective immediately before `ts` (the most recent write
strictly below `ts`), with the dedicated not-found sentinel when the key
has no value at that point.  The records are keyed by the history bucket. -/
def histGetAsOf (hist : Nat → List Change) (hbucket key : Bytes) (ts : Nat) :
    Except DbErr Bytes :=
  match stateAt hist (ts - 1) hbucket key with
  | some v => .ok v
  | none => .error .notFound

/-- The store generated by a history through block `T`, with an arbitrary
preimage resolver backing the `secure-key-` bucket. -/
def histDB (hist : Nat → List Change) (T : Nat)
    (preimage : Bytes → Except DbErr Bytes) : DB where
  suffix := suffixEntries hist T
  getAsOf := fun _ hbucket key ts => histGetAsOf hist hbucket key ts
  get := fun _ key => preimage key

/-- Well-formedness of a recorded history: timestamps fit the faithful
range of the encoding, the support lies in `[1, T]`, and the change-set
values are encodable (key lengths fit one byte, counts fit four bytes). -/
structure HistWF (hist : Nat → List Change) (T : Nat) : Prop where
  tsBound : T < 2 ^ 53
  support : ∀ ts, hist ts ≠ [] → 1 ≤ ts ∧ ts ≤ T
  keyLen : ∀ ts, ∀ c ∈ hist ts, c.key.length < 256
  countLt : ∀ ts b, (keysOf (hist ts) b).length < 2 ^ 32

/-- A (bucket, key) pair was recorded as changed at some timestamp in the
interval `(lo, hi]`. -/
def changedIn (hist : Nat → List Change) (lo hi : Nat) (b k : Bytes) : Prop :=
  ∃ ts, lo < ts ∧ ts ≤ hi ∧ ∃ c ∈ hist ts, c.bucket = b ∧ c.key = k

theorem lexLt_trans : ∀ {a b c : Bytes}, lexLt a b = true → lexLt b c = true →
    lexLt a c = true
  | [], b0 :: bs, c0 :: cs, _, _ => by simp [lexLt]
  | a0 :: as, b0 :: bs, c0 :: cs, hab, hbc => by
    simp only [lexLt] at hab hbc ⊢
    by_cases h1 : a0 < b0
    · by_cases h2 : b0 < c0
      · simp [show a0 < c0 by omega]
      · by_cases h3 : c0 < b0
        · simp [h2, h3] at hbc
        · have : b0 = c0 := by omega
          subst this
          simp [h1]
    · by_cases h1' : b0 < a0
      · simp [h1, h1'] at hab
      · have : a0 = b0 := by omega
        subst this
        simp [h1, h1'] at hab
        by_cases h2 : a0 < c0
        · simp [h2]
        · by_cases h3 : c0 < a0
          · simp [h2, h3] at hbc
          · have : a0 = c0 := by omega
            subst this
            simp [h2, h3] at hbc ⊢
            exact lexLt_trans hab hbc
  | [], [], c, hab, _ => by simp [lexLt] at hab
  | a0 :: as, [], c, hab, _ => by simp [lexLt] at hab
  | a, b0 :: bs, [], _, hbc => by simp [lexLt] at hbc

theorem sortedInsert_mem (l : List Bytes) (k x : Bytes) :
    x ∈ sortedInsert l k ↔ x = k ∨ x ∈ l := by
  induction l with
  | nil => simp [sortedInsert]
  | cons y ys ih =>
    simp only [sortedInsert]
    split_ifs with h1 h2
    · simp only [List.mem_cons]
    · subst h2
      simp only [List.mem_cons]
      tauto
    · simp only [List.mem_cons, ih]
      tauto

theorem sortedInsert_pairwise (l : List Bytes) (k : Bytes)
    (h : l.Pairwise (fun a b => lexLt a b = true)) :
    (sortedInsert l k).Pairwise (fun a b => lexLt a b = true) := by
  induction l with
  | nil => simp [sortedInsert]
  | cons y ys ih =>
    rw [List.pairwise_cons] at h
    obtain ⟨hy, hys⟩ := h
    simp only [sortedInsert]
    split_ifs with h1 h2
    · rw [List.pairwise_cons]
      refine ⟨?_, List.Pairwise.cons hy hys⟩
      intro z hz
      rcases List.mem_cons.mp hz with hz | hz
      · subst hz; exact h1
      · exact lexLt_trans h1 (hy z hz)
    · subst h2
      exact List.Pairwise.cons hy hys
    · rw [List.pairwise_cons]
      refine ⟨?_, ih hys⟩
      intro z hz
      rcases (sortedInsert_mem ys k z).mp hz with hz | hz
      · subst hz
        rcases lexLt_total z y with ht | ht | ht
        · exact absurd ht (by simpa using h1)
        · exact absurd ht h2
        · exact ht
      · exact hy z hz

theorem pairwise_lexLt_nodup (l : List Bytes)
    (h : l.Pairwise (fun a b => lexLt a b = true)) : l.Nodup := by
  induction l with
  | nil => exact List.nodup_nil
  | cons x xs ih =>
    rw [List.pairwise_cons] at h
    rw [List.nodup_cons]
    refine ⟨?_, ih h.2⟩
    intro hmem
    have := h.1 x hmem
    rw [lexLt_irrefl] at this
    exact Bool.false_ne_true this

theorem bucketsSorted_mem_aux (cs : List Change) (acc : List Bytes) (x : Bytes) :
    x ∈ cs.foldl (fun acc c => sortedInsert acc c.bucket) acc
      ↔ x ∈ acc ∨ ∃ c ∈ cs, c.bucket = x := by
  induction cs generalizing acc with
  | nil => simp
  | cons c cs ih =>
    simp only [List.foldl_cons, ih, sortedInsert_mem, List.mem_cons]
    constructor
    · rintro ((h | h) | ⟨c', hc', he⟩)
      · right; exact ⟨c, Or.inl rfl, h.symm⟩
      · left; exact h
      · right; exact ⟨c', Or.inr hc', he⟩
    · rintro (h | ⟨c', hc' | hc', he⟩)
      · left; right; exact h
      · subst hc'; left; left; exact he.symm
      · right; exact ⟨c', hc', he⟩

theorem bucketsSorted_mem (cs : List Change) (x : Bytes) :
    x ∈ bucketsSorted cs ↔ ∃ c ∈ cs, c.bucket = x := by
  unfold bucketsSorted
  rw [bucketsSorted_mem_aux]
  simp

theorem bucketsSorted_pairwise (cs : List Change) :
    (bucketsSorted cs).Pairwise (fun a b => lexLt a b = true) := by
  unfold bucketsSorted
  have haux : ∀ acc : List Bytes, acc.Pairwise (fun a b => lexLt a b = true) →
      (cs.foldl (fun acc c => sortedInsert acc c.bucket) acc).Pairwise
        (fun a b => lexLt a b = true) := by
    induction cs with
    | nil => intro acc h; exact h
    | cons c cs ih =>
      intro acc h
      exact ih _ (sortedInsert_pairwise _ _ h)
  exact haux [] (by simp)

theorem keysOf_mem (cs : List Change) (b k : Bytes) :
    k ∈ keysOf cs b ↔ ∃ c ∈ cs, c.bucket = b ∧ c.key = k := by
  unfold keysOf
  rw [List.mem_dedup]
  simp only [List.mem_map, List.mem_filter]
  constructor
  · rintro ⟨c, ⟨hc, hb⟩, hk⟩
    exact ⟨c, hc, by simpa using hb, hk⟩
  · rintro ⟨c, hc, hb, hk⟩
    exact ⟨c, ⟨hc, by simpa using hb⟩, hk⟩

theorem keysOf_nodup (cs : List Change) (b : Bytes) : (keysOf cs b).Nodup :=
  List.nodup_dedup _

theorem keysOf_ne_nil (cs : List Change) (b : Bytes)
    (h : b ∈ bucketsSorted cs) : keysOf cs b ≠ [] := by
  rw [bucketsSorted_mem] at h
  obtain ⟨c, hc, hb⟩ := h
  intro hnil
  have : c.key ∈ keysOf cs b := (keysOf_mem cs b c.key).mpr ⟨c, hc, hb, rfl⟩
  rw [hnil] at this
  simp at this

theorem dropWhile_append_of_all {α : Type} (p : α → Bool) (A B : List α)
    (hA : ∀ a ∈ A, p a = true) : (A ++ B).dropWhile p = B.dropWhile p := by
  induction A with
  | nil => simp
  | cons a as ih =>
    rw [List.cons_append, List.dropWhile_cons]
    rw [hA a (by simp)]
    simp only [if_true]
    exact ih (fun x hx => hA x (by simp [hx]))

theorem dropWhile_eq_self_of_all {α : Type} (p : α → Bool) (B : List α)
    (hB : ∀ a ∈ B, p a = false) : B.dropWhile p = B := by
  cases B with
  | nil => rfl
  | cons b bs =>
    rw [List.dropWhile_cons, hB b (by simp)]
    simp

/-- A change-index key for timestamp `ts` sorts strictly before the bare
encoding of any larger timestamp. -/
theorem entry_lexLt_enc {ts a : Nat} (b : Bytes) (hts : ts < a) (ha : a < 2 ^ 53) :
    lexLt (encodeTimestamp ts ++ b) (encodeTimestamp a) = true := by
  have h := encodeTimestamp_append_lexLt b [] hts ha
  simpa using h

/-- A change-index key for timestamp `ts ≥ a` never sorts before the bare
encoding of `a`. -/
theorem not_entry_lexLt_enc {ts a : Nat} (b : Bytes) (hts : a ≤ ts)
    (hts53 : ts < 2 ^ 53) :
    lexLt (encodeTimestamp ts ++ b) (encodeTimestamp a) = false := by
  rcases Nat.eq_or_lt_of_le hts with h | h
  · subst h
    exact not_lexLt_append_self _ _
  · have h1 := encodeTimestamp_append_lexLt [] b h hts53
    rw [List.append_nil] at h1
    exact lexLt_asymm h1

theorem walkGo_cons {σ : Type} (f : σ → Bytes → Bytes → σ × Bool)
    (k v : Bytes) (rest : List (Bytes × Bytes)) (s : σ) :
    walkGo f ((k, v) :: rest) s
      = if (f s k v).2 then walkGo f rest (f s k v).1 else (f s k v).1 := rfl

theorem walkGo_append_cont {σ : Type} (f : σ → Bytes → Bytes → σ × Bool)
    (A B : List (Bytes × Bytes)) (init : σ)
    (hA : ∀ s : σ, ∀ e ∈ A, (f s e.1 e.2).2 = true) :
    walkGo f (A ++ B) init = walkGo f B (A.foldl (fun s e => (f s e.1 e.2).1) init) := by
  induction A generalizing init with
  | nil => simp
  | cons e es ih =>
    obtain ⟨k, v⟩ := e
    rw [List.cons_append, walkGo_cons]
    have h2 : (f init k v).2 = true := hA init (k, v) (by simp)
    rw [h2]
    simp only [if_true]
    rw [ih _ (fun s x hx => hA s x (by simp [hx]))]
    rfl

theorem walkGo_stop_head {σ : Type} (f : σ → Bytes → Bytes → σ × Bool)
    (B : List (Bytes × Bytes)) (s : σ)
    (hB : ∀ s' : σ, ∀ e, B.head? = some e → f s' e.1 e.2 = (s', false)) :
    walkGo f B s = s := by
  cases B with
  | nil => rfl
  | cons e rest =>
    obtain ⟨k, v⟩ := e
    rw [walkGo_cons]
    have h2 : f s k v = (s, false) := hB s (k, v) rfl
    rw [h2]
    simp

theorem foldl_flatMap {α β σ : Type} (l : List α) (f : α → List β)
    (g : σ → β → σ) (init : σ) :
    (l.flatMap f).foldl g init = l.foldl (fun s x => (f x).foldl g s) init := by
  induction l generalizing init with
  | nil => rfl
  | cons x xs ih =>
    rw [List.flatMap_cons, List.foldl_append, List.foldl_cons, ih]

theorem encodeChangeSet_count (keys : List Bytes) (hcount : keys.length < 2 ^ 32) :
    beVal ((encodeChangeSet keys).take 4) = keys.length := by
  unfold encodeChangeSet
  rw [List.take_left' (beBytes_length _ _), beVal_beBytes]
  have h32 : (256 : Nat) ^ 4 = 2 ^ 32 := by norm_num
  rw [h32, Nat.mod_eq_of_lt hcount]

theorem parseChangeSet_drop (keys : List Bytes) (hcount : keys.length < 2 ^ 32)
    (hlen : ∀ k ∈ keys, k.length < 256) :
    parseKeys keys.length ((encodeChangeSet keys).drop 4) = keys := by
  have h := parseKeys_encodeChangeSet keys hcount hlen
  rw [encodeChangeSet_count keys hcount] at h
  exact h

/-- The walk callback of `rewindData` on a well-formed change-index entry
below the source timestamp: the entry's keys are folded into the map and
the walk continues. -/
theorem rewindCollect_entry (src ts : Nat) (m : List (Bytes × List Bytes))
    (b : Bytes) (keys : List Bytes) (hts : ts ≤ src) (h53 : ts < 2 ^ 53)
    (hne : keys ≠ []) (hcount : keys.length < 2 ^ 32)
    (hlen : ∀ k ∈ keys, k.length < 256) :
    rewindCollect src m (encodeTimestamp ts ++ b) (encodeChangeSet keys)
      = (keys.foldl (fun m key => rewindAddKey m b key) m, true) := by
  unfold rewindCollect
  rw [decode_encode_append ts h53 b]
  simp only
  rw [if_neg (by omega)]
  rw [encodeChangeSet_count keys hcount]
  rw [if_pos (by cases keys with | nil => exact absurd rfl hne | cons a l => simp)]
  rw [parseChangeSet_drop keys hcount hlen]

/-- The walk callback of `rewindData` stops (leaving the map unchanged) on
an entry beyond the source timestamp. -/
theorem rewindCollect_stop (src ts : Nat) (m : List (Bytes × List Bytes))
    (b v : Bytes) (hts : src < ts) (h53 : ts < 2 ^ 53) :
    rewindCollect src m (encodeTimestamp ts ++ b) v = (m, false) := by
  unfold rewindCollect
  rw [decode_encode_append ts h53 b]
  simp only
  rw [if_pos (by omega)]

/-- The flattened (bucket, key) pairs of the collected map. -/
def mapPairs (m : List (Bytes × List Bytes)) : List (Bytes × Bytes) :=
  m.flatMap (fun bks => bks.2.map (fun k => (bks.1, k)))

/-- Invariant of the collected map: distinct buckets, deduplicated keys. -/
def mWF (m : List (Bytes × List Bytes)) : Prop :=
  (m.map Prod.fst).Nodup ∧ ∀ bks ∈ m, bks.2.Nodup

theorem mem_fst_rewindAddKey (m : List (Bytes × List Bytes)) (b k x : Bytes) :
    x ∈ (rewindAddKey m b k).map Prod.fst ↔ x ∈ m.map Prod.fst ∨ x = b := by
  induction m with
  | nil => simp [rewindAddKey]
  | cons e rest ih =>
    obtain ⟨b', ks⟩ := e
    by_cases h1 : b' = b
    · subst h1
      rw [rewindAddKey, if_pos rfl]
      simp only [List.map_cons, List.mem_cons]
      tauto
    · rw [rewindAddKey, if_neg h1]
      simp only [List.map_cons, List.mem_cons, ih]
      tauto

theorem mWF_rewindAddKey (m : List (Bytes × List Bytes)) (b k : Bytes)
    (h : mWF m) : mWF (rewindAddKey m b k) := by
  induction m with
  | nil =>
    exact ⟨by simp [rewindAddKey], by simp [rewindAddKey]⟩
  | cons e rest ih =>
    obtain ⟨b', ks⟩ := e
    obtain ⟨h1, h2⟩ := h
    rw [List.map_cons, List.nodup_cons] at h1
    by_cases hb : b' = b
    · subst hb
      rw [rewindAddKey, if_pos rfl]
      constructor
      · rw [List.map_cons, List.nodup_cons]
        exact h1
      · intro bks hbks
        rcases List.mem_cons.mp hbks with h | h
        · subst h
          by_cases hk : k ∈ ks
        
          · rw [if_pos hk]
            exact h2 (b', ks) (by simp)
          · rw [if_neg hk]
            simp only
            rw [List.nodup_append]
            exact ⟨h2 (b', ks) (by simp), List.nodup_singleton k, by simpa using hk⟩
        · exact h2 bks (by simp [h])
    · rw [rewindAddKey, if_neg hb]
      have ihr := ih ⟨h1.2, fun bks hbks => h2 bks (by simp [hbks])⟩
      constructor
      · rw [List.map_cons, List.nodup_cons]
        refine ⟨?_, ihr.1⟩
        rw [mem_fst_rewindAddKey]
        rintro (h | h)
        · exact h1.1 h
        · exact hb h
      · intro bks hbks
        rcases List.mem_cons.mp hbks with h | h
        · subst h; exact h2 (b', ks) (by simp)
        · exact ihr.2 bks h

theorem mem_pairMap (b : Bytes) (ks : List Bytes) (x y : Bytes) :
    (x, y) ∈ ks.map (fun k => (b, k)) ↔ x = b ∧ y ∈ ks := by
  rw [List.mem_map]
  constructor
  · rintro ⟨a, ha, he⟩
    obtain ⟨h1, h2⟩ := Prod.mk.injEq _ _ _ _ ▸ he
    exact ⟨h1.symm, h2 ▸ ha⟩
  · rintro ⟨hx, hy⟩
    subst hx
    exact ⟨y, hy, rfl⟩

theorem mapPairs_cons (b : Bytes) (ks : List Bytes) (rest : List (Bytes × List Bytes)) :
    mapPairs ((b, ks) :: rest) = ks.map (fun k => (b, k)) ++ mapPairs rest := rfl

theorem mapPairs_rewindAddKey (m : List (Bytes × List Bytes)) (b k x y : Bytes) :
    (x, y) ∈ mapPairs (rewindAddKey m b k)
      ↔ (x, y) ∈ mapPairs m ∨ (x = b ∧ y = k) := by
  induction m with
  | nil =>
    show (x, y) ∈ mapPairs [(b, [k])] ↔ _
    rw [mapPairs_cons]
    simp only [mapPairs, List.flatMap_nil, List.append_nil, mem_pairMap,
      List.mem_singleton, List.not_mem_nil]
    tauto
  | cons e rest ih =>
    obtain ⟨b', ks⟩ := e
    by_cases h1 : b' = b
    · subst h1
      rw [rewindAddKey, if_pos rfl, mapPairs_cons, mapPairs_cons]
      by_cases hk : k ∈ ks
      · rw [if_pos hk]
        simp only [List.mem_append, mem_pairMap]
        have hyk : ∀ z : Bytes, z = k → z ∈ ks := fun z hz => hz ▸ hk
        constructor
        · tauto
        · rintro ((h | h) | ⟨hx, hy⟩)
          · left; exact h
          · right; exact h
          · left; exact ⟨hx, hyk y hy⟩
      · rw [if_neg hk]
        simp only [List.mem_append, mem_pairMap, List.mem_singleton]
        tauto
    · rw [rewindAddKey, if_neg h1, mapPairs_cons, mapPairs_cons]
      simp only [List.mem_append, mem_pairMap, ih]
      tauto

/-- The (bucket, key) pairs recorded over the block range `[lo, hi]`, in
store-walk order (ascending timestamp, buckets sorted, keys deduplicated). -/
def histPairs (hist : Nat → List Change) (lo hi : Nat) : List (Bytes × Bytes) :=
  (List.range' lo (hi + 1 - lo)).flatMap (fun ts =>
    (bucketsSorted (hist ts)).flatMap (fun b =>
      (keysOf (hist ts) b).map (fun k => (b, k))))

theorem suffixEntries_split (hist : Nat → List Change) (T a : Nat)
    (h1 : 1 ≤ a) (h2 : a ≤ T + 1) :
    suffixEntries hist T
      = ((List.range' 1 (a - 1)).flatMap (suffixEntriesAt hist))
        ++ ((List.range' a (T + 1 - a)).flatMap (suffixEntriesAt hist)) := by
  unfold suffixEntries
  rw [← List.flatMap_append]
  congr 1
  have := List.range'_append 1 (a - 1) (T + 1 - a) 1
  rw [Nat.one_mul] at this
  have ha : 1 + (a - 1) = a := by omega
  rw [ha] at this
  have hc : T + 1 - a + (a - 1) = T := by omega
  rw [hc] at this
  exact this.symm

theorem mem_suffixEntries_shape (hist : Nat → List Change) (s n : Nat)
    (e : Bytes × Bytes) (he : e ∈ (List.range' s n).flatMap (suffixEntriesAt hist)) :
    ∃ ts b, ts ∈ List.range' s n ∧ b ∈ bucketsSorted (hist ts) ∧
      e = (encodeTimestamp ts ++ b, encodeChangeSet (keysOf (hist ts) b)) := by
  rw [List.mem_flatMap] at he
  obtain ⟨ts, hts, he⟩ := he
  unfold suffixEntriesAt at he
  rw [List.mem_map] at he
  obtain ⟨b, hb, he⟩ := he
  exact ⟨ts, b, hts, hb, he.symm⟩

theorem foldl_rewindAddKey_mem (P : List (Bytes × Bytes)) (m0 : List (Bytes × List Bytes))
    (x y : Bytes) :
    (x, y) ∈ mapPairs (P.foldl (fun m bk => rewindAddKey m bk.1 bk.2) m0)
      ↔ (x, y) ∈ mapPairs m0 ∨ (x, y) ∈ P := by
  induction P generalizing m0 with
  | nil => simp
  | cons bk P ih =>
    obtain ⟨b, k⟩ := bk
    rw [List.foldl_cons]
    rw [ih]
    rw [mapPairs_rewindAddKey]
    simp only [List.mem_cons, Prod.mk.injEq]
    tauto

theorem foldl_rewindAddKey_mWF (P : List (Bytes × Bytes)) (m0 : List (Bytes × List Bytes))
    (h : mWF m0) : mWF (P.foldl (fun m bk => rewindAddKey m bk.1 bk.2) m0) := by
  induction P generalizing m0 with
  | nil => exact h
  | cons bk P ih =>
    rw [List.foldl_cons]
    exact ih _ (mWF_rewindAddKey _ _ _ h)

theorem mem_mapPairs_fst (m : List (Bytes × List Bytes)) (x y : Bytes)
    (h : (x, y) ∈ mapPairs m) : x ∈ m.map Prod.fst := by
  unfold mapPairs at h
  rw [List.mem_flatMap] at h
  obtain ⟨bks, hbks, hmem⟩ := h
  rw [List.mem_map] at hmem
  obtain ⟨k, _, he⟩ := hmem
  rw [List.mem_map]
  exact ⟨bks, hbks, congrArg Prod.fst he⟩

theorem mapPairs_nodup (m : List (Bytes × List Bytes)) (h : mWF m) :
    (mapPairs m).Nodup := by
  induction m with
  | nil => exact List.nodup_nil
  | cons e rest ih =>
    obtain ⟨b, ks⟩ := e
    obtain ⟨h1, h2⟩ := h
    rw [List.map_cons, List.nodup_cons] at h1
    rw [mapPairs_cons, List.nodup_append]
    refine ⟨?_, ih ⟨h1.2, fun bks hbks => h2 bks (by simp [hbks])⟩, ?_⟩
    · apply List.Nodup.map
      · intro a1 a2 he
        exact congrArg Prod.snd he
      · exact h2 (b, ks) (by simp)
    · intro p hp hp2
      obtain ⟨x, y⟩ := p
      rw [mem_pairMap] at hp
      have := mem_mapPairs_fst rest x y hp2
      rw [hp.1] at this
      exact h1.1 this

theorem keysOf_len (hist : Nat → List Change) (T : Nat) (wf : HistWF hist T)
    (ts : Nat) (b : Bytes) : ∀ k ∈ keysOf (hist ts) b, k.length < 256 := by
  intro k hk
  rw [keysOf_mem] at hk
  obtain ⟨c, hc, _, hkey⟩ := hk
  exact hkey ▸ wf.keyLen ts c hc

/-- Phase 1 of `rewindData` over a generated store collects exactly the
pairs recorded in `(dst, min src T]`, folded through the deduplicating
map insertion. -/
theorem rewindMap_eq (hist : Nat → List Change) (T : Nat)
    (pre : Bytes → Except DbErr Bytes) (src dst : Nat)
    (wf : HistWF hist T) (hds : dst < src) (hsrc : src < 2 ^ 53) :
    rewindMap (histDB hist T pre) src dst
      = (histPairs hist (dst + 1) (min src T)).foldl
          (fun m bk => rewindAddKey m bk.1 bk.2) [] := by
  have hT53 := wf.tsBound
  have ha53 : dst + 1 < 2 ^ 53 := by omega
  have hsuffix : (histDB hist T pre).suffix = suffixEntries hist T := rfl
  unfold rewindMap walkFold
  rw [hsuffix]
  by_cases hdT : dst ≤ T
  · -- the generic case: the walk reaches the range (dst, min src T]
    rw [suffixEntries_split hist T (dst + 1) (by omega) (by omega)]
    rw [dropWhile_append_of_all _ _ _ (by
      intro e he
      obtain ⟨ts, b, hts, hb, hesh⟩ := mem_suffixEntries_shape hist _ _ e he
      rw [List.mem_range'_1] at hts
      rw [hesh]
      exact entry_lexLt_enc b (by omega) ha53)]
    rw [dropWhile_eq_self_of_all _ _ (by
      intro e he
      obtain ⟨ts, b, hts, hb, hesh⟩ := mem_suffixEntries_shape hist _ _ e he
      rw [List.mem_range'_1] at hts
      rw [hesh]
      exact not_entry_lexLt_enc b (by omega) (by omega))]
    -- split the remaining range at min src T
    have hsplit : List.range' (dst + 1) (T + 1 - (dst + 1))
        = List.range' (dst + 1) (min src T + 1 - (dst + 1))
          ++ List.range' (min src T + 1) (T - min src T) := by
      have h := List.range'_append (dst + 1) (min src T + 1 - (dst + 1))
        (T - min src T) 1
      rw [Nat.one_mul] at h
      have h1 : dst + 1 + (min src T + 1 - (dst + 1)) = min src T + 1 := by omega
      rw [h1] at h
      have h2 : T - min src T + (min src T + 1 - (dst + 1)) = T + 1 - (dst + 1) := by
        omega
      rw [h2] at h
      exact h.symm
    rw [hsplit, List.flatMap_append]
    rw [walkGo_append_cont _ _ _ _ (by
      intro s e he
      obtain ⟨ts, b, hts, hb, hesh⟩ := mem_suffixEntries_shape hist _ _ e he
      rw [List.mem_range'_1] at hts
      rw [hesh]
      rw [rewindCollect_entry src ts s b _ (by omega) (by omega)
        (keysOf_ne_nil _ _ hb) (wf.countLt ts b) (keysOf_len hist T wf ts b)])]
    rw [walkGo_stop_head _ _ _ (by
      intro s' e he
      have hmem : e ∈ (List.range' (min src T + 1) (T - min src T)).flatMap
          (suffixEntriesAt hist) := List.mem_of_mem_head? (by simp [he])
      obtain ⟨ts, b, hts, hb, hesh⟩ := mem_suffixEntries_shape hist _ _ e hmem
      rw [List.mem_range'_1] at hts
      rw [hesh]
      exact rewindCollect_stop src ts s' b _ (by omega) (by omega))]
    -- both sides are the same nested fold
    unfold histPairs
    rw [foldl_flatMap, foldl_flatMap]
    apply List.foldl_ext
    intro s ts hts
    rw [List.mem_range'_1] at hts
    unfold suffixEntriesAt
    rw [List.foldl_map, foldl_flatMap]
    apply List.foldl_ext
    intro s2 b hb
    rw [rewindCollect_entry src ts s2 b _ (by omega) (by omega)
      (keysOf_ne_nil _ _ hb) (wf.countLt ts b) (keysOf_len hist T wf ts b)]
    rw [List.foldl_map]
  · -- the walk start is beyond every recorded block: nothing is collected
    have hdrop : (suffixEntries hist T).dropWhile
        (fun e => lexLt e.1 (encodeTimestamp (dst + 1))) = [] := by
      rw [List.dropWhile_eq_nil_iff]
      intro e he
      unfold suffixEntries at he
      obtain ⟨ts, b, hts, hb, hesh⟩ := mem_suffixEntries_shape hist 1 T e he
      rw [List.mem_range'_1] at hts
      rw [hesh]
      exact entry_lexLt_enc b (by omega) ha53
    rw [hdrop]
    have hcount : min src T + 1 - (dst + 1) = 0 := by omega
    unfold histPairs
    rw [hcount]
    rfl

theorem histPairs_mem (hist : Nat → List Change) (lo hi : Nat) (b k : Bytes) :
    (b, k) ∈ histPairs hist lo hi
      ↔ ∃ ts, lo ≤ ts ∧ ts ≤ hi ∧ ∃ c ∈ hist ts, c.bucket = b ∧ c.key = k := by
  unfold histPairs
  rw [List.mem_flatMap]
  constructor
  · rintro ⟨ts, hts, hmem⟩
    rw [List.mem_range'_1] at hts
    rw [List.mem_flatMap] at hmem
    obtain ⟨b', hb', hmem⟩ := hmem
    rw [mem_pairMap] at hmem
    obtain ⟨hbb, hk⟩ := hmem
    subst hbb
    rw [keysOf_mem] at hk
    exact ⟨ts, by omega, by omega, hk⟩
  · rintro ⟨ts, h1, h2, c, hc, hb, hk⟩
    refine ⟨ts, ?_, ?_⟩
    · rw [List.mem_range'_1]
      omega
    · rw [List.mem_flatMap]
      refine ⟨b, ?_, ?_⟩
      · rw [bucketsSorted_mem]
        exact ⟨c, hc, hb⟩
      · rw [mem_pairMap]
        exact ⟨rfl, (keysOf_mem _ _ _).mpr ⟨c, hc, hb, hk⟩⟩

theorem rewindCalls_pairs (db : DB) (src dst : Nat) :
    (rewindCalls db src dst).map (fun c => (c.1, c.2.1))
      = mapPairs (rewindMap db src dst) := by
  unfold rewindCalls mapPairs
  rw [List.map_flatMap]
  congr 1
  funext bks
  rw [List.map_map]
  rfl

theorem rewindCalls_val (db : DB) (src dst : Nat) (c : Bytes × Bytes × Option Bytes)
    (hc : c ∈ rewindCalls db src dst) :
    c.2.2 = match db.getAsOf (c.1.drop 1) c.1 c.2.1 (dst + 1) with
            | .ok v => some v
            | .error _ => none := by
  unfold rewindCalls at hc
  rw [List.mem_flatMap] at hc
  obtain ⟨bks, _, hc⟩ := hc
  rw [List.mem_map] at hc
  obtain ⟨key, _, he⟩ := hc
  subst he
  rfl

theorem histDB_resolve (hist : Nat → List Change) (T : Nat)
    (pre : Bytes → Except DbErr Bytes) (hb key : Bytes) (dst : Nat) :
    (match (histDB hist T pre).getAsOf (hb.drop 1) hb key (dst + 1) with
     | .ok v => some v
     | .error _ => none) = stateAt hist dst hb key := by
  show (match histGetAsOf hist hb key (dst + 1) with
        | .ok v => some v
        | .error _ => none) = _
  unfold histGetAsOf
  rw [Nat.add_sub_cancel]
  cases stateAt hist dst hb key <;> rfl

/-- The combined characterization of the callback invocations of
`rewindData` on a generated store. -/
theorem rewindCalls_spec (hist : Nat → List Change) (T : Nat)
    (pre : Bytes → Except DbErr Bytes) (src dst : Nat)
    (wf : HistWF hist T) (hds : dst < src) (hsrc : src < 2 ^ 53) :
    ((rewindCalls (histDB hist T pre) src dst).map (fun c => (c.1, c.2.1))).Nodup
    ∧ (∀ b k, (b, k) ∈ (rewindCalls (histDB hist T pre) src dst).map
          (fun c => (c.1, c.2.1))
        ↔ changedIn hist dst src b k)
    ∧ (∀ c ∈ rewindCalls (histDB hist T pre) src dst,
        c.2.2 = stateAt hist dst c.1 c.2.1) := by
  rw [rewindCalls_pairs]
  rw [rewindMap_eq hist T pre src dst wf hds hsrc]
  refine ⟨?_, ?_, ?_⟩
  · exact mapPairs_nodup _
      (foldl_rewindAddKey_mWF _ _ ⟨List.nodup_nil, by simp⟩)
  · intro b k
    rw [foldl_rewindAddKey_mem]
    simp only [mapPairs, List.flatMap_nil, List.not_mem_nil, false_or]
    rw [histPairs_mem]
    unfold changedIn
    constructor
    · rintro ⟨ts, h1, h2, hc⟩
      exact ⟨ts, by omega, by omega, hc⟩
    · rintro ⟨ts, h1, h2, c, hc, hbk⟩
      have hsupp := wf.support ts (by
        intro hnil
        rw [hnil] at hc
        simp at hc)
      exact ⟨ts, by omega, by omega, c, hc, hbk⟩
  · intro c hc
    rw [rewindCalls_val _ _ _ c hc]
    exact histDB_resolve hist T pre c.1 c.2.1 dst

theorem keysOf_length_le (cs : List Change) (b : Bytes) :
    (keysOf cs b).length ≤ cs.length := by
  unfold keysOf
  calc (((cs.filter (fun c => c.bucket = b)).map (fun c => c.key)).dedup).length
      ≤ ((cs.filter (fun c => c.bucket = b)).map (fun c => c.key)).length :=
        (List.dedup_sublist _).length_le
    _ = (cs.filter (fun c => c.bucket = b)).length := List.length_map _ _
    _ ≤ cs.length := List.length_filter_le _ _

/-- C5: over a store generated by recording a history of mutations, for
every pair `timestampDst < timestampSrc`, `rewindData` feeds its callback
(via `rewindCalls`, exactly the `foldlM` below) once per distinct
(bucket, key) pair recorded as changed at some timestamp in
`(timestampDst, timestampSrc]`, never more than once per pair, passing the
value that was effective at `timestampDst`. -/
theorem C5_theorem (hist : Nat → List Change) (T : Nat)
    (pre : Bytes → Except DbErr Bytes) (src dst : Nat)
    (wf : HistWF hist T) (hds : dst < src) (hsrc : src < 2 ^ 53) :
    (∀ (ε : Type) (df : Bytes → Bytes → Option Bytes → Except ε Unit),
        rewindData (histDB hist T pre) src dst df
          = (rewindCalls (histDB hist T pre) src dst).foldlM
              (fun _ c => df c.1 c.2.1 c.2.2) ())
    ∧ ((rewindCalls (histDB hist T pre) src dst).map (fun c => (c.1, c.2.1))).Nodup
    ∧ (∀ b k, (b, k) ∈ (rewindCalls (histDB hist T pre) src dst).map
          (fun c => (c.1, c.2.1))
        ↔ changedIn hist dst src b k)
    ∧ (∀ c ∈ rewindCalls (histDB hist T pre) src dst,
        c.2.2 = stateAt hist dst c.1 c.2.1) := by
  obtain ⟨h1, h2, h3⟩ := rewindCalls_spec hist T pre src dst wf hds hsrc
  exact ⟨fun _ _ => rfl, h1, h2, h3⟩

/-- A small concrete history for the witnesses: block 1 writes key `[7]`,
block 2 overwrites `[7]` and writes `[8]`, all in bucket `"hAT"`. -/
def testHist : Nat → List Change := fun ts =>
  if ts = 1 then [⟨hATBytes, [7], some [9]⟩]
  else if ts = 2 then [⟨hATBytes, [7], some [5]⟩, ⟨hATBytes, [8], some [6]⟩]
  else []

/-- A total preimage resolver for the witnesses. -/
def testPre : Bytes → Except DbErr Bytes := fun k => .ok (k ++ [1])

theorem testHist_wf : HistWF testHist 2 := by
  refine ⟨by norm_num, ?_, ?_, ?_⟩
  · intro ts h
    unfold testHist at h
    split_ifs at h with h1 h2
    · omega
    · omega
    · exact absurd rfl h
  · intro ts c hc
    unfold testHist at hc
    split_ifs at hc with h1 h2
    · simp only [List.mem_singleton] at hc
      subst hc; norm_num
    · simp only [List.mem_cons, List.mem_singleton] at hc
      rcases hc with hc | hc | hc
      · subst hc; norm_num
      · subst hc; norm_num
      · simp at hc
    · simp at hc
  · intro ts b
    calc (keysOf (testHist ts) b).length ≤ (testHist ts).length :=
          keysOf_length_le _ _
      _ ≤ 2 := by unfold testHist; split_ifs <;> simp
      _ < 2 ^ 32 := by norm_num

/-- C5 (witness): the characterization applied to the concrete history at
`src = 2`, `dst = 1`; the pair `("hAT", [8])` is recorded in `(1, 2]`. -/
theorem C5_witness :
    HistWF testHist 2 ∧ (1 : Nat) < 2 ∧ (2 : Nat) < 2 ^ 53 ∧
    ((rewindCalls (histDB testHist 2 testPre) 2 1).map
        (fun c => (c.1, c.2.1))).Nodup ∧
    ((hATBytes, ([8] : Bytes)) ∈ (rewindCalls (histDB testHist 2 testPre) 2 1).map
        (fun c => (c.1, c.2.1)) ↔ changedIn testHist 1 2 hATBytes [8]) ∧
    changedIn testHist 1 2 hATBytes [8] := by
  have wf := testHist_wf
  refine ⟨wf, by norm_num, by norm_num, ?_, ?_, ?_⟩
  · exact (C5_theorem testHist 2 testPre 2 1 wf (by norm_num) (by norm_num)).2.1
  · exact (C5_theorem testHist 2 testPre 2 1 wf (by norm_num) (by norm_num)).2.2.1
      hATBytes [8]
  · refine ⟨2, by norm_num, by norm_num, ⟨hATBytes, [8], some [6]⟩, ?_, rfl, rfl⟩
    unfold testHist
    norm_num

/-- Applying one rewind callback value to a state: `some v` is a trie
update, `none` a delete. -/
def applyCall (s : Bytes → Bytes → Option Bytes)
    (c : Bytes × Bytes × Option Bytes) : Bytes → Bytes → Option Bytes :=
  fun b k => if b = c.1 ∧ k = c.2.1 then c.2.2 else s b k

/-- Modelled from the spec: `TrieDbState.UnwindTo(target)` drives
`rewindData` from the current timestamp down to `target` and applies each
yielded value as a trie Update (`some v`) or Delete (`none`); the callback
invocations of `rewindData` are exactly `rewindCalls`. -/
def unwindTo (hist : Nat → List Change) (T target : Nat)
    (pre : Bytes → Except DbErr Bytes) : Bytes → Bytes → Option Bytes :=
  (rewindCalls (histDB hist T pre) T target).foldl applyCall (stateAt hist T)

/-- The canonical enumeration of a state over a fixed key domain. -/
def stateEnum (s : Bytes → Bytes → Option Bytes) (dom : List (Bytes × Bytes)) :
    List ((Bytes × Bytes) × Bytes) :=
  dom.filterMap (fun bk => (s bk.1 bk.2).map (fun v => (bk, v)))

/-- Modelled from the spec: the root hash is recomputed deterministically
from the trie's contents, so equal contents over the same key domain give
a bit-identical root.  The modelled root is a length-prefixed canonical
serialization of the enumerated contents. -/
def rootHashModel (entries : List ((Bytes × Bytes) × Bytes)) : Bytes :=
  entries.flatMap (fun e =>
    e.1.1.length :: e.1.1 ++ (e.1.2.length :: e.1.2) ++ (e.2.length :: e.2))

theorem foldl_applyCall_not_mem (calls : List (Bytes × Bytes × Option Bytes))
    (s : Bytes → Bytes → Option Bytes) (b k : Bytes)
    (h : (b, k) ∉ calls.map (fun c => (c.1, c.2.1))) :
    calls.foldl applyCall s b k = s b k := by
  induction calls generalizing s with
  | nil => rfl
  | cons c rest ih =>
    rw [List.map_cons, List.mem_cons] at h
    push_neg at h
    rw [List.foldl_cons, ih _ h.2]
    unfold applyCall
    rw [if_neg (by
      rintro ⟨rfl, rfl⟩
      exact h.1 rfl)]

theorem foldl_applyCall_mem (calls : List (Bytes × Bytes × Option Bytes))
    (s : Bytes → Bytes → Option Bytes) (b k : Bytes) (v : Option Bytes)
    (hnd : (calls.map (fun c => (c.1, c.2.1))).Nodup)
    (hmem : (b, k, v) ∈ calls) :
    calls.foldl applyCall s b k = v := by
  induction calls generalizing s with
  | nil => simp at hmem
  | cons c rest ih =>
    rw [List.map_cons, List.nodup_cons] at hnd
    rw [List.foldl_cons]
    rcases List.mem_cons.mp hmem with he | hrest
    · -- the head is the unique call for (b, k)
      subst he
      rw [foldl_applyCall_not_mem _ _ _ _ (by simpa using hnd.1)]
      unfold applyCall
      rw [if_pos ⟨rfl, rfl⟩]
    · -- the head touches a different pair (by nodup), recurse
      exact ih _ hnd.2 hrest

theorem applyBlock_not_touched (s : Bytes → Bytes → Option Bytes)
    (cs : List Change) (b k : Bytes)
    (h : ∀ c ∈ cs, ¬(c.bucket = b ∧ c.key = k)) :
    applyBlock s cs b k = s b k := by
  induction cs generalizing s with
  | nil => rfl
  | cons c rest ih =>
    show applyBlock (applyChange s c) rest b k = s b k
    rw [ih _ (fun c' hc' => h c' (by simp [hc']))]
    unfold applyChange
    rw [if_neg (by
      rintro ⟨rfl, rfl⟩
      exact h c (by simp) ⟨rfl, rfl⟩)]

theorem stateAt_stable (hist : Nat → List Change) (lo hi : Nat) (b k : Bytes)
    (hlh : lo ≤ hi)
    (h : ∀ ts, lo < ts → ts ≤ hi → ∀ c ∈ hist ts, ¬(c.bucket = b ∧ c.key = k)) :
    stateAt hist hi b k = stateAt hist lo b k := by
  induction hi with
  | zero =>
    have : lo = 0 := by omega
    subst this; rfl
  | succ m ih =>
    by_cases hl : lo = m + 1
    · subst hl; rfl
    · have hlm : lo ≤ m := by omega
      show applyBlock (stateAt hist m) (hist (m + 1)) b k = _
      rw [applyBlock_not_touched _ _ _ _ (h (m + 1) (by omega) (by omega))]
      exact ih hlm (fun ts h1 h2 => h ts h1 (by omega))

/-- C1: unwinding a state built through blocks `1..T` back to `target`
restores exactly the state that existed natively at `target`; since the
root hash is a deterministic function of the contents, the recomputed root
is bit-identical to the root at `target`. -/
theorem C1_theorem (hist : Nat → List Change) (T target : Nat)
    (pre : Bytes → Except DbErr Bytes) (wf : HistWF hist T) (htT : target < T) :
    unwindTo hist T target pre = stateAt hist target
    ∧ ∀ dom, rootHashModel (stateEnum (unwindTo hist T target pre) dom)
        = rootHashModel (stateEnum (stateAt hist target) dom) := by
  have hT53 := wf.tsBound
  obtain ⟨hnd, hiff, hval⟩ := rewindCalls_spec hist T pre T target wf htT (by omega)
  have hpt : ∀ b k, unwindTo hist T target pre b k = stateAt hist target b k := by
    intro b k
    unfold unwindTo
    by_cases hch : changedIn hist target T b k
    · obtain ⟨c, hc, hpair⟩ := by
        have := (hiff b k).mpr hch
        rw [List.mem_map] at this
        exact this
      have hb : c.1 = b := congrArg Prod.fst hpair
      have hk : c.2.1 = k := congrArg Prod.snd hpair
      have hcv : c = (b, k, c.2.2) := by
        obtain ⟨c1, c2, c3⟩ := c
        simp only at hb hk ⊢
        rw [hb, hk]
      rw [foldl_applyCall_mem _ _ b k c.2.2 hnd (hcv ▸ hc)]
      have := hval c hc
      rw [hb, hk] at this
      exact this
    · rw [foldl_applyCall_not_mem _ _ _ _ (fun hmem => hch ((hiff b k).mp hmem))]
      exact stateAt_stable hist target T b k (by omega) (by
        intro ts h1 h2 c hc hbk
        exact hch ⟨ts, h1, h2, c, hc, hbk.1, hbk.2⟩)
  have hfun : unwindTo hist T target pre = stateAt hist target :=
    funext (fun b => funext (fun k => hpt b k))
  exact ⟨hfun, fun dom => by rw [hfun]⟩

/-- C1 (witness): unwinding the concrete two-block history from block 2
to block 1 restores the block-1 state and root. -/
theorem C1_witness :
    HistWF testHist 2 ∧ (1 : Nat) < 2 ∧
    unwindTo testHist 2 1 testPre = stateAt testHist 1 ∧
    rootHashModel (stateEnum (unwindTo testHist 2 1 testPre) [(hATBytes, [7])])
      = rootHashModel (stateEnum (stateAt testHist 1) [(hATBytes, [7])]) ∧
    stateAt testHist 1 hATBytes [7] = some [9] := by
  have wf := testHist_wf
  refine ⟨wf, by norm_num, ?_, ?_, ?_⟩
  · exact (C1_theorem testHist 2 1 testPre wf (by norm_num)).1
  · exact (C1_theorem testHist 2 1 testPre wf (by norm_num)).2 [(hATBytes, [7])]
  · decide

theorem foldl_sortedInsert_mem (L : List Bytes) (acc : List Bytes) (x : Bytes) :
    x ∈ L.foldl sortedInsert acc ↔ x ∈ acc ∨ x ∈ L := by
  induction L generalizing acc with
  | nil => simp
  | cons k ks ih =>
    rw [List.foldl_cons, ih]
    rw [sortedInsert_mem]
    simp only [List.mem_cons]
    tauto

theorem foldl_sortedInsert_pairwise (L : List Bytes) (acc : List Bytes)
    (h : acc.Pairwise (fun a b => lexLt a b = true)) :
    (L.foldl sortedInsert acc).Pairwise (fun a b => lexLt a b = true) := by
  induction L generalizing acc with
  | nil => exact h
  | cons k ks ih =>
    rw [List.foldl_cons]
    exact ih _ (sortedInsert_pairwise _ _ h)

/-- The walk state is never changed by entries past the stop point of
`GetModifiedAccounts` (non-`hAT` entries are skipped, the first `hAT`
entry stops the walk). -/
theorem walkGo_state_const {σ : Type} (f : σ → Bytes → Bytes → σ × Bool)
    (B : List (Bytes × Bytes)) (s : σ)
    (h : ∀ s' : σ, ∀ e ∈ B, (f s' e.1 e.2).1 = s') :
    walkGo f B s = s := by
  induction B generalizing s with
  | nil => rfl
  | cons e rest ih =>
    obtain ⟨k, v⟩ := e
    rw [walkGo_cons]
    rw [h s (k, v) (by simp)]
    split_ifs
    · exact ih _ (fun s' e he => h s' e (by simp [he]))
    · rfl

/-- The `GetModifiedAccounts` callback on a well-formed entry at or below
the end timestamp: `hAT` keys are inserted, other buckets are skipped,
and the walk continues. -/
theorem gmaCollect_entry (endt ts : Nat) (t : List Bytes) (b : Bytes)
    (keys : List Bytes) (hts : ts ≤ endt) (h53 : ts < 2 ^ 53)
    (hcount : keys.length < 2 ^ 32) (hlen : ∀ k ∈ keys, k.length < 256) :
    gmaCollect endt t (encodeTimestamp ts ++ b) (encodeChangeSet keys)
      = (if b = hATBytes then keys.foldl sortedInsert t else t, true) := by
  unfold gmaCollect
  rw [decode_encode_append ts h53 b]
  simp only
  by_cases hb : b = hATBytes
  · rw [if_neg (by simp [hb]), if_neg (by omega)]
    rw [encodeChangeSet_count keys hcount, parseChangeSet_drop keys hcount hlen]
    rw [if_pos hb]
  · rw [if_pos (by simp [hb]), if_neg hb]

/-- Past the end timestamp the callback never changes the collected set. -/
theorem gmaCollect_const (endt ts : Nat) (t : List Bytes) (b v : Bytes)
    (hts : endt < ts) (h53 : ts < 2 ^ 53) :
    (gmaCollect endt t (encodeTimestamp ts ++ b) v).1 = t := by
  unfold gmaCollect
  rw [decode_encode_append ts h53 b]
  simp only
  by_cases hb : b = hATBytes
  · rw [if_neg (by simp [hb]), if_pos (by omega)]
  · rw [if_pos (by simp [hb])]

/-- Folding one block's entries through the `GetModifiedAccounts` callback
collects exactly that block's deduplicated `hAT` keys. -/
theorem gma_fold_ts (hist : Nat → List Change) (T : Nat) (wf : HistWF hist T)
    (endt ts : Nat) (s : List Bytes) (hts : ts ≤ endt) (h53 : ts < 2 ^ 53) :
    (suffixEntriesAt hist ts).foldl (fun t e => (gmaCollect endt t e.1 e.2).1) s
      = (keysOf (hist ts) hATBytes).foldl sortedInsert s := by
  unfold suffixEntriesAt
  rw [List.foldl_map]
  have hnd : (bucketsSorted (hist ts)).Nodup :=
    pairwise_lexLt_nodup _ (bucketsSorted_pairwise _)
  -- fold over the sorted buckets: only a possible hAT entry contributes
  have main : ∀ (bl : List Bytes), bl.Nodup →
      (∀ b ∈ bl, b ∈ bucketsSorted (hist ts)) → ∀ s : List Bytes,
      bl.foldl (fun t b =>
        (gmaCollect endt t (encodeTimestamp ts ++ b)
          (encodeChangeSet (keysOf (hist ts) b))).1) s
        = if hATBytes ∈ bl then (keysOf (hist ts) hATBytes).foldl sortedInsert s
          else s := by
    intro bl
    induction bl with
    | nil => intro _ _ s; simp
    | cons b rest ih =>
      intro hnd2 hsub s
      rw [List.nodup_cons] at hnd2
      rw [List.foldl_cons]
      have hstep : (gmaCollect endt s (encodeTimestamp ts ++ b)
          (encodeChangeSet (keysOf (hist ts) b))).1
          = if b = hATBytes then (keysOf (hist ts) b).foldl sortedInsert s else s := by
        rw [gmaCollect_entry endt ts s b _ hts h53
          (wf.countLt ts b) (keysOf_len hist T wf ts b)]
      rw [hstep]
      by_cases hb : b = hATBytes
      · subst hb
        rw [if_pos rfl]
        rw [ih hnd2.2 (fun x hx => hsub x (by simp [hx])) _]
        rw [if_neg hnd2.1]
        rw [if_pos (by simp)]
      · rw [if_neg hb]
        rw [ih hnd2.2 (fun x hx => hsub x (by simp [hx])) s]
        by_cases hmem : hATBytes ∈ rest
        · rw [if_pos hmem, if_pos (by simp [hmem])]
        · rw [if_neg hmem, if_neg (by
            simp only [List.mem_cons]
            rintro (h | h)
            · exact hb h.symm
            · exact hmem h)]
      
  rw [main _ hnd (fun b hb => hb) s]
  by_cases hmem : hATBytes ∈ bucketsSorted (hist ts)
  · rw [if_pos hmem]
  · rw [if_neg hmem]
    have : keysOf (hist ts) hATBytes = [] := by
      by_contra hne
      obtain ⟨k, hk⟩ := List.exists_mem_of_ne_nil _ hne
      rw [keysOf_mem] at hk
      obtain ⟨c, hc, hb, _⟩ := hk
      exact hmem ((bucketsSorted_mem _ _).mpr ⟨c, hc, hb⟩)
    rw [this]
    rfl

/-- The key set collected by the walk of `GetModifiedAccounts` over a
generated store: the deduplicated, sorted `hAT` keys of the blocks in
`[start, endt]` (clipped to the recorded range). -/
theorem gma_walk_eq (hist : Nat → List Change) (T : Nat) (start endt : Nat)
    (wf : HistWF hist T) (hse : start ≤ endt) (hend : endt < 2 ^ 53) :
    walkFold (suffixEntries hist T) (encodeTimestamp start) (gmaCollect endt) []
      = (List.range' (max start 1) (min endt T + 1 - max start 1)).foldl
          (fun s ts => (keysOf (hist ts) hATBytes).foldl sortedInsert s) [] := by
  have hT53 := wf.tsBound
  have hstart53 : start < 2 ^ 53 := by omega
  unfold walkFold
  by_cases hsT : start ≤ T + 1
  · rw [suffixEntries_split hist T (max start 1) (by omega) (by omega)]
    rw [dropWhile_append_of_all _ _ _ (by
      intro e he
      obtain ⟨ts, b, hts, hb, hesh⟩ := mem_suffixEntries_shape hist _ _ e he
      rw [List.mem_range'_1] at hts
      rw [hesh]
      exact entry_lexLt_enc b (by omega) hstart53)]
    rw [dropWhile_eq_self_of_all _ _ (by
      intro e he
      obtain ⟨ts, b, hts, hb, hesh⟩ := mem_suffixEntries_shape hist _ _ e he
      rw [List.mem_range'_1] at hts
      rw [hesh]
      exact not_entry_lexLt_enc b (by omega) (by omega))]
    have hsplit : List.range' (max start 1) (T + 1 - max start 1)
        = List.range' (max start 1) (min endt T + 1 - max start 1)
          ++ List.range' (min endt T + 1) (T - min endt T) := by
      have h := List.range'_append (max start 1) (min endt T + 1 - max start 1)
        (T - min endt T) 1
      rw [Nat.one_mul] at h
      have h1 : max start 1 + (min endt T + 1 - max start 1) = min endt T + 1 := by
        omega
      rw [h1] at h
      have h2 : T - min endt T + (min endt T + 1 - max start 1)
          = T + 1 - max start 1 := by omega
      rw [h2] at h
      exact h.symm
    rw [hsplit, List.flatMap_append]
    rw [walkGo_append_cont _ _ _ _ (by
      intro s e he
      obtain ⟨ts, b, hts, hb, hesh⟩ := mem_suffixEntries_shape hist _ _ e he
      rw [List.mem_range'_1] at hts
      rw [hesh]
      rw [gmaCollect_entry endt ts s b _ (by omega) (by omega)
        (wf.countLt ts b) (keysOf_len hist T wf ts b)])]
    rw [walkGo_state_const _ _ _ (by
      intro s' e he
      obtain ⟨ts, b, hts, hb, hesh⟩ := mem_suffixEntries_shape hist _ _ e he
      rw [List.mem_range'_1] at hts
      rw [hesh]
      exact gmaCollect_const endt ts s' b _ (by omega) (by omega))]
    rw [foldl_flatMap]
    apply List.foldl_ext
    intro s ts hts
    rw [List.mem_range'_1] at hts
    exact gma_fold_ts hist T wf endt ts s (by omega) (by omega)
  · have hdrop : (suffixEntries hist T).dropWhile
        (fun e => lexLt e.1 (encodeTimestamp start)) = [] := by
      rw [List.dropWhile_eq_nil_iff]
      intro e he
      unfold suffixEntries at he
      obtain ⟨ts, b, hts, hb, hesh⟩ := mem_suffixEntries_shape hist 1 T e he
      rw [List.mem_range'_1] at hts
      rw [hesh]
      exact entry_lexLt_enc b (by omega) hstart53
    rw [hdrop]
    have hcount : min endt T + 1 - max start 1 = 0 := by omega
    rw [hcount]
    rfl

theorem foldl_keys_mem (L : List Nat) (g : Nat → List Bytes)
    (acc : List Bytes) (x : Bytes) :
    x ∈ L.foldl (fun s ts => (g ts).foldl sortedInsert s) acc
      ↔ x ∈ acc ∨ ∃ ts ∈ L, x ∈ g ts := by
  induction L generalizing acc with
  | nil => simp
  | cons t ts ih =>
    rw [List.foldl_cons, ih, foldl_sortedInsert_mem]
    simp only [List.mem_cons]
    constructor
    · rintro ((h | h) | ⟨u, hu, hx⟩)
      · left; exact h
      · right; exact ⟨t, Or.inl rfl, h⟩
      · right; exact ⟨u, Or.inr hu, hx⟩
    · rintro (h | ⟨u, hu | hu, hx⟩)
      · left; left; exact h
      · subst hu; left; right; exact hx
      · right; exact ⟨u, hu, hx⟩

theorem foldl_keys_pairwise (L : List Nat) (g : Nat → List Bytes)
    (acc : List Bytes) (h : acc.Pairwise (fun a b => lexLt a b = true)) :
    (L.foldl (fun s ts => (g ts).foldl sortedInsert s) acc).Pairwise
      (fun a b => lexLt a b = true) := by
  induction L generalizing acc with
  | nil => exact h
  | cons t ts ih =>
    rw [List.foldl_cons]
    exact ih _ (foldl_sortedInsert_pairwise _ _ h)

theorem exceptMapM_ok {ε α β : Type} (f : α → Except ε β) (g : α → β)
    (l : List α) (h : ∀ x ∈ l, f x = .ok (g x)) :
    l.mapM f = .ok (l.map g) := by
  induction l with
  | nil => rfl
  | cons a rest ih =>
    rw [List.mapM_cons, h a (by simp), ih (fun x hx => h x (by simp [hx]))]
    rfl

theorem exceptMapM_error {ε α β : Type} (f : α → Except ε β) (l : List α)
    (x : α) (e : ε) (hx : x ∈ l) (hf : f x = .error e) :
    ∃ e', l.mapM f = .error e' := by
  induction l with
  | nil => simp at hx
  | cons a rest ih =>
    rcases List.mem_cons.mp hx with he | hrest
    · subst he
      exact ⟨e, by rw [List.mapM_cons, hf]; rfl⟩
    · cases hfa : f a with
      | error e2 => exact ⟨e2, by rw [List.mapM_cons, hfa]; rfl⟩
      | ok b =>
        obtain ⟨e', he'⟩ := ih hrest
        exact ⟨e', by rw [List.mapM_cons, hfa, he']; rfl⟩

/-- C8: over a generated store, `GetModifiedAccounts(db, start, end)`
scans the `"hAT"` change index over `[start, end]`: the collected hashed
keys are exactly those recorded there, each exactly once (deduplicated);
on success every key is resolved through the preimage index into a
20-byte address (each distinct address once, given the resolution is
injective on the collected keys); if any preimage lookup fails the whole
call returns an error. -/
theorem C8_theorem (hist : Nat → List Change) (T : Nat)
    (pre : Bytes → Except DbErr Bytes) (res : Bytes → Bytes) (start endt : Nat)
    (wf : HistWF hist T) (hse : start ≤ endt) (hend : endt < 2 ^ 53) :
    (walkFold (suffixEntries hist T) (encodeTimestamp start) (gmaCollect endt) []).Nodup
    ∧ (∀ k, k ∈ walkFold (suffixEntries hist T) (encodeTimestamp start)
          (gmaCollect endt) []
        ↔ ∃ ts, start ≤ ts ∧ ts ≤ endt ∧
            ∃ c ∈ hist ts, c.bucket = hATBytes ∧ c.key = k)
    ∧ ((∀ k, pre k = .ok (res k)) →
        GetModifiedAccounts (histDB hist T pre) start endt
          = .ok ((walkFold (suffixEntries hist T) (encodeTimestamp start)
              (gmaCollect endt) []).map (fun k => toAddress (res k))))
    ∧ ((∀ k, pre k = .ok (res k)) →
        (∀ k1 ∈ walkFold (suffixEntries hist T) (encodeTimestamp start)
            (gmaCollect endt) [],
         ∀ k2 ∈ walkFold (suffixEntries hist T) (encodeTimestamp start)
            (gmaCollect endt) [],
          toAddress (res k1) = toAddress (res k2) → k1 = k2) →
        ((walkFold (suffixEntries hist T) (encodeTimestamp start)
            (gmaCollect endt) []).map (fun k => toAddress (res k))).Nodup)
    ∧ (∀ k ∈ walkFold (suffixEntries hist T) (encodeTimestamp start)
          (gmaCollect endt) [],
        ∀ e, pre k = .error e →
          ∃ msg, GetModifiedAccounts (histDB hist T pre) start endt
            = .error msg) := by
  have hT53 := wf.tsBound
  have hW := gma_walk_eq hist T start endt wf hse hend
  have hnd : (walkFold (suffixEntries hist T) (encodeTimestamp start)
      (gmaCollect endt) []).Nodup := by
    rw [hW]
    exact pairwise_lexLt_nodup _ (foldl_keys_pairwise _ _ _ (by simp))
  have hmem : ∀ k, k ∈ walkFold (suffixEntries hist T) (encodeTimestamp start)
      (gmaCollect endt) []
      ↔ ∃ ts, start ≤ ts ∧ ts ≤ endt ∧
          ∃ c ∈ hist ts, c.bucket = hATBytes ∧ c.key = k := by
    intro k
    rw [hW, foldl_keys_mem]
    simp only [List.not_mem_nil, false_or]
    constructor
    · rintro ⟨ts, hts, hk⟩
      rw [List.mem_range'_1] at hts
      rw [keysOf_mem] at hk
      exact ⟨ts, by omega, by omega, hk⟩
    · rintro ⟨ts, h1, h2, c, hc, hbk⟩
      have hsupp := wf.support ts (by
        intro hnil
        rw [hnil] at hc
        simp at hc)
      refine ⟨ts, ?_, (keysOf_mem _ _ _).mpr ⟨c, hc, hbk⟩⟩
      rw [List.mem_range'_1]
      omega
  have hok : ∀ (hres : ∀ k, pre k = .ok (res k)),
      GetModifiedAccounts (histDB hist T pre) start endt
        = .ok ((walkFold (suffixEntries hist T) (encodeTimestamp start)
            (gmaCollect endt) []).map (fun k => toAddress (res k))) := by
    intro hres
    unfold GetModifiedAccounts
    apply exceptMapM_ok
    intro x _
    show (match (histDB hist T pre).get secureKeyPrefix x with
          | .ok value => Except.ok (toAddress value)
          | .error _ => Except.error "Could not get preimage") = _
    have : (histDB hist T pre).get secureKeyPrefix x = pre x := rfl
    rw [this, hres x]
  refine ⟨hnd, hmem, hok, ?_, ?_⟩
  · intro hres hinj
    exact List.Nodup.map_on hinj hnd
  · intro k hk e he
    unfold GetModifiedAccounts
    apply exceptMapM_error _ _ k "Could not get preimage" hk
    show (match (histDB hist T pre).get secureKeyPrefix k with
          | .ok value => Except.ok (toAddress value)
          | .error _ => Except.error "Could not get preimage") = _
    have : (histDB hist T pre).get secureKeyPrefix k = pre k := rfl
    rw [this, he]

/-- C8 (witness): applied to the concrete history over `[1, 2]` with the
total resolver `testPre`; both recorded keys resolve, and key `[8]` is
reported as modified. -/
theorem C8_witness :
    HistWF testHist 2 ∧ (1 : Nat) ≤ 2 ∧ (2 : Nat) < 2 ^ 53 ∧
    GetModifiedAccounts (histDB testHist 2 testPre) 1 2
      = .ok ((walkFold (suffixEntries testHist 2) (encodeTimestamp 1)
          (gmaCollect 2) []).map (fun k => toAddress (k ++ [1]))) ∧
    (([8] : Bytes) ∈ walkFold (suffixEntries testHist 2) (encodeTimestamp 1)
        (gmaCollect 2) []) := by
  have wf := testHist_wf
  refine ⟨wf, by norm_num, by norm_num, ?_, ?_⟩
  · exact (C8_theorem testHist 2 testPre (fun k => k ++ [1]) 1 2 wf
      (by norm_num) (by norm_num)).2.2.1 (fun k => rfl)
  · apply ((C8_theorem testHist 2 testPre (fun k => k ++ [1]) 1 2 wf
      (by norm_num) (by norm_num)).2.1 [8]).mpr
    refine ⟨2, by norm_num, by norm_num, ⟨hATBytes, [8], some [6]⟩, ?_, rfl, rfl⟩
    unfold testHist
    norm_num

/-! ## `DbState`: the trie-free state reader -/

/-- The accounts bucket `"AT"`. -/
def AccountsBucket : Bytes := [65, 84]

/-- The accounts history bucket `"hAT"`. -/
def AccountsHistoryBucket : Bytes := [104, 65, 84]

/-- A storage override of `DbState`: logical key, hashed key, value. -/
structure StorageItem where
  key : Bytes
  seckey : Bytes
  value : Bytes

/-- `DbState` from the state package: a database handle, a block number,
and per-address in-memory storage overrides ordered by hashed key
(the LLRB of `storageItem`s). -/
structure DbState where
  db : DB
  blockNr : Nat
  storage : List (Bytes × List StorageItem)

/-- `DbState.ReadAccountData`: the secure key is the hash of the address;
`GetAsOf(AccountsBucket, AccountsHistoryBucket, hash, blockNr+1)` is read,
and `if err != nil || enc == nil || len(enc) == 0` every failure — I/O or
not-found alike — collapses into `(nil, nil)`.  Account decoding is
abstracted: the raw encoding stands for the account. -/
def ReadAccountData (keccak : Bytes → Bytes) (dbs : DbState) (address : Bytes) :
    Except DbErr (Option Bytes) :=
  match dbs.db.getAsOf AccountsBucket AccountsHistoryBucket (keccak address)
      (dbs.blockNr + 1) with
  | .error _ => .ok none
  | .ok enc => if enc = [] then .ok none else .ok (some enc)

/-- A store whose `GetAsOf` and `Get` always fail with the I/O error (not
the not-found sentinel), over a one-entry change index recording key `[7]`
of bucket `"hAT"` at block 1. -/
def ioDB : DB where
  suffix := [([33] ++ hATBytes, encodeChangeSet [[7]])]
  getAsOf := fun _ _ _ _ => .error .io
  get := fun _ _ => .error .io

theorem foldlM_ok {ε : Type} (l : List (Bytes × Bytes × Option Bytes)) :
    l.foldlM (fun (_ : Unit) (c : Bytes × Bytes × Option Bytes) =>
      (Except.ok () : Except ε Unit)) () = Except.ok () := by
  induction l with
  | nil => rfl
  | cons c rest ih => rw [List.foldlM_cons]; exact ih

/-- C9 (counterexample): with a store whose `GetAsOf` fails with the I/O
error (not the not-found sentinel), `rewindData` succeeds and passes a
`nil` value for the touched key — the I/O error is absorbed and
indistinguishable from a deleted/absent key — and `ReadAccountData`
likewise returns `(nil, nil)` with no error. -/
theorem C9_counterexample :
    ioDB.getAsOf AccountsBucket AccountsHistoryBucket [5] 1 = .error .io ∧
    rewindData ioDB 1 0 (fun _ _ _ => Except.ok (ε := DbErr) ()) = .ok () ∧
    rewindCalls ioDB 1 0 = [(hATBytes, [7], none)] ∧
    ReadAccountData (fun b => b) ⟨ioDB, 0, []⟩ [5] = .ok none := by
  have henc : encodeTimestamp 1 = [33] := by
    rw [encodeTimestamp_small (by norm_num : (1 : Nat) < 32)]
  refine ⟨rfl, ?_, ?_, rfl⟩
  · unfold rewindData
    rw [foldlM_ok]
  · unfold rewindCalls rewindMap walkFold
    rw [henc]
    decide

/-- C9 (amended): at the two cited sites the code absorbs storage errors
instead of propagating them.  For any store whose `GetAsOf` fails — with
the I/O error or any other — every `rewindData` callback receives a `nil`
value (treated as a delete), `rewindData` itself returns no error, and
`DbState.ReadAccountData` returns `(nil, nil)`; the error is not
distinguishable from a legitimate key-absent result at these call sites. -/
theorem C9_theorem (db : DB) (src dst : Nat)
    (herr : ∀ b hb k ts, ∃ e, db.getAsOf b hb k ts = .error e) :
    (∀ c ∈ rewindCalls db src dst, c.2.2 = none)
    ∧ rewindData db src dst (fun _ _ _ => Except.ok (ε := DbErr) ()) = .ok ()
    ∧ ∀ (keccak : Bytes → Bytes) (blockNr : Nat)
        (storage : List (Bytes × List StorageItem)) (address : Bytes),
        ReadAccountData keccak ⟨db, blockNr, storage⟩ address = .ok none := by
  refine ⟨?_, ?_, ?_⟩
  · intro c hc
    rw [rewindCalls_val db src dst c hc]
    obtain ⟨e, he⟩ := herr (c.1.drop 1) c.1 c.2.1 (dst + 1)
    rw [he]
  · unfold rewindData
    rw [foldlM_ok]
  · intro keccak blockNr storage address
    unfold ReadAccountData
    obtain ⟨e, he⟩ := herr AccountsBucket AccountsHistoryBucket
      (keccak address) (blockNr + 1)
    simp only at he ⊢
    rw [he]

/-- C9 (witness): the amended statement applied to the concrete failing
store. -/
theorem C9_witness :
    (∀ c ∈ rewindCalls ioDB 1 0, c.2.2 = none) ∧
    rewindData ioDB 1 0 (fun _ _ _ => Except.ok (ε := DbErr) ()) = .ok () ∧
    ReadAccountData (fun b => b) ⟨ioDB, 5, []⟩ [9] = .ok none := by
  obtain ⟨h1, h2, h3⟩ := C9_theorem ioDB 1 0 (fun b hb k ts => ⟨.io, rfl⟩)
  exact ⟨h1, h2, h3 (fun b => b) 5 [] [9]⟩

/-- `DbState.UpdateAccountData`: a no-op returning nil. -/
def UpdateAccountData (dbs : DbState) (address : Bytes)
    (original account : Option Bytes) : DbState × Option DbErr :=
  (dbs, none)

/-- `DbState.DeleteAccount`: a no-op returning nil. -/
def DeleteAccount (dbs : DbState) (address : Bytes) (original : Option Bytes) :
    DbState × Option DbErr :=
  (dbs, none)

/-- `DbState.UpdateAccountCode`: a no-op returning nil. -/
def UpdateAccountCode (dbs : DbState) (codeHash code : Bytes) :
    DbState × Option DbErr :=
  (dbs, none)

/-- `llrb.ReplaceOrInsert` on the storage override tree: items are ordered
by hashed key (`storageItem.Less` compares `seckey`), an equal hashed key
replaces the item. -/
def replaceOrInsertItem : List StorageItem → StorageItem → List StorageItem
  | [], i => [i]
  | x :: rest, i =>
    if lexLt i.seckey x.seckey then i :: x :: rest
    else if i.seckey = x.seckey then i :: rest
    else x :: replaceOrInsertItem rest i

/-- Updating the per-address override map at one address. -/
def storageUpdate : List (Bytes × List StorageItem) → Bytes → StorageItem →
    List (Bytes × List StorageItem)
  | [], addr, i => [(addr, [i])]
  | (a, t) :: rest, addr, i =>
    if a = addr then (a, replaceOrInsertItem t i) :: rest
    else (a, t) :: storageUpdate rest addr i

/-- `DbState.WriteAccountStorage`: hash the key, build the storage item
and `ReplaceOrInsert` it into the address's override tree; returns nil. -/
def WriteAccountStorage (keccak : Bytes → Bytes) (dbs : DbState)
    (address key original value : Bytes) : DbState × Option DbErr :=
  ({ dbs with storage :=
      storageUpdate dbs.storage address ⟨key, keccak key, value⟩ }, none)

/-- Association lookup in the override map. -/
def lookupStorage : List (Bytes × List StorageItem) → Bytes →
    Option (List StorageItem)
  | [], _ => none
  | (a, t) :: rest, addr => if a = addr then some t else lookupStorage rest addr

theorem lookupStorage_storageUpdate_other
    (st : List (Bytes × List StorageItem)) (addr a : Bytes) (i : StorageItem)
    (h : a ≠ addr) :
    lookupStorage (storageUpdate st addr i) a = lookupStorage st a := by
  induction st with
  | nil =>
    show lookupStorage [(addr, [i])] a = none
    unfold lookupStorage
    rw [if_neg (fun he => h he.symm)]
    rfl
  | cons e rest ih =>
    obtain ⟨a', t⟩ := e
    by_cases ha : a' = addr
    · subst ha
      rw [storageUpdate, if_pos rfl]
      unfold lookupStorage
      rw [if_neg (fun he => h he.symm), if_neg (fun he => h he.symm)]
    · rw [storageUpdate, if_neg ha]
      unfold lookupStorage
      by_cases ha2 : a' = a
      · rw [if_pos ha2, if_pos ha2]
      · rw [if_neg ha2, if_neg ha2]
        exact ih

/-- C10: `UpdateAccountData`, `DeleteAccount` and `UpdateAccountCode`
return nil and leave the entire `DbState` unchanged; only
`WriteAccountStorage` modifies the in-memory storage overrides — and only
at the given address — and it too always returns nil, preserving the
database handle and the block number. -/
theorem C10_theorem (keccak : Bytes → Bytes) (dbs : DbState) (address : Bytes)
    (original account : Option Bytes) (codeHash code key orig value : Bytes) :
    UpdateAccountData dbs address original account = (dbs, none)
    ∧ DeleteAccount dbs address original = (dbs, none)
    ∧ UpdateAccountCode dbs codeHash code = (dbs, none)
    ∧ (WriteAccountStorage keccak dbs address key orig value).2 = none
    ∧ (WriteAccountStorage keccak dbs address key orig value).1.db = dbs.db
    ∧ (WriteAccountStorage keccak dbs address key orig value).1.blockNr
        = dbs.blockNr
    ∧ ∀ a, a ≠ address →
        lookupStorage
            (WriteAccountStorage keccak dbs address key orig value).1.storage a
          = lookupStorage dbs.storage a := by
  refine ⟨rfl, rfl, rfl, rfl, rfl, rfl, ?_⟩
  intro a ha
  exact lookupStorage_storageUpdate_other dbs.storage address a _ ha

/-- C10 (witness): the frame property at a concrete state: writing storage
for address `[2]` leaves the overrides of address `[1]` unchanged. -/
theorem C10_witness :
    UpdateAccountData ⟨ioDB, 0, []⟩ [2] none none = (⟨ioDB, 0, []⟩, none) ∧
    (WriteAccountStorage (fun b => b) ⟨ioDB, 0, []⟩ [2] [3] [0] [4]).2 = none ∧
    lookupStorage
        (WriteAccountStorage (fun b => b) ⟨ioDB, 0, []⟩ [2] [3] [0] [4]).1.storage
        [1]
      = lookupStorage ([] : List (Bytes × List StorageItem)) [1] := by
  obtain ⟨h1, _, _, h4, _, _, h7⟩ :=
    C10_theorem (fun b => b) ⟨ioDB, 0, []⟩ [2] none none [0] [0] [3] [0] [4]
  exact ⟨h1, h4, h7 [1] (by decide)⟩

/-! ## The Merkle Patricia Trie and its proof subsystem

`Trie.Update/Get/Hash/Prove` and `VerifyProof` are not among the source
files (only `trie/proof_test.go` is), so the subsystem is modelled from
the specification: node variants Leaf/Extension/Branch (16 child slots,
plus a value slot standing for the key-terminator), a canonical
deterministic encoding, content hashing by an abstract hash function `H`
over the encoding, `Prove` walking root-to-leaf inserting each visited
node's (hash → encoding) pair, and `VerifyProof` re-resolving, re-hashing
and walking the decoded nodes.  Small-node inlining is not modelled:
every node is addressed by its hash (proof sizes are at least those of
the original; the single-node cases coincide). -/

/-- A fully materialized trie node. -/
inductive TNode where
  | leaf (path : List Nat) (val : Bytes)
  | ext (path : List Nat) (child : TNode)
  | branch (cs : List (Option TNode)) (val : Option Bytes)

theorem sizeOf_child_lt (cs : List (Option TNode)) (v : Option Bytes) (c : TNode)
    (i : Nat) (h : cs.getD i none = some c) :
    sizeOf c < sizeOf (TNode.branch cs v) := by
  have hmem : some c ∈ cs := by
    rw [List.getD_eq_getElem?_getD] at h
    rcases he : cs[i]? with _ | oc
    · rw [he] at h; simp at h
    · rw [he] at h
      simp only [Option.getD_some] at h
      subst h
      exact List.getElem?_mem he
  have h1 : sizeOf (some c) < sizeOf cs := List.sizeOf_lt_of_mem hmem
  have h2 : sizeOf (some c) = 1 + sizeOf c := Option.some.sizeOf_spec c
  have h3 : sizeOf (TNode.branch cs v) = 1 + sizeOf cs + sizeOf v := by
    simp [TNode.branch.sizeOf_spec]
  omega

/-- Byte key to nibble path. -/
def keyNibbles : Bytes → List Nat
  | [] => []
  | b :: rest => b / 16 :: b % 16 :: keyNibbles rest

/-- The length of the longest common prefix of two nibble paths. -/
def commonPrefixLen : List Nat → List Nat → Nat
  | a :: as, b :: bs => if a = b then commonPrefixLen as bs + 1 else 0
  | _, _ => 0

mutual

/-- `Get` on a materialized node. -/
def tget : TNode → List Nat → Option Bytes
  | .leaf p v, k => if k = p then some v else none
  | .ext p c, k =>
    if k.take p.length = p then tget c (k.drop p.length) else none
  | .branch _ v, [] => v
  | .branch cs _, i :: k' => tgetChild cs i k'

/-- `Get` dispatched into the `i`-th child slot. -/
def tgetChild : List (Option TNode) → Nat → List Nat → Option Bytes
  | [], _, _ => none
  | oc :: _, 0, k' =>
    match oc with
    | none => none
    | some c => tget c k'
  | _ :: rest, i + 1, k' => tgetChild rest i k'

end

/-- An extension with an empty fragment is its child (canonical-minimal
form: no Extension with an empty fragment). -/
def mkShort (p : List Nat) (c : TNode) : TNode :=
  if p = [] then c else .ext p c

/-- Sixteen empty child slots. -/
def emptyChildren : List (Option TNode) := List.replicate 16 none

/-- Place the remainder of a diverging path into a fresh branch: an empty
remainder becomes the branch value, otherwise a child slot. -/
def placeRest (cs : List (Option TNode)) (bv : Option Bytes) (rest : List Nat)
    (n : TNode) (restVal : Bytes) : List (Option TNode) × Option Bytes :=
  match rest with
  | [] => (cs, some restVal)
  | i :: _ => (cs.set i (some n), bv)

mutual

/-- `Update` (insert) on a materialized node, following standard MPT
restructuring: splitting a Leaf/Extension on divergence, creating Branch
nodes, never creating an empty Extension fragment. -/
def tinsert : TNode → List Nat → Bytes → TNode
  | .leaf p w, k, v =>
    if k = p then .leaf p v
    else
      let m := commonPrefixLen k p
      let r1 := placeRest emptyChildren none (p.drop m) (.leaf (p.drop m).tail w) w
      let r2 := placeRest r1.1 r1.2 (k.drop m) (.leaf (k.drop m).tail v) v
      mkShort (k.take m) (.branch r2.1 r2.2)
  | .ext p c, k, v =>
    let m := commonPrefixLen k p
    if m = p.length then .ext p (tinsert c (k.drop m) v)
    else
      let r1 := placeRest emptyChildren none (p.drop m) (mkShort (p.drop m).tail c) []
      let r2 := placeRest r1.1 r1.2 (k.drop m) (.leaf (k.drop m).tail v) v
      mkShort (k.take m) (.branch r2.1 r2.2)
  | .branch cs bv, [], v => .branch cs (some v)
  | .branch cs bv, i :: k', v => .branch (tinsertChild cs i k' v) bv

/-- `Update` dispatched into the `i`-th child slot (an empty slot becomes
a fresh leaf; an index beyond the slots is a no-op, mirroring
`List.set`). -/
def tinsertChild : List (Option TNode) → Nat → List Nat → Bytes →
    List (Option TNode)
  | [], _, _, _ => []
  | oc :: rest, 0, k', v =>
    (match oc with
     | none => some (.leaf k' v)
     | some c => some (tinsert c k' v)) :: rest
  | oc :: rest, i + 1, k', v => oc :: tinsertChild rest i k' v

end

mutual

/-- Well-formedness: no Extension with an empty fragment; Branch nodes
have exactly 16 child slots. -/
def wfNode : TNode → Prop
  | .leaf _ _ => True
  | .ext p c => p ≠ [] ∧ wfNode c
  | .branch cs _ => cs.length = 16 ∧ wfChildren cs

/-- Well-formedness of a child-slot list. -/
def wfChildren : List (Option TNode) → Prop
  | [] => True
  | none :: rest => wfChildren rest
  | some c :: rest => wfNode c ∧ wfChildren rest

end

/-- A decoded (shallow) proof node: children appear as hash references. -/
inductive SNode where
  | sleaf (path : List Nat) (val : Bytes)
  | sext (path : List Nat) (childHash : Bytes)
  | sbranch (refs : List (Option Bytes)) (val : Option Bytes)

/-- Read a length-prefixed chunk (paths and hash references). -/
def readChunk : Bytes → Option (Bytes × Bytes)
  | [] => none
  | n :: rest => if rest.length < n then none else some (rest.take n, rest.drop n)

/-- Read one optional hash reference. -/
def readOpt : Bytes → Option (Option Bytes × Bytes)
  | 0 :: rest => some (none, rest)
  | 1 :: rest => (readChunk rest).map (fun hr => (some hr.1, hr.2))
  | _ => none

/-- Read `n` optional hash references. -/
def readOpts : Nat → Bytes → Option (List (Option Bytes) × Bytes)
  | 0, bs => some ([], bs)
  | n + 1, bs =>
    (readOpt bs).bind (fun or2 =>
      (readOpts n or2.2).map (fun osr => (or2.1 :: osr.1, osr.2)))

/-- Encode an optional byte string (value slot / child slot). -/
def encOptBytes : Option Bytes → Bytes
  | none => [0]
  | some b => 1 :: b.length :: b

mutual

/-- The canonical deterministic node encoding (children by hash). -/
def encNode (H : Bytes → Bytes) : TNode → Bytes
  | .leaf p v => 0 :: (p.length :: p) ++ v
  | .ext p c => 1 :: (p.length :: p) ++ encOptBytes (some (H (encNode H c)))
  | .branch cs v => 2 :: encChildren H cs ++ encOptBytes v

/-- Encode the child slots of a branch (each slot empty or a
length-prefixed child hash). -/
def encChildren (H : Bytes → Bytes) : List (Option TNode) → Bytes
  | [] => []
  | none :: rest => 0 :: encChildren H rest
  | some c :: rest => encOptBytes (some (H (encNode H c))) ++ encChildren H rest

end

/-- The shallow (hash-referencing) view of a node. -/
def shallowOf (H : Bytes → Bytes) : TNode → SNode
  | .leaf p v => .sleaf p v
  | .ext p c => .sext p (H (encNode H c))
  | .branch cs v => .sbranch (cs.map (Option.map (fun c => H (encNode H c)))) v

/-- Decode a canonical node encoding into its shallow view. -/
def decodeNode : Bytes → Option SNode
  | 0 :: rest => (readChunk rest).map (fun pr => .sleaf pr.1 pr.2)
  | 1 :: rest =>
    (readChunk rest).bind (fun pr =>
      (readOpt pr.2).bind (fun hr =>
        match hr.1 with
        | some h => some (.sext pr.1 h)
        | none => none))
  | 2 :: rest =>
    (readOpts 16 rest).bind (fun osr =>
      (readOpt osr.2).map (fun vr => .sbranch osr.1 vr.1))
  | _ => none

theorem readChunk_exact (p rest : Bytes) :
    readChunk (p.length :: p ++ rest) = some (p, rest) := by
  show (if (p ++ rest).length < p.length then none
        else some ((p ++ rest).take p.length, (p ++ rest).drop p.length))
      = some (p, rest)
  rw [if_neg (by simp)]
  rw [List.take_left' rfl, List.drop_left' rfl]

theorem readOpt_encOptBytes (o : Option Bytes) (rest : Bytes) :
    readOpt (encOptBytes o ++ rest) = some (o, rest) := by
  cases o with
  | none => rfl
  | some b =>
    show readOpt (1 :: (b.length :: b ++ rest)) = _
    rw [readOpt]
    rw [readChunk_exact]
    rfl

theorem readOpts_encChildren (H : Bytes → Bytes) (cs : List (Option TNode))
    (rest : Bytes) :
    readOpts cs.length (encChildren H cs ++ rest)
      = some (cs.map (Option.map (fun c => H (encNode H c))), rest) := by
  induction cs with
  | nil => rfl
  | cons oc ocs ih =>
    cases oc with
    | none =>
      show readOpts (ocs.length + 1) ((0 :: encChildren H ocs) ++ rest) = _
      rw [readOpts]
      rw [List.cons_append]
      rw [show readOpt (0 :: (encChildren H ocs ++ rest))
          = some (none, encChildren H ocs ++ rest) from rfl]
      simp only [Option.some_bind]
      rw [ih]
      rfl
    | some c =>
      show readOpts (ocs.length + 1)
        ((encOptBytes (some (H (encNode H c))) ++ encChildren H ocs) ++ rest) = _
      rw [readOpts]
      rw [List.append_assoc]
      rw [readOpt_encOptBytes]
      simp only [Option.some_bind]
      rw [ih]
      rfl

/-- Access into well-formed children. -/
theorem wfChildren_getD (cs : List (Option TNode)) (h : wfChildren cs)
    (i : Nat) (c : TNode) (hc : cs.getD i none = some c) : wfNode c := by
  induction cs generalizing i with
  | nil => simp [List.getD] at hc
  | cons oc rest ih =>
    cases i with
    | zero =>
      cases oc with
      | none => simp [List.getD] at hc
      | some c' =>
        have : c' = c := by simpa [List.getD] using hc
        subst this
        rw [wfChildren] at h
        exact h.1
    | succ j =>
      have hc' : rest.getD j none = some c := by simpa [List.getD] using hc
      cases oc with
      | none => exact ih (by rwa [wfChildren] at h) j hc'
      | some c' => exact ih ((wfChildren.eq_3 _ _ ▸ h).2) j hc'

/-- Round trip: decoding a canonical encoding yields the shallow view. -/
theorem decodeNode_encNode (H : Bytes → Bytes) (t : TNode) (hwf : wfNode t) :
    decodeNode (encNode H t) = some (shallowOf H t) := by
  cases t with
  | leaf p v =>
    show decodeNode (0 :: ((p.length :: p) ++ v)) = _
    rw [decodeNode]
    rw [readChunk_exact]
    rfl
  | ext p c =>
    show decodeNode (1 :: ((p.length :: p) ++ _)) = _
    rw [decodeNode]
    rw [readChunk_exact]
    simp only [Option.some_bind]
    rw [show encOptBytes (some (H (encNode H c)))
        = encOptBytes (some (H (encNode H c))) ++ [] by simp]
    rw [readOpt_encOptBytes]
    rfl
  | branch cs v =>
    rw [wfNode] at hwf
    show decodeNode (2 :: (encChildren H cs ++ encOptBytes v)) = _
    rw [decodeNode]
    rw [← hwf.1]
    rw [readOpts_encChildren]
    simp only [Option.some_bind]
    rw [show encOptBytes v = encOptBytes v ++ [] by simp]
    rw [readOpt_encOptBytes]
    rfl

mutual

/-- The nodes visited by `Prove` while walking root-to-leaf along a key
(the node where the path diverges is still visited). -/
def provePath : TNode → List Nat → List TNode
  | .leaf p v, _ => [.leaf p v]
  | .ext p c, k =>
    if k.take p.length = p then .ext p c :: provePath c (k.drop p.length)
    else [.ext p c]
  | .branch cs v, [] => [.branch cs v]
  | .branch cs v, i :: k' => .branch cs v :: proveChild cs i k'

/-- The visit continued into the `i`-th child slot. -/
def proveChild : List (Option TNode) → Nat → List Nat → List TNode
  | [], _, _ => []
  | oc :: _, 0, k' =>
    match oc with
    | none => []
    | some c => provePath c k'
  | _ :: rest, i + 1, k' => proveChild rest i k'

end

/-- The proof store: hash → encoding, entries idempotently overwritable
(`MemDatabase.Put`). -/
def storeInsert : List (Bytes × Bytes) → Bytes → Bytes → List (Bytes × Bytes)
  | [], k, v => [(k, v)]
  | (k', v') :: rest, k, v =>
    if k' = k then (k, v) :: rest else (k', v') :: storeInsert rest k v

/-- Store lookup by hash. -/
def storeLookup : List (Bytes × Bytes) → Bytes → Option Bytes
  | [], _ => none
  | (k', v') :: rest, k => if k' = k then some v' else storeLookup rest k

/-- Store deletion (`MemDatabase.Delete`). -/
def storeErase : List (Bytes × Bytes) → Bytes → List (Bytes × Bytes)
  | [], _ => []
  | (k', v') :: rest, k => if k' = k then rest else (k', v') :: storeErase rest k

/-- Modelled from the spec: `Prove(key, fromLevel, proofStore)` walks
root-to-leaf along the key and inserts each visited node's
(hash → canonical encoding) pair into the proof store; `fromLevel` skips
that many levels of the path. -/
def Prove (H : Bytes → Bytes) (t : Option TNode) (key : Bytes)
    (fromLevel : Nat) (proofDb : List (Bytes × Bytes)) : List (Bytes × Bytes) :=
  match t with
  | none => proofDb
  | some root =>
    ((provePath root (keyNibbles key)).drop fromLevel).foldl
      (fun db n => storeInsert db (H (encNode H n)) (encNode H n)) proofDb

/-- Verification errors: missing node, hash mismatch on a resolved
encoding, malformed encoding. -/
inductive VErr where
  | missing
  | hashMismatch
  | decodeFail
deriving DecidableEq

/-- Modelled from the spec: the verification walk.  Starting from the
expected hash, look the encoding up in the proof store, reject unless its
recomputed hash matches, decode it, and follow the key: a Leaf answers
with its value (or absence on mismatch), an Extension either descends or
proves absence, a Branch follows the next nibble (an empty slot proves
absence).  Returns the value, the depth, and the trace of consumed
hashes. -/
def verifyWalk (H : Bytes → Bytes) (st : List (Bytes × Bytes)) (h : Bytes)
    (k : List Nat) : Except VErr (Option Bytes × Nat × List Bytes) :=
  match storeLookup st h with
  | none => .error .missing
  | some e =>
    if H e = h then
      match decodeNode e with
      | none => .error .decodeFail
      | some (.sleaf p v) => .ok (if k = p then some v else none, 1, [h])
      | some (.sext p hc) =>
        if hp0 : p = [] then .error .decodeFail
        else if hpre : k.take p.length = p then
          match verifyWalk H st hc (k.drop p.length) with
          | .ok r => .ok (r.1, r.2.1 + 1, h :: r.2.2)
          | .error er => .error er
        else .ok (none, 1, [h])
      | some (.sbranch refs v) =>
        match k with
        | [] => .ok (v, 1, [h])
        | i :: k' =>
          match refs.getD i none with
          | none => .ok (none, 1, [h])
          | some hc =>
            match verifyWalk H st hc k' with
            | .ok r => .ok (r.1, r.2.1 + 1, h :: r.2.2)
            | .error er => .error er
    else .error .hashMismatch
termination_by k.length
decreasing_by
  · have h1 : (k.take p.length).length = p.length := by rw [hpre]
    rw [List.length_take] at h1
    have h2 := Nat.min_le_right p.length k.length
    rw [h1] at h2
    have hne : p.length ≠ 0 := by
      intro h0
      exact hp0 (List.eq_nil_of_length_eq_zero h0)
    simp only [List.length_drop]
    omega
  · simp only [List.length_cons]
    omega

/-- Modelled from the spec:
`VerifyProof(rootHash, key, proofStore) -> (value | absent, depth, error)`. -/
def VerifyProof (H : Bytes → Bytes) (rootHash : Bytes) (key : Bytes)
    (st : List (Bytes × Bytes)) : Except VErr (Option Bytes × Nat) :=
  (verifyWalk H st rootHash (keyNibbles key)).map (fun r => (r.1, r.2.1))

/-- A trie is an optional root node. -/
def trieUpdate (t : Option TNode) (key v : Bytes) : Option TNode :=
  match t with
  | none => some (.leaf (keyNibbles key) v)
  | some root => some (tinsert root (keyNibbles key) v)

/-- Building a trie by successive updates. -/
def trieBuild (kvs : List (Bytes × Bytes)) : Option TNode :=
  kvs.foldl (fun t kv => trieUpdate t kv.1 kv.2) none

/-- `Trie.Get`. -/
def trieGet (t : Option TNode) (key : Bytes) : Option Bytes :=
  match t with
  | none => none
  | some root => tget root (keyNibbles key)

/-- `Trie.Hash`: the content hash of the root's canonical encoding. -/
def trieHash (H : Bytes → Bytes) (t : Option TNode) : Bytes :=
  match t with
  | none => H []
  | some root => H (encNode H root)

/-- The value of the last insertion for a key (map semantics of repeated
`Update`s). -/
def lookupLast (kvs : List (Bytes × Bytes)) (k : Bytes) : Option Bytes :=
  (kvs.reverse.find? (fun kv => kv.1 = k)).map (fun kv => kv.2)

/-! Basic facts about nibble paths, longest common prefixes, child-slot
access and the proof store. -/

theorem keyNibbles_lt (k : Bytes) (hk : ∀ b ∈ k, b < 256) :
    ∀ i ∈ keyNibbles k, i < 16 := by
  induction k with
  | nil => intro i hi; simp [keyNibbles] at hi
  | cons b rest ih =>
    intro i hi
    have hb : b < 256 := hk b (by simp)
    rw [keyNibbles] at hi
    rcases List.mem_cons.mp hi with h1 | hi2
    · omega
    rcases List.mem_cons.mp hi2 with h2 | h3
    · omega
    · exact ih (fun x hx => hk x (List.mem_cons_of_mem _ hx)) i h3

theorem keyNibbles_inj : ∀ {a b : Bytes}, keyNibbles a = keyNibbles b → a = b := by
  intro a
  induction a with
  | nil =>
    intro b h
    cases b with
    | nil => rfl
    | cons x xs => simp [keyNibbles] at h
  | cons x xs ih =>
    intro b h
    cases b with
    | nil => simp [keyNibbles] at h
    | cons y ys =>
      rw [keyNibbles, keyNibbles] at h
      injection h with h1 h'
      injection h' with h2 h3
      have : x = y := by omega
      rw [this, ih h3]

theorem cpl_le_left : ∀ (a b : List Nat), commonPrefixLen a b ≤ a.length := by
  intro a
  induction a with
  | nil => intro b; cases b <;> simp [commonPrefixLen]
  | cons x xs ih =>
    intro b
    cases b with
    | nil => simp [commonPrefixLen]
    | cons y ys =>
      rw [commonPrefixLen]
      by_cases h : x = y
      · rw [if_pos h]
        have := ih ys
        simp only [List.length_cons]
        omega
      · rw [if_neg h]; omega

theorem cpl_le_right : ∀ (a b : List Nat), commonPrefixLen a b ≤ b.length := by
  intro a
  induction a with
  | nil => intro b; cases b <;> simp [commonPrefixLen]
  | cons x xs ih =>
    intro b
    cases b with
    | nil => simp [commonPrefixLen]
    | cons y ys =>
      rw [commonPrefixLen]
      by_cases h : x = y
      · rw [if_pos h]
        have := ih ys
        simp only [List.length_cons]
        omega
      · rw [if_neg h]; omega

theorem cpl_take : ∀ (a b : List Nat),
    a.take (commonPrefixLen a b) = b.take (commonPrefixLen a b) := by
  intro a
  induction a with
  | nil => intro b; cases b <;> simp [commonPrefixLen]
  | cons x xs ih =>
    intro b
    cases b with
    | nil => simp [commonPrefixLen]
    | cons y ys =>
      rw [commonPrefixLen]
      by_cases h : x = y
      · rw [if_pos h]
        simp only [List.take_succ_cons]
        rw [h, ih ys]
      · rw [if_neg h]; rfl

theorem cpl_drop_ne : ∀ (a b : List Nat) (x y : Nat) (as bs : List Nat),
    a.drop (commonPrefixLen a b) = x :: as →
    b.drop (commonPrefixLen a b) = y :: bs → x ≠ y := by
  intro a
  induction a with
  | nil =>
    intro b x y as bs ha
    cases b <;> simp [commonPrefixLen] at ha
  | cons x0 xs ih =>
    intro b x y as bs ha hb
    cases b with
    | nil => simp [commonPrefixLen] at hb
    | cons y0 ys =>
      rw [commonPrefixLen] at ha hb
      by_cases h : x0 = y0
      · rw [if_pos h] at ha hb
        simp only [List.drop_succ_cons] at ha hb
        exact ih ys x y as bs ha hb
      · rw [if_neg h] at ha hb
        simp only [List.drop_zero] at ha hb
        injection ha with ha1 _
        injection hb with hb1 _
        rw [← ha1, ← hb1]
        exact h

theorem cpl_prefix_of_eq_length (k p : List Nat)
    (h : commonPrefixLen k p = p.length) : k.take p.length = p := by
  have := cpl_take k p
  rw [h] at this
  rw [this, List.take_length]

theorem getD_set_self (cs : List (Option TNode)) (i : Nat) (x : Option TNode)
    (h : i < cs.length) : (cs.set i x).getD i none = x := by
  induction cs generalizing i with
  | nil => simp at h
  | cons oc rest ih =>
    cases i with
    | zero => rfl
    | succ j =>
      simp only [List.set_cons_succ, List.getD, List.getElem?_cons_succ]
      have : j < rest.length := by simpa using h
      have := ih j this
      simpa [List.getD] using this

theorem getD_set_other (cs : List (Option TNode)) (i j : Nat) (x : Option TNode)
    (h : j ≠ i) : (cs.set i x).getD j none = cs.getD j none := by
  induction cs generalizing i j with
  | nil => simp [List.getD]
  | cons oc rest ih =>
    cases i with
    | zero =>
      cases j with
      | zero => exact absurd rfl h
      | succ j' => rfl
    | succ i' =>
      cases j with
      | zero => rfl
      | succ j' =>
        simp only [List.set_cons_succ, List.getD, List.getElem?_cons_succ]
        have := ih i' j' (fun he => h (by rw [he]))
        simpa [List.getD] using this

theorem getD_replicate_none (n i : Nat) :
    (List.replicate n (none : Option TNode)).getD i none = none := by
  induction n generalizing i with
  | zero => simp [List.getD]
  | succ m ih =>
    cases i with
    | zero => rfl
    | succ j =>
      simp only [List.replicate_succ, List.getD, List.getElem?_cons_succ]
      simpa [List.getD] using ih j

theorem tgetChild_eq : ∀ (cs : List (Option TNode)) (i : Nat) (k : List Nat),
    tgetChild cs i k =
      match cs.getD i none with
      | none => none
      | some c => tget c k := by
  intro cs
  induction cs with
  | nil => intro i k; cases i <;> rfl
  | cons oc rest ih =>
    intro i k
    cases i with
    | zero => cases oc <;> rfl
    | succ j =>
      rw [tgetChild]
      rw [ih j k]
      rfl

theorem proveChild_eq : ∀ (cs : List (Option TNode)) (i : Nat) (k : List Nat),
    proveChild cs i k =
      match cs.getD i none with
      | none => []
      | some c => provePath c k := by
  intro cs
  induction cs with
  | nil => intro i k; cases i <;> rfl
  | cons oc rest ih =>
    intro i k
    cases i with
    | zero => cases oc <;> rfl
    | succ j =>
      rw [proveChild]
      rw [ih j k]
      rfl

theorem tinsertChild_length : ∀ (cs : List (Option TNode)) (i : Nat)
    (k : List Nat) (v : Bytes), (tinsertChild cs i k v).length = cs.length := by
  intro cs
  induction cs with
  | nil => intro i k v; cases i <;> rfl
  | cons oc rest ih =>
    intro i k v
    cases i with
    | zero => rfl
    | succ j =>
      rw [tinsertChild]
      simp only [List.length_cons]
      rw [ih j k v]

theorem tinsertChild_getD_self : ∀ (cs : List (Option TNode)) (i : Nat)
    (k : List Nat) (v : Bytes), i < cs.length →
    (tinsertChild cs i k v).getD i none =
      some (match cs.getD i none with
            | none => TNode.leaf k v
            | some c => tinsert c k v) := by
  intro cs
  induction cs with
  | nil => intro i k v h; simp at h
  | cons oc rest ih =>
    intro i k v h
    cases i with
    | zero => cases oc <;> rfl
    | succ j =>
      rw [tinsertChild]
      have hj : j < rest.length := by simpa using h
      have := ih j k v hj
      simp only [List.getD, List.getElem?_cons_succ]
      simpa [List.getD] using this

theorem tinsertChild_getD_other : ∀ (cs : List (Option TNode)) (i j : Nat)
    (k : List Nat) (v : Bytes), j ≠ i →
    (tinsertChild cs i k v).getD j none = cs.getD j none := by
  intro cs
  induction cs with
  | nil => intro i j k v h; cases i <;> rfl
  | cons oc rest ih =>
    intro i j k v h
    cases i with
    | zero =>
      cases j with
      | zero => exact absurd rfl h
      | succ j' => rfl
    | succ i' =>
      cases j with
      | zero => rfl
      | succ j' =>
        rw [tinsertChild]
        simp only [List.getD, List.getElem?_cons_succ]
        have := ih i' j' k v (fun he => h (by rw [he]))
        simpa [List.getD] using this

theorem storeLookup_insert_self (st : List (Bytes × Bytes)) (k v : Bytes) :
    storeLookup (storeInsert st k v) k = some v := by
  induction st with
  | nil => simp [storeInsert, storeLookup]
  | cons p rest ih =>
    obtain ⟨k', v'⟩ := p
    rw [storeInsert]
    by_cases h : k' = k
    · rw [if_pos h]
      simp [storeLookup]
    · rw [if_neg h]
      rw [storeLookup, if_neg h]
      exact ih

theorem storeLookup_insert_other (st : List (Bytes × Bytes)) (k v k' : Bytes)
    (h : k' ≠ k) : storeLookup (storeInsert st k v) k' = storeLookup st k' := by
  induction st with
  | nil =>
    rw [storeInsert]
    rw [show storeLookup [(k, v)] k'
        = if k = k' then some v else storeLookup [] k' from rfl]
    rw [if_neg (fun he => h he.symm)]
  | cons p rest ih =>
    obtain ⟨k0, v0⟩ := p
    rw [storeInsert]
    by_cases h0 : k0 = k
    · rw [if_pos h0]
      rw [storeLookup, storeLookup]
      have hk : ¬ (k = k') := fun he => h he.symm
      have hk0 : ¬ (k0 = k') := fun he => h (h0.symm.trans he).symm
      rw [if_neg hk, if_neg hk0]
    · rw [if_neg h0]
      rw [storeLookup, storeLookup]
      by_cases h1 : k0 = k'
      · rw [if_pos h1, if_pos h1]
      · rw [if_neg h1, if_neg h1]
        exact ih

theorem mem_storeInsert (st : List (Bytes × Bytes)) (k v : Bytes)
    (q : Bytes × Bytes) (h : q ∈ storeInsert st k v) : q ∈ st ∨ q = (k, v) := by
  induction st with
  | nil =>
    rw [storeInsert] at h
    simp at h
    right
    exact h
  | cons p rest ih =>
    obtain ⟨k0, v0⟩ := p
    rw [storeInsert] at h
    by_cases h0 : k0 = k
    · rw [if_pos h0] at h
      rcases List.mem_cons.mp h with he | hmem
      · right; exact he
      · left; exact List.mem_cons_of_mem _ hmem
    · rw [if_neg h0] at h
      rcases List.mem_cons.mp h with he | hmem
      · left; rw [he]; exact List.mem_cons_self _ _
      · rcases ih hmem with hl | hr
        · left; exact List.mem_cons_of_mem _ hl
        · right; exact hr

theorem storeInsert_keys_nodup (st : List (Bytes × Bytes)) (k v : Bytes)
    (h : (st.map Prod.fst).Nodup) :
    ((storeInsert st k v).map Prod.fst).Nodup := by
  induction st with
  | nil => simp [storeInsert]
  | cons p rest ih =>
    obtain ⟨k0, v0⟩ := p
    rw [storeInsert]
    simp only [List.map_cons, List.nodup_cons] at h
    by_cases h0 : k0 = k
    · rw [if_pos h0]
      simp only [List.map_cons, List.nodup_cons]
      exact ⟨h0 ▸ h.1, h.2⟩
    · rw [if_neg h0]
      simp only [List.map_cons, List.nodup_cons]
      refine ⟨?_, ih h.2⟩
      intro hmem
      rcases List.mem_map.mp hmem with ⟨q, hq, hfst⟩
      rcases mem_storeInsert rest k v q hq with hl | hr
      · exact h.1 (hfst ▸ List.mem_map_of_mem _ hl)
      · apply h0
        rw [← hfst, hr]

theorem storeLookup_of_mem (st : List (Bytes × Bytes)) (k v : Bytes)
    (h : (k, v) ∈ st) (hn : (st.map Prod.fst).Nodup) :
    storeLookup st k = some v := by
  induction st with
  | nil => simp at h
  | cons p rest ih =>
    obtain ⟨k0, v0⟩ := p
    simp only [List.map_cons, List.nodup_cons] at hn
    rcases List.mem_cons.mp h with he | hmem
    · injection he with h1 h2
      rw [storeLookup, if_pos h1.symm, h2]
    · rw [storeLookup]
      by_cases h0 : k0 = k
      · exfalso
        apply hn.1
        rw [h0]
        exact List.mem_map_of_mem _ hmem
      · rw [if_neg h0]
        exact ih hmem hn.2

mutual

/-- All path fragments hold nibbles (< 16), as produced by
`keyNibbles`. -/
def bndNode : TNode → Prop
  | .leaf p _ => ∀ i ∈ p, i < 16
  | .ext p c => (∀ i ∈ p, i < 16) ∧ bndNode c
  | .branch cs _ => bndChildren cs

/-- Nibble-boundedness of a child-slot list. -/
def bndChildren : List (Option TNode) → Prop
  | [] => True
  | none :: rest => bndChildren rest
  | some c :: rest => bndNode c ∧ bndChildren rest

end

theorem bndChildren_getD (cs : List (Option TNode)) (h : bndChildren cs)
    (i : Nat) (c : TNode) (hc : cs.getD i none = some c) : bndNode c := by
  induction cs generalizing i with
  | nil => simp [List.getD] at hc
  | cons oc rest ih =>
    cases i with
    | zero =>
      cases oc with
      | none => simp [List.getD] at hc
      | some c' =>
        have : c' = c := by simpa [List.getD] using hc
        subst this
        rw [bndChildren] at h
        exact h.1
    | succ j =>
      have hc' : rest.getD j none = some c := by simpa [List.getD] using hc
      cases oc with
      | none => exact ih (by rwa [bndChildren] at h) j hc'
      | some c' => exact ih ((bndChildren.eq_3 _ _ ▸ h).2) j hc'

theorem wfChildren_set (cs : List (Option TNode)) (i : Nat) (c : TNode)
    (hwf : wfChildren cs) (hc : wfNode c) : wfChildren (cs.set i (some c)) := by
  induction cs generalizing i with
  | nil => simpa using hwf
  | cons oc rest ih =>
    cases i with
    | zero =>
      rw [List.set_cons_zero]
      rw [wfChildren]
      cases oc with
      | none => exact ⟨hc, by rwa [wfChildren] at hwf⟩
      | some c' => exact ⟨hc, (wfChildren.eq_3 _ _ ▸ hwf).2⟩
    | succ j =>
      rw [List.set_cons_succ]
      cases oc with
      | none =>
        rw [wfChildren]
        exact ih j (by rwa [wfChildren] at hwf)
      | some c' =>
        rw [wfChildren.eq_3]
        exact ⟨(wfChildren.eq_3 _ _ ▸ hwf).1, ih j ((wfChildren.eq_3 _ _ ▸ hwf).2)⟩

theorem bndChildren_set (cs : List (Option TNode)) (i : Nat) (c : TNode)
    (hb : bndChildren cs) (hc : bndNode c) : bndChildren (cs.set i (some c)) := by
  induction cs generalizing i with
  | nil => simpa using hb
  | cons oc rest ih =>
    cases i with
    | zero =>
      rw [List.set_cons_zero]
      rw [bndChildren]
      cases oc with
      | none => exact ⟨hc, by rwa [bndChildren] at hb⟩
      | some c' => exact ⟨hc, (bndChildren.eq_3 _ _ ▸ hb).2⟩
    | succ j =>
      rw [List.set_cons_succ]
      cases oc with
      | none =>
        rw [bndChildren]
        exact ih j (by rwa [bndChildren] at hb)
      | some c' =>
        rw [bndChildren.eq_3]
        exact ⟨(bndChildren.eq_3 _ _ ▸ hb).1, ih j ((bndChildren.eq_3 _ _ ▸ hb).2)⟩

theorem wfChildren_replicate (n : Nat) :
    wfChildren (List.replicate n (none : Option TNode)) := by
  induction n with
  | zero => rw [List.replicate_zero]; trivial
  | succ m ih =>
    rw [List.replicate_succ]
    rw [wfChildren]
    exact ih

theorem bndChildren_replicate (n : Nat) :
    bndChildren (List.replicate n (none : Option TNode)) := by
  induction n with
  | zero => rw [List.replicate_zero]; trivial
  | succ m ih =>
    rw [List.replicate_succ]
    rw [bndChildren]
    exact ih

theorem wf_mkShort (p : List Nat) (c : TNode) (hc : wfNode c) :
    wfNode (mkShort p c) := by
  rw [mkShort]
  by_cases h : p = []
  · rw [if_pos h]; exact hc
  · rw [if_neg h]
    rw [wfNode]
    exact ⟨h, hc⟩

theorem bnd_mkShort (p : List Nat) (c : TNode) (hp : ∀ i ∈ p, i < 16)
    (hc : bndNode c) : bndNode (mkShort p c) := by
  rw [mkShort]
  by_cases h : p = []
  · rw [if_pos h]; exact hc
  · rw [if_neg h]
    rw [bndNode]
    exact ⟨hp, hc⟩

theorem wfChildren_tinsertChild (cs : List (Option TNode)) (i : Nat)
    (k : List Nat) (v : Bytes)
    (hrec : ∀ c, some c ∈ cs → ∀ (k' : List Nat) (v' : Bytes),
      wfNode c → wfNode (tinsert c k' v'))
    (h : wfChildren cs) : wfChildren (tinsertChild cs i k v) := by
  induction cs generalizing i with
  | nil => rw [tinsertChild]; trivial
  | cons oc rest ih =>
    cases i with
    | zero =>
      cases oc with
      | none =>
        rw [tinsertChild]
        rw [wfChildren.eq_3]
        exact ⟨trivial, by rwa [wfChildren] at h⟩
      | some c =>
        rw [tinsertChild]
        rw [wfChildren.eq_3]
        refine ⟨?_, (wfChildren.eq_3 _ _ ▸ h).2⟩
        exact hrec c (List.mem_cons_self _ _) k v (wfChildren.eq_3 _ _ ▸ h).1
    | succ j =>
      rw [tinsertChild]
      have hrec' : ∀ c, some c ∈ rest → ∀ (k' : List Nat) (v' : Bytes),
          wfNode c → wfNode (tinsert c k' v') :=
        fun c hm => hrec c (List.mem_cons_of_mem _ hm)
      cases oc with
      | none =>
        rw [wfChildren]
        exact ih j hrec' (by rwa [wfChildren] at h)
      | some c' =>
        rw [wfChildren.eq_3]
        exact ⟨(wfChildren.eq_3 _ _ ▸ h).1, ih j hrec' (wfChildren.eq_3 _ _ ▸ h).2⟩

theorem bndChildren_tinsertChild (cs : List (Option TNode)) (i : Nat)
    (k : List Nat) (v : Bytes) (hk : ∀ x ∈ k, x < 16)
    (hrec : ∀ c, some c ∈ cs → ∀ (k' : List Nat) (v' : Bytes),
      (∀ x ∈ k', x < 16) → bndNode c → bndNode (tinsert c k' v'))
    (h : bndChildren cs) : bndChildren (tinsertChild cs i k v) := by
  induction cs generalizing i with
  | nil => rw [tinsertChild]; trivial
  | cons oc rest ih =>
    cases i with
    | zero =>
      cases oc with
      | none =>
        rw [tinsertChild]
        rw [bndChildren.eq_3]
        refine ⟨?_, by rwa [bndChildren] at h⟩
        rw [bndNode]
        exact hk
      | some c =>
        rw [tinsertChild]
        rw [bndChildren.eq_3]
        refine ⟨?_, (bndChildren.eq_3 _ _ ▸ h).2⟩
        exact hrec c (List.mem_cons_self _ _) k v hk (bndChildren.eq_3 _ _ ▸ h).1
    | succ j =>
      rw [tinsertChild]
      have hrec' : ∀ c, some c ∈ rest → ∀ (k' : List Nat) (v' : Bytes),
          (∀ x ∈ k', x < 16) → bndNode c → bndNode (tinsert c k' v') :=
        fun c hm => hrec c (List.mem_cons_of_mem _ hm)
      cases oc with
      | none =>
        rw [bndChildren]
        exact ih j hrec' (by rwa [bndChildren] at h)
      | some c' =>
        rw [bndChildren.eq_3]
        exact ⟨(bndChildren.eq_3 _ _ ▸ h).1, ih j hrec' (bndChildren.eq_3 _ _ ▸ h).2⟩

theorem one_le_sizeOf_TNode (t : TNode) : 1 ≤ sizeOf t := by
  cases t <;> simp_arith

theorem sizeOf_ext_child (p : List Nat) (c : TNode) :
    sizeOf c < sizeOf (TNode.ext p c) := by
  simp [TNode.ext.sizeOf_spec]

theorem sizeOf_branch_mem (cs : List (Option TNode)) (v : Option Bytes)
    (c : TNode) (h : some c ∈ cs) : sizeOf c < sizeOf (TNode.branch cs v) := by
  have h1 : sizeOf (some c) < sizeOf cs := List.sizeOf_lt_of_mem h
  have h2 : sizeOf (some c) = 1 + sizeOf c := Option.some.sizeOf_spec c
  have h3 : sizeOf (TNode.branch cs v) = 1 + sizeOf cs + sizeOf v := by
    simp [TNode.branch.sizeOf_spec]
  omega

theorem placeRest_fst_length (cs : List (Option TNode)) (bv : Option Bytes)
    (rest : List Nat) (n : TNode) (rv : Bytes) :
    (placeRest cs bv rest n rv).1.length = cs.length := by
  cases rest with
  | nil => rfl
  | cons i r => simp [placeRest]

theorem wfChildren_placeRest (cs : List (Option TNode)) (bv : Option Bytes)
    (rest : List Nat) (n : TNode) (rv : Bytes)
    (h : wfChildren cs) (hn : wfNode n) :
    wfChildren (placeRest cs bv rest n rv).1 := by
  cases rest with
  | nil => exact h
  | cons i r => exact wfChildren_set cs i n h hn

theorem bndChildren_placeRest (cs : List (Option TNode)) (bv : Option Bytes)
    (rest : List Nat) (n : TNode) (rv : Bytes)
    (h : bndChildren cs) (hn : bndNode n) :
    bndChildren (placeRest cs bv rest n rv).1 := by
  cases rest with
  | nil => exact h
  | cons i r => exact bndChildren_set cs i n h hn

theorem wf_tinsert_size : ∀ (n : Nat) (t : TNode), sizeOf t ≤ n →
    ∀ (k : List Nat) (v : Bytes), wfNode t → wfNode (tinsert t k v) := by
  intro n
  induction n with
  | zero =>
    intro t hsz
    have := one_le_sizeOf_TNode t
    omega
  | succ n ih =>
    intro t hsz k v hwf
    cases t with
    | leaf p w =>
      simp only [tinsert]
      by_cases hkp : k = p
      · rw [if_pos hkp]
        rw [wfNode]
        trivial
      · rw [if_neg hkp]
        apply wf_mkShort
        rw [wfNode]
        constructor
        · rw [placeRest_fst_length, placeRest_fst_length]
          rfl
        · apply wfChildren_placeRest
          · apply wfChildren_placeRest
            · exact wfChildren_replicate 16
            · rw [wfNode]; trivial
          · rw [wfNode]; trivial
    | ext p c =>
      have hwfc : wfNode c := (wfNode.eq_2 _ _ ▸ hwf).2
      have hp : p ≠ [] := (wfNode.eq_2 _ _ ▸ hwf).1
      have hszc : sizeOf c ≤ n := by
        have := sizeOf_ext_child p c
        omega
      simp only [tinsert]
      by_cases hm : commonPrefixLen k p = p.length
      · rw [if_pos hm]
        rw [wfNode]
        exact ⟨hp, ih c hszc _ v hwfc⟩
      · rw [if_neg hm]
        apply wf_mkShort
        rw [wfNode]
        constructor
        · rw [placeRest_fst_length, placeRest_fst_length]
          rfl
        · apply wfChildren_placeRest
          · apply wfChildren_placeRest
            · exact wfChildren_replicate 16
            · exact wf_mkShort _ _ hwfc
          · rw [wfNode]; trivial
    | branch cs bv =>
      cases k with
      | nil =>
        rw [tinsert]
        rw [wfNode]
        exact ⟨(wfNode.eq_3 _ _ ▸ hwf).1, (wfNode.eq_3 _ _ ▸ hwf).2⟩
      | cons i k' =>
        rw [tinsert]
        rw [wfNode]
        constructor
        · rw [tinsertChild_length]
          exact (wfNode.eq_3 _ _ ▸ hwf).1
        · apply wfChildren_tinsertChild
          · intro c hm k2 v2 hwfc
            have hszc : sizeOf c ≤ n := by
              have := sizeOf_branch_mem cs bv c hm
              omega
            exact ih c hszc k2 v2 hwfc
          · exact (wfNode.eq_3 _ _ ▸ hwf).2

theorem wf_tinsert (t : TNode) (k : List Nat) (v : Bytes) (hwf : wfNode t) :
    wfNode (tinsert t k v) :=
  wf_tinsert_size (sizeOf t) t (Nat.le_refl _) k v hwf

theorem bnd_tinsert_size : ∀ (n : Nat) (t : TNode), sizeOf t ≤ n →
    ∀ (k : List Nat) (v : Bytes), (∀ x ∈ k, x < 16) →
    bndNode t → bndNode (tinsert t k v) := by
  intro n
  induction n with
  | zero =>
    intro t hsz
    have := one_le_sizeOf_TNode t
    omega
  | succ n ih =>
    intro t hsz k v hk hb
    cases t with
    | leaf p w =>
      have hp : ∀ x ∈ p, x < 16 := by rwa [bndNode] at hb
      simp only [tinsert]
      by_cases hkp : k = p
      · rw [if_pos hkp]
        rw [bndNode]
        exact hp
      · rw [if_neg hkp]
        apply bnd_mkShort
        · exact fun x hx => hk x (List.take_subset _ _ hx)
        · rw [bndNode]
          apply bndChildren_placeRest
          · apply bndChildren_placeRest
            · exact bndChildren_replicate 16
            · rw [bndNode]
              exact fun x hx => hp x (List.drop_subset _ _ (List.tail_subset _ hx))
          · rw [bndNode]
            exact fun x hx => hk x (List.drop_subset _ _ (List.tail_subset _ hx))
    | ext p c =>
      have hp : ∀ x ∈ p, x < 16 := (bndNode.eq_2 _ _ ▸ hb).1
      have hbc : bndNode c := (bndNode.eq_2 _ _ ▸ hb).2
      have hszc : sizeOf c ≤ n := by
        have := sizeOf_ext_child p c
        omega
      simp only [tinsert]
      by_cases hm : commonPrefixLen k p = p.length
      · rw [if_pos hm]
        rw [bndNode]
        refine ⟨hp, ?_⟩
        exact ih c hszc _ v (fun x hx => hk x (List.drop_subset _ _ hx)) hbc
      · rw [if_neg hm]
        apply bnd_mkShort
        · exact fun x hx => hk x (List.take_subset _ _ hx)
        · rw [bndNode]
          apply bndChildren_placeRest
          · apply bndChildren_placeRest
            · exact bndChildren_replicate 16
            · apply bnd_mkShort
              · exact fun x hx => hp x (List.drop_subset _ _ (List.tail_subset _ hx))
              · exact hbc
          · rw [bndNode]
            exact fun x hx => hk x (List.drop_subset _ _ (List.tail_subset _ hx))
    | branch cs bv =>
      cases k with
      | nil =>
        rw [tinsert]
        rw [bndNode]
        rwa [bndNode] at hb
      | cons i k' =>
        rw [tinsert]
        rw [bndNode]
        apply bndChildren_tinsertChild
        · exact fun x hx => hk x (List.mem_cons_of_mem _ hx)
        · intro c hm k2 v2 hk2 hbc
          have hszc : sizeOf c ≤ n := by
            have := sizeOf_branch_mem cs bv c hm
            omega
          exact ih c hszc k2 v2 hk2 hbc
        · rwa [bndNode] at hb

theorem bnd_tinsert (t : TNode) (k : List Nat) (v : Bytes)
    (hk : ∀ x ∈ k, x < 16) (hb : bndNode t) : bndNode (tinsert t k v) :=
  bnd_tinsert_size (sizeOf t) t (Nat.le_refl _) k v hk hb

theorem tget_mkShort_gen (q : List Nat) (c : TNode) (k : List Nat) :
    tget (mkShort q c) k =
      if k.take q.length = q then tget c (k.drop q.length) else none := by
  rw [mkShort]
  by_cases h : q = []
  · rw [if_pos h]
    subst h
    simp
  · rw [if_neg h]
    rfl

theorem take_append_cons (pre : List Nat) (j : Nat) (a b : List Nat) :
    (pre ++ j :: a).take (pre ++ j :: b).length = pre ++ j :: a.take b.length := by
  rw [List.length_append, List.length_cons, List.take_append,
    List.take_succ_cons]

theorem drop_append_cons (pre : List Nat) (j : Nat) (a b : List Nat) :
    (pre ++ j :: a).drop (pre ++ j :: b).length = a.drop b.length := by
  rw [List.length_append, List.length_cons, List.drop_append,
    List.drop_succ_cons]

theorem take_append_cons_eq_iff (pre : List Nat) (j j' : Nat) (a b : List Nat) :
    ((pre ++ j :: a).take (pre ++ j' :: b).length = pre ++ j' :: b)
      ↔ (j = j' ∧ a.take b.length = b) := by
  rw [List.length_append, List.length_cons, List.take_append,
    List.take_succ_cons]
  constructor
  · intro h
    have h2 := List.append_cancel_left h
    injection h2 with h3 h4
    exact ⟨h3, h4⟩
  · rintro ⟨h1, h2⟩
    rw [h1, h2]

theorem append_cons_eq_iff (pre : List Nat) (j j' : Nat) (a b : List Nat) :
    (pre ++ j :: a = pre ++ j' :: b) ↔ (j = j' ∧ a = b) := by
  constructor
  · intro h
    have h2 := List.append_cancel_left h
    injection h2 with h3 h4
    exact ⟨h3, h4⟩
  · rintro ⟨h1, h2⟩
    rw [h1, h2]

theorem tget_tinsert_self_size : ∀ (n : Nat) (t : TNode), sizeOf t ≤ n →
    ∀ (k : List Nat) (v : Bytes), (∀ x ∈ k, x < 16) → wfNode t →
    tget (tinsert t k v) k = some v := by
  intro n
  induction n with
  | zero =>
    intro t hsz
    have := one_le_sizeOf_TNode t
    omega
  | succ n ih =>
    intro t hsz k v hk hwf
    cases t with
    | leaf p w =>
      simp only [tinsert]
      by_cases hkp : k = p
      · rw [if_pos hkp]
        simp only [tget]
        rw [if_pos hkp]
      · rw [if_neg hkp]
        have hmk := cpl_le_left k p
        have hprelen : (k.take (commonPrefixLen k p)).length
            = commonPrefixLen k p := by
          rw [List.length_take]
          omega
        rw [tget_mkShort_gen, hprelen, if_pos rfl]
        cases hkd : k.drop (commonPrefixLen k p) with
        | nil =>
          simp only [placeRest, tget]
        | cons jk restk =>
          simp only [placeRest, List.tail_cons, tget]
          rw [tgetChild_eq]
          have hjk : jk < 16 := by
            apply hk
            apply List.drop_subset _ k
            rw [hkd]
            exact List.mem_cons_self _ _
          rw [getD_set_self]
          · simp [tget]
          · cases hpd : List.drop (commonPrefixLen k p) p with
            | nil => simpa [hpd, emptyChildren] using hjk
            | cons jp restp => simpa [hpd, emptyChildren] using hjk
    | ext p c =>
      have hwfc : wfNode c := (wfNode.eq_2 _ _ ▸ hwf).2
      have hszc : sizeOf c ≤ n := by
        have := sizeOf_ext_child p c
        omega
      simp only [tinsert]
      by_cases hm : commonPrefixLen k p = p.length
      · rw [if_pos hm]
        simp only [tget]
        rw [if_pos (cpl_prefix_of_eq_length k p hm)]
        rw [← hm]
        exact ih c hszc _ v (fun x hx => hk x (List.drop_subset _ _ hx)) hwfc
      · rw [if_neg hm]
        have hmk := cpl_le_left k p
        have hprelen : (k.take (commonPrefixLen k p)).length
            = commonPrefixLen k p := by
          rw [List.length_take]
          omega
        rw [tget_mkShort_gen, hprelen, if_pos rfl]
        cases hkd : k.drop (commonPrefixLen k p) with
        | nil =>
          simp only [placeRest, tget]
        | cons jk restk =>
          simp only [placeRest, List.tail_cons, tget]
          rw [tgetChild_eq]
          have hjk : jk < 16 := by
            apply hk
            apply List.drop_subset _ k
            rw [hkd]
            exact List.mem_cons_self _ _
          rw [getD_set_self]
          · simp [tget]
          · cases hpd : List.drop (commonPrefixLen k p) p with
            | nil => simpa [hpd, emptyChildren] using hjk
            | cons jp restp => simpa [hpd, emptyChildren] using hjk
    | branch cs bv =>
      have h16 : cs.length = 16 := (wfNode.eq_3 _ _ ▸ hwf).1
      cases k with
      | nil =>
        rw [tinsert]
        simp only [tget]
      | cons i k' =>
        rw [tinsert]
        have hlen : i < cs.length := by
          rw [h16]
          exact hk i (List.mem_cons_self _ _)
        simp only [tget]
        rw [tgetChild_eq]
        rw [tinsertChild_getD_self cs i k' v hlen]
        cases hgd : cs.getD i none with
        | none =>
          simp only [hgd]
          simp [tget]
        | some c =>
          simp only [hgd]
          have hszc : sizeOf c ≤ n := by
            have := sizeOf_child_lt cs bv c i hgd
            omega
          have hwfc : wfNode c := wfChildren_getD cs (wfNode.eq_3 _ _ ▸ hwf).2 i c hgd
          exact ih c hszc k' v (fun x hx => hk x (List.mem_cons_of_mem _ hx)) hwfc

theorem tget_tinsert_self (t : TNode) (k : List Nat) (v : Bytes)
    (hk : ∀ x ∈ k, x < 16) (hwf : wfNode t) :
    tget (tinsert t k v) k = some v :=
  tget_tinsert_self_size (sizeOf t) t (Nat.le_refl _) k v hk hwf

theorem tgetChild_eq_some (cs : List (Option TNode)) (i : Nat) (k : List Nat)
    (c : TNode) (h : cs.getD i none = some c) : tgetChild cs i k = tget c k := by
  rw [tgetChild_eq, h]

theorem tgetChild_eq_none (cs : List (Option TNode)) (i : Nat) (k : List Nat)
    (h : cs.getD i none = none) : tgetChild cs i k = none := by
  rw [tgetChild_eq, h]

theorem tget_tinsert_other_size : ∀ (n : Nat) (t : TNode), sizeOf t ≤ n →
    ∀ (k k' : List Nat) (v : Bytes), k' ≠ k → (∀ x ∈ k, x < 16) →
    wfNode t → bndNode t →
    tget (tinsert t k v) k' = tget t k' := by
  intro n
  induction n with
  | zero =>
    intro t hsz
    have := one_le_sizeOf_TNode t
    omega
  | succ n ih =>
    intro t hsz k k' v hne hk hwf hb
    cases t with
    | leaf p w =>
      have hbp : ∀ x ∈ p, x < 16 := by rwa [bndNode] at hb
      conv_rhs => rw [tget]
      simp only [tinsert]
      by_cases hkp : k = p
      · rw [if_pos hkp]
        conv_lhs => rw [tget]
        by_cases hk'p : k' = p
        · exact absurd (hk'p.trans hkp.symm) hne
        · rw [if_neg hk'p, if_neg hk'p]
      · rw [if_neg hkp]
        have hmk := cpl_le_left k p
        have hmp := cpl_le_right k p
        have htake := cpl_take k p
        rw [tget_mkShort_gen]
        generalize hM : commonPrefixLen k p = m at hmk hmp htake ⊢
        have hprelen : (k.take m).length = m := by
          rw [List.length_take]
          omega
        rw [hprelen]
        have hkdec : k.take m ++ k.drop m = k := List.take_append_drop _ k
        have hpdec : k.take m ++ p.drop m = p := by
          rw [htake]
          exact List.take_append_drop _ p
        generalize hPRE : k.take m = pre at htake hkdec hpdec hprelen ⊢
        by_cases hq : k'.take m = pre
        · rw [if_pos hq]
          have hqdec : pre ++ k'.drop m = k' := by
            conv_rhs => rw [← List.take_append_drop m k']
            rw [hq]
          cases hkd : k.drop m with
          | nil =>
            rw [hkd, List.append_nil] at hkdec
            cases hpd : p.drop m with
            | nil =>
              rw [hpd, List.append_nil] at hpdec
              exact absurd (hkdec.symm.trans hpdec) hkp
            | cons jp restp =>
              rw [hpd] at hpdec
              simp only [placeRest, List.tail_cons]
              have hjp16 : jp < 16 := by
                apply hbp
                rw [← hpdec]
                exact List.mem_append_right _ (List.mem_cons_self _ _)
              cases hqd : k'.drop m with
              | nil =>
                rw [hqd, List.append_nil] at hqdec
                exact absurd (hqdec.symm.trans hkdec) hne
              | cons jq restq =>
                rw [hqd] at hqdec
                conv_lhs => rw [tget]
                by_cases hjq : jq = jp
                · have hgd : (emptyChildren.set jp
                      (some (TNode.leaf restp w))).getD jq none
                      = some (TNode.leaf restp w) := by
                    rw [hjq]
                    apply getD_set_self
                    simpa [emptyChildren] using hjp16
                  rw [tgetChild_eq_some _ _ _ _ hgd]
                  conv_lhs => rw [tget]
                  by_cases hr : restq = restp
                  · have hk'p : k' = p := by
                      rw [← hqdec, ← hpdec, hjq, hr]
                    rw [if_pos hr, if_pos hk'p]
                  · have hk'p : ¬ (k' = p) := by
                      intro he
                      rw [← hqdec, ← hpdec] at he
                      exact hr ((append_cons_eq_iff _ _ _ _ _).mp he).2
                    rw [if_neg hr, if_neg hk'p]
                · have hgd : (emptyChildren.set jp
                      (some (TNode.leaf restp w))).getD jq none = none := by
                    rw [getD_set_other _ _ _ _ hjq]
                    exact getD_replicate_none 16 jq
                  rw [tgetChild_eq_none _ _ _ hgd]
                  have hk'p : ¬ (k' = p) := by
                    intro he
                    rw [← hqdec, ← hpdec] at he
                    exact hjq ((append_cons_eq_iff _ _ _ _ _).mp he).1
                  rw [if_neg hk'p]
          | cons jk restk =>
            rw [hkd] at hkdec
            have hjk16 : jk < 16 := by
              apply hk
              rw [← hkdec]
              exact List.mem_append_right _ (List.mem_cons_self _ _)
            cases hpd : p.drop m with
            | nil =>
              rw [hpd, List.append_nil] at hpdec
              simp only [placeRest, List.tail_cons]
              cases hqd : k'.drop m with
              | nil =>
                rw [hqd, List.append_nil] at hqdec
                conv_lhs => rw [tget]
                rw [if_pos (hqdec.symm.trans hpdec)]
              | cons jq restq =>
                rw [hqd] at hqdec
                have hk'p : ¬ (k' = p) := by
                  intro he
                  rw [← hqdec, ← hpdec] at he
                  have hlen2 := congrArg List.length he
                  rw [List.length_append, List.length_cons] at hlen2
                  omega
                conv_lhs => rw [tget]
                by_cases hjq : jq = jk
                · have hgd : (emptyChildren.set jk
                      (some (TNode.leaf restk v))).getD jq none
                      = some (TNode.leaf restk v) := by
                    rw [hjq]
                    apply getD_set_self
                    simpa [emptyChildren] using hjk16
                  rw [tgetChild_eq_some _ _ _ _ hgd]
                  conv_lhs => rw [tget]
                  have hr : ¬ (restq = restk) := by
                    intro he
                    apply hne
                    rw [← hqdec, ← hkdec, hjq, he]
                  rw [if_neg hr, if_neg hk'p]
                · have hgd : (emptyChildren.set jk
                      (some (TNode.leaf restk v))).getD jq none = none := by
                    rw [getD_set_other _ _ _ _ hjq]
                    exact getD_replicate_none 16 jq
                  rw [tgetChild_eq_none _ _ _ hgd]
                  rw [if_neg hk'p]
            | cons jp restp =>
              rw [hpd] at hpdec
              have hjpjk : jk ≠ jp := by
                apply cpl_drop_ne k p jk jp restk restp
                · rw [hM]
                  exact hkd
                · rw [hM]
                  exact hpd
              have hjp16 : jp < 16 := by
                apply hbp
                rw [← hpdec]
                exact List.mem_append_right _ (List.mem_cons_self _ _)
              simp only [placeRest, List.tail_cons]
              cases hqd : k'.drop m with
              | nil =>
                rw [hqd, List.append_nil] at hqdec
                have hk'p : ¬ (k' = p) := by
                  intro he
                  rw [← hqdec, ← hpdec] at he
                  have hlen2 := congrArg List.length he
                  rw [List.length_append, List.length_cons] at hlen2
                  omega
                conv_lhs => rw [tget]
                rw [if_neg hk'p]
              | cons jq restq =>
                rw [hqd] at hqdec
                conv_lhs => rw [tget]
                by_cases hjq : jq = jk
                · have hgd : ((emptyChildren.set jp
                      (some (TNode.leaf restp w))).set jk
                      (some (TNode.leaf restk v))).getD jq none
                      = some (TNode.leaf restk v) := by
                    rw [hjq]
                    apply getD_set_self
                    rw [List.length_set]
                    simpa [emptyChildren] using hjk16
                  rw [tgetChild_eq_some _ _ _ _ hgd]
                  conv_lhs => rw [tget]
                  have hr : ¬ (restq = restk) := by
                    intro he
                    apply hne
                    rw [← hqdec, ← hkdec, hjq, he]
                  have hk'p : ¬ (k' = p) := by
                    intro he
                    rw [← hqdec, ← hpdec] at he
                    exact hjpjk (hjq ▸ ((append_cons_eq_iff _ _ _ _ _).mp he).1)
                  rw [if_neg hr, if_neg hk'p]
                · by_cases hjq2 : jq = jp
                  · have hgd : ((emptyChildren.set jp
                        (some (TNode.leaf restp w))).set jk
                        (some (TNode.leaf restk v))).getD jq none
                        = some (TNode.leaf restp w) := by
                      rw [getD_set_other _ _ _ _ hjq, hjq2]
                      apply getD_set_self
                      simpa [emptyChildren] using hjp16
                    rw [tgetChild_eq_some _ _ _ _ hgd]
                    conv_lhs => rw [tget]
                    by_cases hr : restq = restp
                    · have hk'p : k' = p := by
                        rw [← hqdec, ← hpdec, hjq2, hr]
                      rw [if_pos hr, if_pos hk'p]
                    · have hk'p : ¬ (k' = p) := by
                        intro he
                        rw [← hqdec, ← hpdec] at he
                        exact hr ((append_cons_eq_iff _ _ _ _ _).mp he).2
                      rw [if_neg hr, if_neg hk'p]
                  · have hgd : ((emptyChildren.set jp
                        (some (TNode.leaf restp w))).set jk
                        (some (TNode.leaf restk v))).getD jq none = none := by
                      rw [getD_set_other _ _ _ _ hjq,
                        getD_set_other _ _ _ _ hjq2]
                      exact getD_replicate_none 16 jq
                    rw [tgetChild_eq_none _ _ _ hgd]
                    have hk'p : ¬ (k' = p) := by
                      intro he
                      rw [← hqdec, ← hpdec] at he
                      exact hjq2 ((append_cons_eq_iff _ _ _ _ _).mp he).1
                    rw [if_neg hk'p]
        · rw [if_neg hq]
          have hk'p : ¬ (k' = p) := by
            intro he
            apply hq
            rw [he, htake]
          rw [if_neg hk'p]
    | branch cs bv =>
      have h16 : cs.length = 16 := (wfNode.eq_3 _ _ ▸ hwf).1
      cases k with
      | nil =>
        rw [tinsert]
        cases k' with
        | nil => exact absurd rfl hne
        | cons i' rest' =>
          conv_lhs => rw [tget]
          conv_rhs => rw [tget]
      | cons i k2 =>
        rw [tinsert]
        cases k' with
        | nil =>
          conv_lhs => rw [tget]
          conv_rhs => rw [tget]
        | cons i' rest' =>
          conv_lhs => rw [tget]
          conv_rhs => rw [tget]
          by_cases hii : i' = i
          · subst hii
            have hlen : i' < cs.length := by
              rw [h16]
              exact hk i' (List.mem_cons_self _ _)
            cases hgd : cs.getD i' none with
            | none =>
              have hgdI : (tinsertChild cs i' k2 v).getD i' none
                  = some (TNode.leaf k2 v) := by
                rw [tinsertChild_getD_self cs i' k2 v hlen, hgd]
              rw [tgetChild_eq_some _ _ _ _ hgdI, tgetChild_eq_none _ _ _ hgd]
              conv_lhs => rw [tget]
              have hr : ¬ (rest' = k2) := by
                intro he
                apply hne
                rw [he]
              rw [if_neg hr]
            | some c =>
              have hgdI : (tinsertChild cs i' k2 v).getD i' none
                  = some (tinsert c k2 v) := by
                rw [tinsertChild_getD_self cs i' k2 v hlen, hgd]
              rw [tgetChild_eq_some _ _ _ _ hgdI, tgetChild_eq_some _ _ _ _ hgd]
              have hszc : sizeOf c ≤ n := by
                have := sizeOf_child_lt cs bv c i' hgd
                omega
              have hwfc : wfNode c :=
                wfChildren_getD cs (wfNode.eq_3 _ _ ▸ hwf).2 i' c hgd
              have hbc : bndNode c :=
                bndChildren_getD cs (by rwa [bndNode] at hb) i' c hgd
              apply ih c hszc k2 rest' v
              · intro he
                apply hne
                rw [he]
              · exact fun x hx => hk x (List.mem_cons_of_mem _ hx)
              · exact hwfc
              · exact hbc
          · rw [tgetChild_eq, tgetChild_eq,
              tinsertChild_getD_other cs i i' k2 v hii]
    | ext p c =>
      have hbp : ∀ x ∈ p, x < 16 := (bndNode.eq_2 _ _ ▸ hb).1
      have hbc : bndNode c := (bndNode.eq_2 _ _ ▸ hb).2
      have hwfc : wfNode c := (wfNode.eq_2 _ _ ▸ hwf).2
      have hszc : sizeOf c ≤ n := by
        have := sizeOf_ext_child p c
        omega
      conv_rhs => rw [tget]
      simp only [tinsert]
      by_cases hm : commonPrefixLen k p = p.length
      · rw [if_pos hm]
        conv_lhs => rw [tget]
        by_cases hp' : k'.take p.length = p
        · rw [if_pos hp', if_pos hp']
          have hktp : k.take p.length = p := cpl_prefix_of_eq_length k p hm
          rw [← hm]
          apply ih c hszc
          · rw [hm]
            intro he
            apply hne
            have h1 : k' = k'.take p.length ++ k'.drop p.length :=
              (List.take_append_drop _ k').symm
            have h2 : k = k.take p.length ++ k.drop p.length :=
              (List.take_append_drop _ k).symm
            rw [h1, h2, hp', hktp, he]
          · exact fun x hx => hk x (List.drop_subset _ _ hx)
          · exact hwfc
          · exact hbc
        · rw [if_neg hp', if_neg hp']
      · rw [if_neg hm]
        have hmk := cpl_le_left k p
        have hmp := cpl_le_right k p
        have htake := cpl_take k p
        rw [tget_mkShort_gen]
        generalize hM : commonPrefixLen k p = m at hmk hmp htake hm ⊢
        have hmlt : m < p.length := by omega
        have hprelen : (k.take m).length = m := by
          rw [List.length_take]
          omega
        rw [hprelen]
        have hkdec : k.take m ++ k.drop m = k := List.take_append_drop _ k
        have hpdec : k.take m ++ p.drop m = p := by
          rw [htake]
          exact List.take_append_drop _ p
        generalize hPRE : k.take m = pre at htake hkdec hpdec hprelen ⊢
        by_cases hq : k'.take m = pre
        · rw [if_pos hq]
          have hqdec : pre ++ k'.drop m = k' := by
            conv_rhs => rw [← List.take_append_drop m k']
            rw [hq]
          cases hpd : p.drop m with
          | nil =>
            exfalso
            rw [List.drop_eq_nil_iff_le] at hpd
            omega
          | cons jp restp =>
            rw [hpd] at hpdec
            have hjp16 : jp < 16 := by
              apply hbp
              rw [← hpdec]
              exact List.mem_append_right _ (List.mem_cons_self _ _)
            cases hkd : k.drop m with
            | nil =>
              rw [hkd, List.append_nil] at hkdec
              simp only [placeRest, List.tail_cons]
              cases hqd : k'.drop m with
              | nil =>
                rw [hqd, List.append_nil] at hqdec
                exact absurd (hqdec.symm.trans hkdec) hne
              | cons jq restq =>
                rw [hqd] at hqdec
                conv_lhs => rw [tget]
                by_cases hjq : jq = jp
                · have hgd : (emptyChildren.set jp
                      (some (mkShort restp c))).getD jq none
                      = some (mkShort restp c) := by
                    rw [hjq]
                    apply getD_set_self
                    simpa [emptyChildren] using hjp16
                  rw [tgetChild_eq_some _ _ _ _ hgd]
                  rw [tget_mkShort_gen]
                  by_cases hr : restq.take restp.length = restp
                  · have hcond : k'.take p.length = p := by
                      rw [← hqdec, ← hpdec, hjq]
                      exact (take_append_cons_eq_iff _ _ _ _ _).mpr ⟨rfl, hr⟩
                    rw [if_pos hr, if_pos hcond]
                    have hdrop : k'.drop p.length = restq.drop restp.length := by
                      rw [← hqdec, ← hpdec, hjq]
                      exact drop_append_cons _ _ _ _
                    rw [hdrop]
                  · have hcond : ¬ (k'.take p.length = p) := by
                      intro he
                      rw [← hqdec, ← hpdec] at he
                      exact hr ((take_append_cons_eq_iff _ _ _ _ _).mp he).2
                    rw [if_neg hr, if_neg hcond]
                · have hgd : (emptyChildren.set jp
                      (some (mkShort restp c))).getD jq none = none := by
                    rw [getD_set_other _ _ _ _ hjq]
                    exact getD_replicate_none 16 jq
                  rw [tgetChild_eq_none _ _ _ hgd]
                  have hcond : ¬ (k'.take p.length = p) := by
                    intro he
                    rw [← hqdec, ← hpdec] at he
                    exact hjq ((take_append_cons_eq_iff _ _ _ _ _).mp he).1
                  rw [if_neg hcond]
            | cons jk restk =>
              rw [hkd] at hkdec
              have hjk16 : jk < 16 := by
                apply hk
                rw [← hkdec]
                exact List.mem_append_right _ (List.mem_cons_self _ _)
              have hjpjk : jk ≠ jp := by
                apply cpl_drop_ne k p jk jp restk restp
                · rw [hM]
                  exact hkd
                · rw [hM]
                  exact hpd
              simp only [placeRest, List.tail_cons]
              cases hqd : k'.drop m with
              | nil =>
                rw [hqd, List.append_nil] at hqdec
                conv_lhs => rw [tget]
                have hk'len : k'.length = m := by
                  rw [← hqdec, hprelen]
                have hcond : ¬ (k'.take p.length = p) := by
                  intro he
                  have hlen2 := congrArg List.length he
                  rw [List.length_take, hk'len] at hlen2
                  omega
                rw [if_neg hcond]
              | cons jq restq =>
                rw [hqd] at hqdec
                conv_lhs => rw [tget]
                by_cases hjq : jq = jk
                · have hgd : ((emptyChildren.set jp
                      (some (mkShort restp c))).set jk
                      (some (TNode.leaf restk v))).getD jq none
                      = some (TNode.leaf restk v) := by
                    rw [hjq]
                    apply getD_set_self
                    rw [List.length_set]
                    simpa [emptyChildren] using hjk16
                  rw [tgetChild_eq_some _ _ _ _ hgd]
                  conv_lhs => rw [tget]
                  have hr : ¬ (restq = restk) := by
                    intro he
                    apply hne
                    rw [← hqdec, ← hkdec, hjq, he]
                  have hcond : ¬ (k'.take p.length = p) := by
                    intro he
                    rw [← hqdec, ← hpdec] at he
                    exact hjpjk
                      (hjq ▸ ((take_append_cons_eq_iff _ _ _ _ _).mp he).1)
                  rw [if_neg hr, if_neg hcond]
                · by_cases hjq2 : jq = jp
                  · have hgd : ((emptyChildren.set jp
                        (some (mkShort restp c))).set jk
                        (some (TNode.leaf restk v))).getD jq none
                        = some (mkShort restp c) := by
                      rw [getD_set_other _ _ _ _ hjq, hjq2]
                      apply getD_set_self
                      simpa [emptyChildren] using hjp16
                    rw [tgetChild_eq_some _ _ _ _ hgd]
                    rw [tget_mkShort_gen]
                    by_cases hr : restq.take restp.length = restp
                    · have hcond : k'.take p.length = p := by
                        rw [← hqdec, ← hpdec, hjq2]
                        exact (take_append_cons_eq_iff _ _ _ _ _).mpr ⟨rfl, hr⟩
                      rw [if_pos hr, if_pos hcond]
                      have hdrop : k'.drop p.length
                          = restq.drop restp.length := by
                        rw [← hqdec, ← hpdec, hjq2]
                        exact drop_append_cons _ _ _ _
                      rw [hdrop]
                    · have hcond : ¬ (k'.take p.length = p) := by
                        intro he
                        rw [← hqdec, ← hpdec] at he
                        exact hr ((take_append_cons_eq_iff _ _ _ _ _).mp he).2
                      rw [if_neg hr, if_neg hcond]
                  · have hgd : ((emptyChildren.set jp
                        (some (mkShort restp c))).set jk
                        (some (TNode.leaf restk v))).getD jq none = none := by
                      rw [getD_set_other _ _ _ _ hjq,
                        getD_set_other _ _ _ _ hjq2]
                      exact getD_replicate_none 16 jq
                    rw [tgetChild_eq_none _ _ _ hgd]
                    have hcond : ¬ (k'.take p.length = p) := by
                      intro he
                      rw [← hqdec, ← hpdec] at he
                      exact hjq2 ((take_append_cons_eq_iff _ _ _ _ _).mp he).1
                    rw [if_neg hcond]
        · rw [if_neg hq]
          have hcond : ¬ (k'.take p.length = p) := by
            intro he
            apply hq
            have h2 := congrArg (List.take m) he
            rw [List.take_take, Nat.min_eq_left hmp] at h2
            rw [h2, htake]
          rw [if_neg hcond]

theorem tget_tinsert_other (t : TNode) (k k' : List Nat) (v : Bytes)
    (hne : k' ≠ k) (hk : ∀ x ∈ k, x < 16) (hwf : wfNode t) (hb : bndNode t) :
    tget (tinsert t k v) k' = tget t k' :=
  tget_tinsert_other_size (sizeOf t) t (Nat.le_refl _) k k' v hne hk hwf hb

/-- Well-formedness of an optional root. -/
def wfTrie : Option TNode → Prop
  | none => True
  | some r => wfNode r

/-- Nibble-boundedness of an optional root. -/
def bndTrie : Option TNode → Prop
  | none => True
  | some r => bndNode r

theorem wfTrie_trieUpdate (t : Option TNode) (key v : Bytes) (h : wfTrie t) :
    wfTrie (trieUpdate t key v) := by
  cases t with
  | none =>
    rw [trieUpdate, wfTrie, wfNode]
    trivial
  | some r =>
    rw [trieUpdate, wfTrie]
    exact wf_tinsert r _ v (by rwa [wfTrie] at h)

theorem bndTrie_trieUpdate (t : Option TNode) (key v : Bytes)
    (hkey : ∀ b ∈ key, b < 256) (h : bndTrie t) :
    bndTrie (trieUpdate t key v) := by
  cases t with
  | none =>
    rw [trieUpdate, bndTrie, bndNode]
    exact keyNibbles_lt key hkey
  | some r =>
    rw [trieUpdate, bndTrie]
    exact bnd_tinsert r _ v (keyNibbles_lt key hkey) (by rwa [bndTrie] at h)

theorem trieUpdate_isSome (t : Option TNode) (key v : Bytes) :
    (trieUpdate t key v).isSome := by
  cases t <;> rfl

theorem foldl_trieUpdate_isSome : ∀ (kvs : List (Bytes × Bytes))
    (t0 : Option TNode), t0.isSome →
    (kvs.foldl (fun t kv => trieUpdate t kv.1 kv.2) t0).isSome := by
  intro kvs
  induction kvs with
  | nil => intro t0 h; exact h
  | cons x rest ih =>
    intro t0 h
    rw [List.foldl_cons]
    exact ih _ (trieUpdate_isSome _ _ _)

theorem wfTrie_foldl : ∀ (kvs : List (Bytes × Bytes)) (t0 : Option TNode),
    wfTrie t0 →
    wfTrie (kvs.foldl (fun t kv => trieUpdate t kv.1 kv.2) t0) := by
  intro kvs
  induction kvs with
  | nil => intro t0 h; exact h
  | cons x rest ih =>
    intro t0 h
    rw [List.foldl_cons]
    exact ih _ (wfTrie_trieUpdate _ _ _ h)

theorem bndTrie_foldl : ∀ (kvs : List (Bytes × Bytes)) (t0 : Option TNode),
    bndTrie t0 → (∀ kv ∈ kvs, ∀ b ∈ kv.1, b < 256) →
    bndTrie (kvs.foldl (fun t kv => trieUpdate t kv.1 kv.2) t0) := by
  intro kvs
  induction kvs with
  | nil => intro t0 h _; exact h
  | cons x rest ih =>
    intro t0 h hkeys
    rw [List.foldl_cons]
    refine ih _ (bndTrie_trieUpdate _ _ _ ?_ h)
      (fun kv hkv => hkeys kv (List.mem_cons_of_mem _ hkv))
    exact hkeys x (List.mem_cons_self _ _)

theorem lookupLast_cons (k0 v0 : Bytes) (rest : List (Bytes × Bytes))
    (key : Bytes) :
    lookupLast ((k0, v0) :: rest) key
      = match lookupLast rest key with
        | some v => some v
        | none => if k0 = key then some v0 else none := by
  rw [lookupLast, lookupLast]
  rw [List.reverse_cons, List.find?_append]
  cases hf : rest.reverse.find? (fun kv => kv.1 = key) with
  | some kv =>
    simp
  | none =>
    by_cases h : k0 = key
    · simp [List.find?, h]
    · simp [List.find?, h]

theorem tget_leaf (p : List Nat) (v : Bytes) (k : List Nat) :
    tget (TNode.leaf p v) k = if k = p then some v else none := by
  cases k <;> rfl

theorem trieGet_foldl : ∀ (kvs : List (Bytes × Bytes)) (t0 : Option TNode),
    wfTrie t0 → bndTrie t0 →
    (∀ kv ∈ kvs, ∀ b ∈ kv.1, b < 256) →
    ∀ (key : Bytes), (∀ b ∈ key, b < 256) →
    trieGet (kvs.foldl (fun t kv => trieUpdate t kv.1 kv.2) t0) key
      = match lookupLast kvs key with
        | some v => some v
        | none => trieGet t0 key := by
  intro kvs
  induction kvs with
  | nil =>
    intro t0 _ _ _ key _
    rw [List.foldl_nil]
    rw [show lookupLast [] key = none from rfl]
  | cons x rest ih =>
    intro t0 hwf hbnd hkeys key hkey
    obtain ⟨k0, v0⟩ := x
    have hk0 : ∀ b ∈ k0, b < 256 := hkeys (k0, v0) (List.mem_cons_self _ _)
    rw [List.foldl_cons]
    rw [ih (trieUpdate t0 k0 v0) (wfTrie_trieUpdate _ _ _ hwf)
      (bndTrie_trieUpdate _ _ _ hk0 hbnd)
      (fun kv hkv => hkeys kv (List.mem_cons_of_mem _ hkv)) key hkey]
    rw [lookupLast_cons]
    cases hl : lookupLast rest key with
    | some v => rfl
    | none =>
      dsimp only
      by_cases hk0k : k0 = key
      · cases t0 with
        | none =>
          rw [trieUpdate, trieGet, trieGet, tget_leaf]
          rw [if_pos (by rw [hk0k])]
          rw [if_pos hk0k]
        | some root =>
          rw [trieUpdate, trieGet]
          rw [hk0k]
          rw [tget_tinsert_self root _ v0 (keyNibbles_lt key hkey)
            (by rwa [wfTrie] at hwf)]
          rw [if_pos rfl]
      · have hnib : keyNibbles key ≠ keyNibbles k0 := by
          intro he
          exact hk0k (keyNibbles_inj he).symm
        cases t0 with
        | none =>
          rw [trieUpdate, trieGet, trieGet, tget_leaf]
          rw [if_neg hnib]
          rw [if_neg hk0k]
        | some root =>
          rw [trieUpdate, trieGet]
          rw [tget_tinsert_other root _ _ v0 hnib (keyNibbles_lt k0 hk0)
            (by rwa [wfTrie] at hwf) (by rwa [bndTrie] at hbnd)]
          rw [if_neg hk0k]
          rfl

theorem trieGet_trieBuild (kvs : List (Bytes × Bytes))
    (hkeys : ∀ kv ∈ kvs, ∀ b ∈ kv.1, b < 256)
    (key : Bytes) (hkey : ∀ b ∈ key, b < 256) :
    trieGet (trieBuild kvs) key
      = match lookupLast kvs key with
        | some v => some v
        | none => none := by
  rw [trieBuild]
  rw [trieGet_foldl kvs none trivial trivial hkeys key hkey]
  cases lookupLast kvs key <;> rfl

theorem getD_map_children (H : Bytes → Bytes) (cs : List (Option TNode))
    (i : Nat) :
    (cs.map (Option.map (fun c => H (encNode H c)))).getD i none
      = Option.map (fun c => H (encNode H c)) (cs.getD i none) := by
  induction cs generalizing i with
  | nil => simp [List.getD]
  | cons oc rest ih =>
    cases i with
    | zero => cases oc <;> rfl
    | succ j =>
      simp only [List.map_cons, List.getD, List.getElem?_cons_succ]
      have := ih j
      simpa [List.getD] using this

theorem mem_provePath_self (t : TNode) (k : List Nat) : t ∈ provePath t k := by
  cases t with
  | leaf p v =>
    rw [provePath]
    exact List.mem_cons_self _ _
  | ext p c =>
    rw [provePath]
    by_cases h : k.take p.length = p
    · rw [if_pos h]
      exact List.mem_cons_self _ _
    · rw [if_neg h]
      exact List.mem_cons_self _ _
  | branch cs v =>
    cases k with
    | nil =>
      rw [provePath]
      exact List.mem_cons_self _ _
    | cons i k' =>
      rw [provePath]
      exact List.mem_cons_self _ _

theorem proveChild_eq_none (cs : List (Option TNode)) (i : Nat) (k : List Nat)
    (h : cs.getD i none = none) : proveChild cs i k = [] := by
  rw [proveChild_eq, h]

theorem proveChild_eq_some (cs : List (Option TNode)) (i : Nat) (k : List Nat)
    (c : TNode) (h : cs.getD i none = some c) :
    proveChild cs i k = provePath c k := by
  rw [proveChild_eq, h]

theorem verifyWalk_complete (H : Bytes → Bytes) (st : List (Bytes × Bytes)) :
    ∀ (n : Nat) (t : TNode), sizeOf t ≤ n → ∀ (k : List Nat), wfNode t →
    (∀ m ∈ provePath t k, storeLookup st (H (encNode H m)) = some (encNode H m)) →
    verifyWalk H st (H (encNode H t)) k
      = .ok (tget t k, (provePath t k).length,
             (provePath t k).map (fun m => H (encNode H m))) := by
  intro n
  induction n with
  | zero =>
    intro t hsz
    have := one_le_sizeOf_TNode t
    omega
  | succ n ih =>
    intro t hsz k hwf hst
    have hself : storeLookup st (H (encNode H t)) = some (encNode H t) :=
      hst t (mem_provePath_self t k)
    cases t with
    | leaf p v =>
      rw [verifyWalk, hself]
      dsimp only
      rw [if_pos rfl, decodeNode_encNode H _ hwf]
      dsimp only [shallowOf]
      rw [provePath, tget_leaf]
      rfl
    | ext p c =>
      have hp : p ≠ [] := (wfNode.eq_2 _ _ ▸ hwf).1
      have hwfc : wfNode c := (wfNode.eq_2 _ _ ▸ hwf).2
      have hszc : sizeOf c ≤ n := by
        have := sizeOf_ext_child p c
        omega
      rw [verifyWalk, hself]
      dsimp only
      rw [if_pos rfl, decodeNode_encNode H _ hwf]
      dsimp only [shallowOf]
      rw [dif_neg hp]
      by_cases hpre : k.take p.length = p
      · rw [dif_pos hpre]
        have hst2 : ∀ m ∈ provePath c (k.drop p.length),
            storeLookup st (H (encNode H m)) = some (encNode H m) := by
          intro m hm
          apply hst
          rw [provePath, if_pos hpre]
          exact List.mem_cons_of_mem _ hm
        rw [ih c hszc (k.drop p.length) hwfc hst2]
        rw [provePath, if_pos hpre]
        conv_rhs => rw [tget]
        rw [if_pos hpre]
        rfl
      · rw [dif_neg hpre]
        rw [provePath, if_neg hpre]
        conv_rhs => rw [tget]
        rw [if_neg hpre]
        rfl
    | branch cs v =>
      have hwfc := (wfNode.eq_3 _ _ ▸ hwf).2
      rw [verifyWalk, hself]
      dsimp only
      rw [if_pos rfl, decodeNode_encNode H _ hwf]
      dsimp only [shallowOf]
      cases k with
      | nil =>
        dsimp only
        rw [provePath]
        rfl
      | cons i k' =>
        dsimp only
        rw [getD_map_children]
        cases hgd : cs.getD i none with
        | none =>
          rw [show Option.map (fun c => H (encNode H c))
            (none : Option TNode) = none from rfl]
          dsimp only
          rw [provePath, proveChild_eq_none cs i k' hgd]
          conv_rhs => rw [tget]
          rw [tgetChild_eq_none cs i k' hgd]
          rfl
        | some c =>
          have hszc : sizeOf c ≤ n := by
            have := sizeOf_child_lt cs v c i hgd
            omega
          have hwfc2 : wfNode c := wfChildren_getD cs hwfc i c hgd
          have hst2 : ∀ m ∈ provePath c k',
              storeLookup st (H (encNode H m)) = some (encNode H m) := by
            intro m hm
            apply hst
            rw [provePath, proveChild_eq_some cs i k' c hgd]
            exact List.mem_cons_of_mem _ hm
          rw [show Option.map (fun c => H (encNode H c)) (some c)
            = some (H (encNode H c)) from rfl]
          dsimp only
          rw [ih c hszc k' hwfc2 hst2]
          rw [provePath, proveChild_eq_some cs i k' c hgd]
          conv_rhs => rw [tget]
          rw [tgetChild_eq_some cs i k' c hgd]
          rfl

theorem proveFold_lookup (H : Bytes → Bytes) (hinj : Function.Injective H) :
    ∀ (nodes : List TNode) (db0 : List (Bytes × Bytes)) (t : TNode),
    (t ∈ nodes ∨ storeLookup db0 (H (encNode H t)) = some (encNode H t)) →
    storeLookup
      (nodes.foldl
        (fun db m => storeInsert db (H (encNode H m)) (encNode H m)) db0)
      (H (encNode H t)) = some (encNode H t) := by
  intro nodes
  induction nodes with
  | nil =>
    intro db0 t h
    rcases h with h | h
    · simp at h
    · exact h
  | cons m rest ih =>
    intro db0 t h
    rw [List.foldl_cons]
    apply ih
    rcases h with h | h
    · rcases List.mem_cons.mp h with he | hm
      · right
        subst he
        exact storeLookup_insert_self _ _ _
      · left
        exact hm
    · right
      by_cases he : H (encNode H t) = H (encNode H m)
      · have h2 := hinj he
        rw [he, h2]
        exact storeLookup_insert_self _ _ _
      · rw [storeLookup_insert_other _ _ _ _ he]
        exact h

theorem proveFold_keys_nodup (H : Bytes → Bytes) :
    ∀ (nodes : List TNode) (db0 : List (Bytes × Bytes)),
    (db0.map Prod.fst).Nodup →
    (((nodes.foldl
        (fun db m => storeInsert db (H (encNode H m)) (encNode H m))
        db0)).map Prod.fst).Nodup := by
  intro nodes
  induction nodes with
  | nil => intro db0 h; exact h
  | cons m rest ih =>
    intro db0 h
    rw [List.foldl_cons]
    exact ih _ (storeInsert_keys_nodup _ _ _ h)

/-- C2: for every randomized key/value set of at most 500 entries over real
byte strings (each byte < 256), and every key whose latest inserted value is
`v`, verifying the proof produced by `Prove` for that key against the trie
root returns exactly `v` (at some depth) with no error, for any injective
(collision-free) hash. -/
theorem C2_theorem (H : Bytes → Bytes) (hinj : Function.Injective H)
    (kvs : List (Bytes × Bytes)) (hlen : kvs.length ≤ 500)
    (hkeys : ∀ kv ∈ kvs, ∀ b ∈ kv.1, b < 256)
    (k v : Bytes) (hk : ∀ b ∈ k, b < 256)
    (hlast : lookupLast kvs k = some v) :
    ∃ d : Nat, VerifyProof H (trieHash H (trieBuild kvs)) k
      (Prove H (trieBuild kvs) k 0 []) = .ok (some v, d) := by
  have hne : kvs ≠ [] := by
    intro he
    rw [he] at hlast
    cases hlast
  have hsome : (trieBuild kvs).isSome := by
    cases kvs with
    | nil => exact absurd rfl hne
    | cons x rest =>
      rw [trieBuild, List.foldl_cons]
      exact foldl_trieUpdate_isSome rest _ (trieUpdate_isSome _ _ _)
  obtain ⟨root, hroot⟩ := Option.isSome_iff_exists.mp hsome
  have hwfr : wfNode root := by
    have := wfTrie_foldl kvs none trivial
    rw [show kvs.foldl (fun t kv => trieUpdate t kv.1 kv.2) none
      = trieBuild kvs from rfl, hroot] at this
    exact this
  have hbndr : bndNode root := by
    have := bndTrie_foldl kvs none trivial hkeys
    rw [show kvs.foldl (fun t kv => trieUpdate t kv.1 kv.2) none
      = trieBuild kvs from rfl, hroot] at this
    exact this
  have htg : tget root (keyNibbles k) = some v := by
    have := trieGet_trieBuild kvs hkeys k hk
    rw [hroot, hlast] at this
    exact this
  have hProve : Prove H (trieBuild kvs) k 0 []
      = (provePath root (keyNibbles k)).foldl
          (fun db m => storeInsert db (H (encNode H m)) (encNode H m)) [] := by
    rw [hroot, Prove, List.drop_zero]
  have hstore : ∀ m ∈ provePath root (keyNibbles k),
      storeLookup (Prove H (trieBuild kvs) k 0 []) (H (encNode H m))
        = some (encNode H m) := by
    intro m hm
    rw [hProve]
    exact proveFold_lookup H hinj _ [] m (Or.inl hm)
  have hwalk := verifyWalk_complete H (Prove H (trieBuild kvs) k 0 [])
    (sizeOf root) root (Nat.le_refl _) (keyNibbles k) hwfr hstore
  refine ⟨(provePath root (keyNibbles k)).length, ?_⟩
  rw [VerifyProof]
  rw [show trieHash H (trieBuild kvs) = H (encNode H root) by
    rw [hroot, trieHash]]
  rw [hwalk, htg]
  rfl

/-- Witness for C2 at a concrete two-entry map and the identity hash. -/
theorem C2_witness :
    ∃ d : Nat, VerifyProof id
      (trieHash id (trieBuild [([107], [118]), ([97], [99])])) [97]
      (Prove id (trieBuild [([107], [118]), ([97], [99])]) [97] 0 [])
      = .ok (some [99], d) :=
  C2_theorem id Function.injective_id [([107], [118]), ([97], [99])]
    (by decide) (by decide) [97] [99] (by decide) (by decide)

theorem provePath_leaf (p : List Nat) (v : Bytes) (k : List Nat) :
    provePath (TNode.leaf p v) k = [TNode.leaf p v] := by
  cases k <;> rfl

theorem one_leaf_verify (H : Bytes → Bytes) (key : Bytes) :
    VerifyProof H (trieHash H (trieBuild [([107], [118])])) key
      (Prove H (trieBuild [([107], [118])]) key 0 [])
      = .ok (tget (TNode.leaf [6, 11] [118]) (keyNibbles key), 1) := by
  have hwf : wfNode (TNode.leaf [6, 11] [118]) := by
    rw [wfNode]
    trivial
  have hProve : Prove H (trieBuild [([107], [118])]) key 0 []
      = [(H (encNode H (TNode.leaf [6, 11] [118])),
          encNode H (TNode.leaf [6, 11] [118]))] := by
    rw [show trieBuild [([107], [118])]
      = some (TNode.leaf [6, 11] [118]) from rfl]
    rw [Prove, List.drop_zero, provePath_leaf]
    rfl
  have hst : ∀ m ∈ provePath (TNode.leaf [6, 11] [118]) (keyNibbles key),
      storeLookup (Prove H (trieBuild [([107], [118])]) key 0 [])
        (H (encNode H m)) = some (encNode H m) := by
    intro m hm
    rw [provePath_leaf] at hm
    rcases List.mem_singleton.mp hm with rfl
    rw [hProve]
    simp [storeLookup]
  have hwalk := verifyWalk_complete H
    (Prove H (trieBuild [([107], [118])]) key 0 [])
    (sizeOf (TNode.leaf [6, 11] [118])) (TNode.leaf [6, 11] [118])
    (Nat.le_refl _) (keyNibbles key) hwf hst
  rw [VerifyProof]
  rw [show trieHash H (trieBuild [([107], [118])])
    = H (encNode H (TNode.leaf [6, 11] [118])) from rfl]
  rw [hwalk, provePath_leaf]
  rfl

/-- C4: the single-entry trie with key "k" (byte 107) and value "v" (byte
118) yields a one-node proof for key "k" whose verification returns the
value at depth 1, and each of the absent keys "a", "j", "l", "z" (bytes 97,
106, 108, 122) also yields a one-node proof whose verification returns
absent (no value) with no error, for every hash function. -/
theorem C4_theorem (H : Bytes → Bytes) :
    (Prove H (trieBuild [([107], [118])]) [107] 0 []).length = 1 ∧
    VerifyProof H (trieHash H (trieBuild [([107], [118])])) [107]
      (Prove H (trieBuild [([107], [118])]) [107] 0 [])
      = .ok (some [118], 1) ∧
    (∀ a ∈ [[97], [106], [108], [122]],
      (Prove H (trieBuild [([107], [118])]) a 0 []).length = 1 ∧
      VerifyProof H (trieHash H (trieBuild [([107], [118])])) a
        (Prove H (trieBuild [([107], [118])]) a 0 [])
        = .ok (none, 1)) := by
  refine ⟨rfl, ?_, ?_⟩
  · rw [one_leaf_verify]
    rfl
  · intro a ha
    simp only [List.mem_cons, List.not_mem_nil, or_false] at ha
    rcases ha with rfl | rfl | rfl | rfl <;>
      exact ⟨rfl, by rw [one_leaf_verify]; rfl⟩

/-- Witness for C4: the absent key "a" at the concrete instance H = id. -/
theorem C4_witness :
    VerifyProof id (trieHash id (trieBuild [([107], [118])])) [97]
      (Prove id (trieBuild [([107], [118])]) [97] 0 [])
      = .ok (none, 1) :=
  ((C4_theorem id).2.2 [97] (by decide)).2

theorem verifyWalk_missing (H : Bytes → Bytes) (st : List (Bytes × Bytes))
    (h : Bytes) (k : List Nat) (hlk : storeLookup st h = none) :
    verifyWalk H st h k = .error .missing := by
  rw [verifyWalk, hlk]

theorem verifyWalk_mismatch (H : Bytes → Bytes) (st : List (Bytes × Bytes))
    (h b : Bytes) (k : List Nat) (hlk : storeLookup st h = some b)
    (hH : ¬ (H b = h)) : verifyWalk H st h k = .error .hashMismatch := by
  rw [verifyWalk, hlk]
  dsimp only
  rw [if_neg hH]

theorem verifyWalk_decodeFail (H : Bytes → Bytes) (st : List (Bytes × Bytes))
    (h b : Bytes) (k : List Nat) (hlk : storeLookup st h = some b)
    (hH : H b = h) (hdec : decodeNode b = none) :
    verifyWalk H st h k = .error .decodeFail := by
  rw [verifyWalk, hlk]
  dsimp only
  rw [if_pos hH, hdec]

theorem verifyWalk_sleaf (H : Bytes → Bytes) (st : List (Bytes × Bytes))
    (h b : Bytes) (k p : List Nat) (v : Bytes)
    (hlk : storeLookup st h = some b) (hH : H b = h)
    (hdec : decodeNode b = some (.sleaf p v)) :
    verifyWalk H st h k = .ok (if k = p then some v else none, 1, [h]) := by
  rw [verifyWalk, hlk]
  dsimp only
  rw [if_pos hH, hdec]

theorem verifyWalk_sextFail (H : Bytes → Bytes) (st : List (Bytes × Bytes))
    (h b : Bytes) (k : List Nat) (hc : Bytes)
    (hlk : storeLookup st h = some b) (hH : H b = h)
    (hdec : decodeNode b = some (.sext [] hc)) :
    verifyWalk H st h k = .error .decodeFail := by
  rw [verifyWalk, hlk]
  dsimp only
  rw [if_pos hH, hdec]
  dsimp only
  rw [dif_pos rfl]

theorem verifyWalk_sext_go (H : Bytes → Bytes) (st : List (Bytes × Bytes))
    (h b : Bytes) (k p : List Nat) (hc : Bytes)
    (hlk : storeLookup st h = some b) (hH : H b = h)
    (hdec : decodeNode b = some (.sext p hc)) (hp0 : p ≠ [])
    (hpre : k.take p.length = p) :
    verifyWalk H st h k
      = match verifyWalk H st hc (k.drop p.length) with
        | .ok r => .ok (r.1, r.2.1 + 1, h :: r.2.2)
        | .error er => .error er := by
  rw [verifyWalk, hlk]
  dsimp only
  rw [if_pos hH, hdec]
  dsimp only
  rw [dif_neg hp0, dif_pos hpre]

theorem verifyWalk_sext_stop (H : Bytes → Bytes) (st : List (Bytes × Bytes))
    (h b : Bytes) (k p : List Nat) (hc : Bytes)
    (hlk : storeLookup st h = some b) (hH : H b = h)
    (hdec : decodeNode b = some (.sext p hc)) (hp0 : p ≠ [])
    (hnpre : ¬ (k.take p.length = p)) :
    verifyWalk H st h k = .ok (none, 1, [h]) := by
  rw [verifyWalk, hlk]
  dsimp only
  rw [if_pos hH, hdec]
  dsimp only
  rw [dif_neg hp0, dif_neg hnpre]

theorem verifyWalk_sbranch_nil (H : Bytes → Bytes) (st : List (Bytes × Bytes))
    (h b : Bytes) (refs : List (Option Bytes)) (v : Option Bytes)
    (hlk : storeLookup st h = some b) (hH : H b = h)
    (hdec : decodeNode b = some (.sbranch refs v)) :
    verifyWalk H st h [] = .ok (v, 1, [h]) := by
  rw [verifyWalk, hlk]
  dsimp only
  rw [if_pos hH, hdec]

theorem verifyWalk_sbranch_none (H : Bytes → Bytes)
    (st : List (Bytes × Bytes)) (h b : Bytes) (refs : List (Option Bytes))
    (v : Option Bytes) (i : Nat) (tail : List Nat)
    (hlk : storeLookup st h = some b) (hH : H b = h)
    (hdec : decodeNode b = some (.sbranch refs v))
    (hslot : refs.getD i none = none) :
    verifyWalk H st h (i :: tail) = .ok (none, 1, [h]) := by
  rw [verifyWalk, hlk]
  dsimp only
  rw [if_pos hH, hdec]
  dsimp only
  rw [hslot]

theorem verifyWalk_sbranch_some (H : Bytes → Bytes)
    (st : List (Bytes × Bytes)) (h b : Bytes) (refs : List (Option Bytes))
    (v : Option Bytes) (i : Nat) (tail : List Nat) (b1 : Bytes)
    (hlk : storeLookup st h = some b) (hH : H b = h)
    (hdec : decodeNode b = some (.sbranch refs v))
    (hslot : refs.getD i none = some b1) :
    verifyWalk H st h (i :: tail)
      = match verifyWalk H st b1 tail with
        | .ok r => .ok (r.1, r.2.1 + 1, h :: r.2.2)
        | .error er => .error er := by
  rw [verifyWalk, hlk]
  dsimp only
  rw [if_pos hH, hdec]
  dsimp only
  rw [hslot]

theorem mutate_here (H : Bytes → Bytes) (hinj : Function.Injective H)
    (st : List (Bytes × Bytes)) (b v v' : Bytes)
    (hv : storeLookup st (H b) = some v) (hlk : storeLookup st (H b) = some b)
    (hvne : v' ≠ v) (k : List Nat) :
    verifyWalk H (storeInsert st (H b) v') (H b) k = .error .hashMismatch := by
  have hvb : v = b := Option.some.inj (hv.symm.trans hlk)
  apply verifyWalk_mismatch H _ (H b) v' k (storeLookup_insert_self st (H b) v')
  intro he
  apply hvne
  rw [hvb]
  exact hinj he

theorem verifyWalk_mutate (H : Bytes → Bytes) (hinj : Function.Injective H)
    (st : List (Bytes × Bytes)) (hm v v' : Bytes)
    (hv : storeLookup st hm = some v) (hvne : v' ≠ v) :
    ∀ (h0 : Bytes) (k : List Nat),
    ∀ (r : Option Bytes × Nat × List Bytes),
      verifyWalk H st h0 k = .ok r → hm ∈ r.2.2 →
      verifyWalk H (storeInsert st hm v') h0 k = .error .hashMismatch := by
  intro h0 k
  induction h0, k using verifyWalk.induct H st with
  | case1 h k hl =>
    intro r hok htr
    rw [verifyWalk_missing H st h k hl] at hok
    simp at hok
  | case2 k b hdec hlk =>
    intro r hok htr
    rw [verifyWalk_decodeFail H st (H b) b k hlk rfl hdec] at hok
    simp at hok
  | case3 k b p v0 hdec hlk =>
    intro r hok htr
    rw [verifyWalk_sleaf H st (H b) b k p v0 hlk rfl hdec] at hok
    injection hok with hok2
    subst hok2
    simp at htr
    subst htr
    exact mutate_here H hinj st b v v' hv hlk hvne k
  | case4 k b hc hlk hdec =>
    intro r hok htr
    rw [verifyWalk_sextFail H st (H b) b k hc hlk rfl hdec] at hok
    simp at hok
  | case5 k b p hc hdec hp0 hpre r1 hrec hlk ih =>
    intro r hok htr
    rw [verifyWalk_sext_go H st (H b) b k p hc hlk rfl hdec hp0 hpre,
      hrec] at hok
    dsimp only at hok
    injection hok with hok2
    subst hok2
    by_cases hmb : hm = H b
    · subst hmb
      exact mutate_here H hinj st b v v' hv hlk hvne k
    · have htr2 : hm ∈ r1.2.2 := by
        rcases List.mem_cons.mp htr with he | h2
        · exact absurd he hmb
        · exact h2
      have hmut := ih r1 hrec htr2
      have hlk2 : storeLookup (storeInsert st hm v') (H b) = some b :=
        (storeLookup_insert_other st hm v' (H b)
          (fun he => hmb he.symm)).trans hlk
      rw [verifyWalk_sext_go H (storeInsert st hm v') (H b) b k p hc hlk2 rfl
        hdec hp0 hpre, hmut]
  | case6 k b p hc hdec hp0 hpre er hrec hlk ih =>
    intro r hok htr
    rw [verifyWalk_sext_go H st (H b) b k p hc hlk rfl hdec hp0 hpre,
      hrec] at hok
    dsimp only at hok
    simp at hok
  | case7 k b p hc hdec hp0 hnpre hlk =>
    intro r hok htr
    rw [verifyWalk_sext_stop H st (H b) b k p hc hlk rfl hdec hp0 hnpre] at hok
    injection hok with hok2
    subst hok2
    simp at htr
    subst htr
    exact mutate_here H hinj st b v v' hv hlk hvne k
  | case8 b refs v0 hdec hlk =>
    intro r hok htr
    rw [verifyWalk_sbranch_nil H st (H b) b refs v0 hlk rfl hdec] at hok
    injection hok with hok2
    subst hok2
    simp at htr
    subst htr
    exact mutate_here H hinj st b v v' hv hlk hvne []
  | case9 b refs v0 hdec i tail hslot hlk =>
    intro r hok htr
    rw [verifyWalk_sbranch_none H st (H b) b refs v0 i tail hlk rfl hdec
      hslot] at hok
    injection hok with hok2
    subst hok2
    simp at htr
    subst htr
    exact mutate_here H hinj st b v v' hv hlk hvne (i :: tail)
  | case10 b refs v0 hdec i tail b1 hslot r1 hrec hlk ih =>
    intro r hok htr
    rw [verifyWalk_sbranch_some H st (H b) b refs v0 i tail b1 hlk rfl hdec
      hslot, hrec] at hok
    dsimp only at hok
    injection hok with hok2
    subst hok2
    by_cases hmb : hm = H b
    · subst hmb
      exact mutate_here H hinj st b v v' hv hlk hvne (i :: tail)
    · have htr2 : hm ∈ r1.2.2 := by
        rcases List.mem_cons.mp htr with he | h2
        · exact absurd he hmb
        · exact h2
      have hmut := ih r1 hrec htr2
      have hlk2 : storeLookup (storeInsert st hm v') (H b) = some b :=
        (storeLookup_insert_other st hm v' (H b)
          (fun he => hmb he.symm)).trans hlk
      rw [verifyWalk_sbranch_some H (storeInsert st hm v') (H b) b refs v0 i
        tail b1 hlk2 rfl hdec hslot, hmut]
  | case11 b refs v0 hdec i tail b1 hslot er hrec hlk ih =>
    intro r hok htr
    rw [verifyWalk_sbranch_some H st (H b) b refs v0 i tail b1 hlk rfl hdec
      hslot, hrec] at hok
    dsimp only at hok
    simp at hok
  | case12 h k b hlb hnh =>
    intro r hok htr
    rw [verifyWalk_mismatch H st h b k hlb hnh] at hok
    simp at hok

theorem prove_keys_nodup (H : Bytes → Bytes) (t : Option TNode)
    (key : Bytes) (fromLevel : Nat) :
    ((Prove H t key fromLevel []).map Prod.fst).Nodup := by
  cases t with
  | none => simp [Prove]
  | some root =>
    rw [Prove]
    exact proveFold_keys_nodup H _ [] (by simp)

theorem set_ne_of_ne (w : Bytes) (i b : Nat) (hi : i < w.length)
    (hb : b ≠ w.get ⟨i, hi⟩) : w.set i b ≠ w := by
  intro he
  apply hb
  have h1 : (w.set i b)[i]? = some b := List.getElem?_set_eq hi
  rw [he] at h1
  rw [List.getElem?_eq_getElem hi] at h1
  rw [List.get_eq_getElem]
  exact (Option.some.inj h1).symm

/-- C3: for a proof store produced by `Prove`, and any key the proof covers
(its verification succeeds and consumes every stored node, the minimal-proof
reading of coverage), changing a single byte of any stored proof value makes
`VerifyProof` fail with a hash-mismatch error for that key, for any
injective (collision-free) hash. -/
theorem C3_theorem (H : Bytes → Bytes) (hinj : Function.Injective H)
    (t : Option TNode) (key0 k : Bytes)
    (st : List (Bytes × Bytes)) (hst : st = Prove H t key0 0 [])
    (r : Option Bytes × Nat × List Bytes)
    (hok : verifyWalk H st (trieHash H t) (keyNibbles k) = .ok r)
    (hcov : ∀ q ∈ st, q.1 ∈ r.2.2)
    (h w : Bytes) (hmem : (h, w) ∈ st)
    (i b : Nat) (hi : i < w.length) (hb : b ≠ w.get ⟨i, hi⟩) :
    VerifyProof H (trieHash H t) k (storeInsert st h (w.set i b))
      = .error .hashMismatch := by
  have hnodup : (st.map Prod.fst).Nodup := by
    rw [hst]
    exact prove_keys_nodup H t key0 0
  have hlkw : storeLookup st h = some w := storeLookup_of_mem st h w hmem hnodup
  have hw2 : w.set i b ≠ w := set_ne_of_ne w i b hi hb
  have htr : h ∈ r.2.2 := hcov (h, w) hmem
  have hmut := verifyWalk_mutate H hinj st h w (w.set i b) hlkw hw2
    (trieHash H t) (keyNibbles k) r hok htr
  rw [VerifyProof, hmut]
  rfl

/-- Witness for C3: the one-leaf trie, identity hash, first byte of the
stored node encoding flipped from 0 to 1. -/
theorem C3_witness :
    VerifyProof id (trieHash id (trieBuild [([107], [118])])) [107]
      (storeInsert (Prove id (trieBuild [([107], [118])]) [107] 0 [])
        [0, 2, 6, 11, 118] ([0, 2, 6, 11, 118].set 0 1))
      = .error .hashMismatch :=
  C3_theorem id Function.injective_id (trieBuild [([107], [118])])
    [107] [107] (Prove id (trieBuild [([107], [118])]) [107] 0 []) rfl
    (some [118], 1, [[0, 2, 6, 11, 118]])
    (by
      rw [verifyWalk_sleaf id (Prove id (trieBuild [([107], [118])]) [107] 0 [])
        (trieHash id (trieBuild [([107], [118])])) [0, 2, 6, 11, 118]
        (keyNibbles [107]) [6, 11] [118] rfl rfl rfl]
      rfl)
    (by decide) [0, 2, 6, 11, 118] [0, 2, 6, 11, 118] (by decide)
    0 1 (by decide) (by decide)
